import Mathlib

/-
  Verification development for the ch19_graph_algorithms library:
  a shallow embedding of lib/graph.py, lib/traversal.py, lib/tree.py and
  lib/topology.py, followed by theorems settling the specification claims.

  Modelling conventions:
  - Vertex labels are naturals (the Python code uses arbitrary ordered,
    hashable labels; the concrete examples use single letters A..G, mapped
    to 0..6, for which Python string comparison agrees with Nat order).
  - Weights are integers.
  - Python dicts (insertion ordered) are association lists.
  - A raised exception is modelled by a distinguished result (none, or a
    dedicated error constructor); loops without a structural measure take
    fuel, with a distinguished out-of-fuel result proved unreachable.
-/

set_option maxHeartbeats 1000000

namespace PyGraph

/-- Vertex labels. -/
abbrev V := Nat

/-- Edge weights. -/
abbrev W := Int

/-- Adjacency-matrix cell: the weighted no-edge sentinel float inf, or a number. -/
inductive Cell where
  | inf : Cell
  | val : Int → Cell
  deriving DecidableEq, Repr

/-- Python dict lookup on an association list (keys are unique by construction). -/
def alookup {α : Type} (m : List (V × α)) (k : V) : Option α :=
  match m with
  | [] => none
  | (k', v) :: rest => if k' = k then some v else alookup rest k

/-- Python dict assignment d[k] = val: replace in place, else append (insertion order). -/
def dset {α : Type} (m : List (V × α)) (k : V) (val : α) : List (V × α) :=
  match m with
  | [] => [(k, val)]
  | (k', v) :: rest => if k' = k then (k', val) :: rest else (k', v) :: dset rest k val

/-- Keys of an association list, in insertion order. -/
def keys {α : Type} (m : List (V × α)) : List V := m.map Prod.fst

/-- Python list.index (first occurrence; total here, callers guarantee membership). -/
def vindex (l : List V) (v : V) : Nat :=
  match l with
  | [] => 0
  | x :: xs => if x = v then 0 else vindex xs v + 1

/-- Graph.adj_list values: ordered lists of (neighbor, weight) pairs. -/
abbrev Adj := List (V × W)

/-- The Graph class of lib/graph.py: vertex list, flags, dual representation. -/
structure Graph where
  vertices : List V
  vertex_count : Nat
  is_directed : Bool
  is_weighted : Bool
  adj_list : List (V × Adj)
  adj_matrix : List (List Cell)
  deriving Repr

/-- Graph._build_matrix: n-by-n, weighted graphs get inf off-diagonal and 0 on
the diagonal, unweighted graphs get all zeros. -/
def build_matrix (n : Nat) (wt : Bool) : List (List Cell) :=
  (List.range n).map (fun i =>
    (List.range n).map (fun j =>
      if wt then (if i = j then Cell.val 0 else Cell.inf) else Cell.val 0))

/-- Graph.__init__ with an initial vertex list and the two flags. -/
def Graph.init (vs : List V) (dir wt : Bool) : Graph :=
  { vertices := vs
  , vertex_count := vs.length
  , is_directed := dir
  , is_weighted := wt
  , adj_list := vs.map (fun v => (v, []))
  , adj_matrix := build_matrix vs.length wt }

/-- Graph.add_vertex: append if absent, bump the count, give the vertex an empty
adjacency entry, and rebuild the whole matrix from scratch. -/
def add_vertex (g : Graph) (v : V) : Graph :=
  if v ∈ g.vertices then g
  else
    { g with vertices := g.vertices ++ [v]
           , vertex_count := g.vertex_count + 1
           , adj_list := dset g.adj_list v []
           , adj_matrix := build_matrix (g.vertex_count + 1) g.is_weighted }

/-- Python self.adj_list[k].append(e); the key is always present at call sites
(add_edge inserts both endpoints first), so the missing-key case is inert. -/
def aappend (m : List (V × Adj)) (k : V) (e : V × W) : List (V × Adj) :=
  match m with
  | [] => []
  | (k', v) :: rest => if k' = k then (k', v ++ [e]) :: rest else (k', v) :: aappend rest k e

/-- Python matrix assignment m[i][j] = c (indices in range at call sites). -/
def mset (m : List (List Cell)) (i j : Nat) (c : Cell) : List (List Cell) :=
  m.set i ((m.getD i []).set j c)

/-- Graph.add_edge: ensure both endpoints exist, append to the source adjacency
entry (and the reverse entry when undirected), then patch the matrix cells. -/
def add_edge (g : Graph) (source destination : V) (weight : W) : Graph :=
  let g1 := add_vertex g source
  let g2 := add_vertex g1 destination
  let adj1 := aappend g2.adj_list source (destination, weight)
  let adj2 := if g2.is_directed then adj1 else aappend adj1 destination (source, weight)
  let si := vindex g2.vertices source
  let di := vindex g2.vertices destination
  let c : Cell := if g2.is_weighted then Cell.val weight else Cell.val 1
  let m1 := mset g2.adj_matrix si di c
  let m2 := if g2.is_directed then m1 else mset m1 di si c
  { g2 with adj_list := adj2, adj_matrix := m2 }

/-- Graph.get_neighbors: none models the raised ValueError for a missing vertex. -/
def get_neighbors (g : Graph) (v : V) : Option Adj :=
  alookup g.adj_list v

/-- Linear scan of an adjacency entry for the first matching destination. -/
def scanWeight : Adj → V → Option W
  | [], _ => none
  | (n, w) :: rest, d => if n = d then some w else scanWeight rest d

/-- Graph.get_edge_weight: the outer none models the KeyError raised by
self.adj_list[source] when source is absent; some none is the Python None
sentinel for a present source with no matching entry. -/
def get_edge_weight (g : Graph) (source destination : V) : Option (Option W) :=
  match alookup g.adj_list source with
  | none => none
  | some l => some (scanWeight l destination)

/-- Adjacency entry of a vertex, defaulting to empty (used in statements only). -/
def adjOf (g : Graph) (v : V) : Adj :=
  (alookup g.adj_list v).getD []

/-- Mutating calls a client can make after construction. -/
inductive Op where
  | addV (v : V)
  | addE (s d : V) (w : W)

/-- Apply one mutating call. -/
def applyOp (g : Graph) : Op → Graph
  | .addV v => add_vertex g v
  | .addE s d w => add_edge g s d w

/-- Apply a client call sequence in order. -/
def applyOps (g : Graph) (ops : List Op) : Graph := List.foldl applyOp g ops

/-! ### BFS (lib/traversal.py) -/

/-- Result of BFS.shortest_path: a found path, the Python None result, the
ValueError that get_neighbors would raise on a malformed graph, or the
out-of-fuel artifact of the embedding (proved unreachable under wellformedness). -/
inductive SPRes where
  | path (p : List V)
  | nopath
  | err
  | fuelOut
  deriving DecidableEq, Repr

/-- Neighbor loop of BFS.shortest_path: mark unvisited neighbors and enqueue
them with their extended paths, in adjacency order. -/
def spPush (path : List V) : Adj → List (V × List V) → List V → List (V × List V) × List V
  | [], q, vis => (q, vis)
  | (n, _) :: rest, q, vis =>
    if n ∈ vis then spPush path rest q vis
    else spPush path rest (q ++ [(n, path ++ [n])]) (vis ++ [n])

/-- Main queue loop of BFS.shortest_path. -/
def spLoop (g : Graph) (e : V) : Nat → List (V × List V) → List V → SPRes
  | _, [], _ => SPRes.nopath
  | 0, _ :: _, _ => SPRes.fuelOut
  | fuel+1, (vtx, path) :: q, vis =>
    if vtx = e then SPRes.path path
    else
      match get_neighbors g vtx with
      | none => SPRes.err
      | some ns =>
        let (q', vis') := spPush path ns q vis
        spLoop g e fuel q' vis'

/-- BFS.shortest_path: explicit endpoint checks, then a queue of
(vertex, path-so-far) pairs; first dequeued hit of the target wins. -/
def shortest_path (g : Graph) (start e : V) : SPRes :=
  if start ∈ g.vertices ∧ e ∈ g.vertices then
    spLoop g e g.vertices.length [(start, [start])] [start]
  else SPRes.nopath

/-- Neighbor loop of the BFS used by connected_components. -/
def ccPush : Adj → List V → List V → List V × List V
  | [], q, vis => (q, vis)
  | (n, _) :: rest, q, vis =>
    if n ∈ vis then ccPush rest q vis
    else ccPush rest (q ++ [n]) (vis ++ [n])

/-- Inner BFS of connected_components, collecting one component. -/
def ccLoop (g : Graph) : Nat → List V → List V → List V → Option (List V × List V)
  | _, [], comp, vis => some (comp, vis)
  | 0, _ :: _, _, _ => none
  | fuel+1, v :: q, comp, vis =>
    match get_neighbors g v with
    | none => none
    | some ns =>
      let (q', vis') := ccPush ns q vis
      ccLoop g fuel q' (comp ++ [v]) vis'

/-- Outer loop of BFS.connected_components over the vertex sequence. -/
def ccOuter (g : Graph) : List V → List V → List (List V) → Option (List (List V))
  | [], _, acc => some acc
  | v :: rest, vis, acc =>
    if v ∈ vis then ccOuter g rest vis acc
    else
      match ccLoop g g.vertices.length [v] [] (vis ++ [v]) with
      | none => none
      | some (comp, vis') => ccOuter g rest vis' (acc ++ [comp])

/-- BFS.connected_components: repeated BFS from every unvisited vertex. -/
def connected_components (g : Graph) : Option (List (List V)) :=
  ccOuter g g.vertices [] []

/-! ### DFS.has_cycle (lib/traversal.py) -/

/-- Neighbor loop of has_cycle_util, parameterized by the recursive call
(util n stack visited). Python checks the visited set first, then the
recursion stack; none propagates fuel exhaustion or a lookup error. -/
def cycScanF (util : V → List V → List V → Option (Bool × List V)) :
    Adj → List V → List V → Option (Bool × List V)
  | [], _, visited => some (false, visited)
  | (n, _) :: rest, stack, visited =>
    if n ∈ visited then
      (if n ∈ stack then some (true, visited) else cycScanF util rest stack visited)
    else
      match util n stack visited with
      | none => none
      | some (true, vis') => some (true, vis')
      | some (false, vis') => cycScanF util rest stack vis'

/-- has_cycle_util: mark the vertex visited and on the recursion stack, then
scan its neighbors; the functional model passes the recursion stack down,
which also models the final rec_stack.remove on the False return. -/
def cycUtil (g : Graph) : Nat → V → List V → List V → Option (Bool × List V)
  | 0, _, _, _ => none
  | fuel+1, v, stack, visited =>
    match get_neighbors g v with
    | none => none
    | some ns => cycScanF (cycUtil g fuel) ns (v :: stack) (visited ++ [v])

/-- Outer loop of DFS.has_cycle over the vertex sequence. -/
def cycOuter (g : Graph) (fuel : Nat) : List V → List V → Option Bool
  | [], _ => some false
  | v :: rest, visited =>
    if v ∈ visited then cycOuter g fuel rest visited
    else
      match cycUtil g fuel v [] visited with
      | none => none
      | some (true, _) => some true
      | some (false, vis') => cycOuter g fuel rest vis'

/-- DFS.has_cycle: per-vertex DFS with a recursion-stack set. -/
def has_cycle (g : Graph) : Option Bool :=
  cycOuter g (g.vertices.length + 1) g.vertices []

/-! ### UnionFind and MinimumSpanningTree (lib/tree.py) -/

/-- UnionFind state: parent and rank dictionaries. -/
structure UF where
  parent : List (V × V)
  rank : List (V × Nat)
  deriving Repr

/-- UnionFind.__init__: every vertex its own parent, rank 0. -/
def UF.init (vs : List V) : UF :=
  { parent := vs.map (fun v => (v, v)), rank := vs.map (fun v => (v, 0)) }

/-- Python parent[v] (keys cover all queried vertices at call sites). -/
def plook (m : List (V × V)) (k : V) : V := (alookup m k).getD k

/-- UnionFind.find with path compression: returns the root and the updated
parent map; fuel exceeds the parent-chain length at call sites. -/
def ufFind : Nat → List (V × V) → V → V × List (V × V)
  | 0, p, v => (v, p)
  | fuel+1, p, v =>
    let pv := plook p v
    if pv = v then (v, p)
    else
      let (r, p') := ufFind fuel p pv
      (r, dset p' v r)

/-- UnionFind.union with union by rank; returns whether a merge happened. -/
def ufUnion (fuel : Nat) (uf : UF) (a b : V) : Bool × UF :=
  let fa := ufFind fuel uf.parent a
  let fb := ufFind fuel fa.2 b
  let ra := fa.1
  let rb := fb.1
  let p2 := fb.2
  if ra = rb then (false, { parent := p2, rank := uf.rank })
  else
    let rka := (alookup uf.rank ra).getD 0
    let rkb := (alookup uf.rank rb).getD 0
    if rka < rkb then (true, { parent := dset p2 ra rb, rank := uf.rank })
    else if rkb < rka then (true, { parent := dset p2 rb ra, rank := uf.rank })
    else (true, { parent := dset p2 rb ra, rank := dset uf.rank ra (rka + 1) })

/-- Python tuple(sorted([u, v])): the endpoint pair in ascending order. -/
def epair (u v : V) : V × V := if u ≤ v then (u, v) else (v, u)

/-- Inner neighbor loop of Kruskal edge collection, with the seen set of
deduplicated endpoint pairs. -/
def collectInner (vtx : V) : Adj → List (V × V) → List (W × V × V) →
    List (V × V) × List (W × V × V)
  | [], seen, acc => (seen, acc)
  | (n, w) :: rest, seen, acc =>
    let e := epair vtx n
    if e ∈ seen then collectInner vtx rest seen acc
    else collectInner vtx rest (seen ++ [e]) (acc ++ [(w, vtx, n)])

/-- Kruskal edge collection over the vertex sequence (get_neighbors never
raises here: every graph vertex has an adjacency entry). -/
def collectEdges (g : Graph) : List V → List (V × V) → List (W × V × V) → List (W × V × V)
  | [], _, acc => acc
  | v :: vs, seen, acc =>
    let r := collectInner v (adjOf g v) seen acc
    collectEdges g vs r.1 r.2

/-- Python tuple comparison on (weight, source, destination). -/
def edgeLE (a b : W × V × V) : Bool :=
  if a.1 < b.1 then true
  else if b.1 < a.1 then false
  else if a.2.1 < b.2.1 then true
  else if b.2.1 < a.2.1 then false
  else decide (a.2.2 ≤ b.2.2)

/-- Insert into a sorted edge list. -/
def insertEdge (e : W × V × V) : List (W × V × V) → List (W × V × V)
  | [] => [e]
  | x :: xs => if edgeLE e x then e :: x :: xs else x :: insertEdge e xs

/-- Python list.sort on edge tuples (stable; equal tuples are identical, so any
sorted permutation coincides with the CPython result). -/
def sortEdges : List (W × V × V) → List (W × V × V)
  | [] => []
  | x :: xs => insertEdge x (sortEdges xs)

/-- Greedy loop of Kruskal over the sorted edges, with the V-1 early break. -/
def kruskalLoop (nV : Nat) : List (W × V × V) → UF → List (V × V × W) → W →
    List (V × V × W) × W
  | [], _, mst, tot => (mst, tot)
  | (w, u, v) :: rest, uf, mst, tot =>
    let r := ufUnion uf.parent.length uf u v
    if r.1 then
      let mst' := mst ++ [(u, v, w)]
      if mst'.length = nV - 1 then (mst', tot + w)
      else kruskalLoop nV rest r.2 mst' (tot + w)
    else kruskalLoop nV rest r.2 mst tot

/-- MinimumSpanningTree.kruskal: none models the ValueError on directed input. -/
def kruskal (g : Graph) : Option (List (V × V × W) × W) :=
  if g.is_directed then none
  else
    let edges := sortEdges (collectEdges g g.vertices [] [])
    some (kruskalLoop g.vertices.length edges (UF.init g.vertices) [] 0)

/-- Frontier push of Prim: append edges to unvisited neighbors. -/
def primPush (src : V) (visited : List V) : Adj → List (W × V × V) → List (W × V × V)
  | [], avail => avail
  | (n, w) :: rest, avail =>
    if n ∈ visited then primPush src visited rest avail
    else primPush src visited rest (avail ++ [(w, src, n)])

/-- Total number of adjacency entries; bounds the Prim loop iteration count. -/
def adjSize (g : Graph) : Nat := (g.adj_list.map (fun p => p.2.length)).sum

/-- Main loop of Prim: re-sort the frontier, pop the minimum, skip stale
entries, otherwise accept the edge and push the new frontier edges. -/
def primLoop (g : Graph) (fuel : Nat) (avail : List (W × V × V)) (visited : List V)
    (mst : List (V × V × W)) (tot : W) : Option (List (V × V × W) × W) :=
  if avail.isEmpty ∨ g.vertices.length ≤ visited.length then some (mst, tot)
  else
    match fuel with
    | 0 => none
    | fuel+1 =>
      match sortEdges avail with
      | [] => some (mst, tot)
      | (w, u, v) :: srest =>
        if v ∈ visited then primLoop g fuel srest visited mst tot
        else
          primLoop g fuel (primPush v (visited ++ [v]) (adjOf g v) srest)
            (visited ++ [v]) (mst ++ [(u, v, w)]) (tot + w)

/-- MinimumSpanningTree.prim with the default start (graph.vertices[0]); none
models the ValueError on directed input and the IndexError on an empty graph. -/
def prim (g : Graph) : Option (List (V × V × W) × W) :=
  if g.is_directed then none
  else
    match g.vertices with
    | [] => none
    | s :: _ =>
      let avail := primPush s [s] (adjOf g s) []
      primLoop g (adjSize g + 1) avail [s] [] 0

/-! ### TopologicalSort (lib/topology.py) -/

/-- Result of a topological sort: the order, the cycle-detected ValueError, the
wrong-graph-kind ValueError, or the embedding's out-of-fuel artifact. -/
inductive TRes where
  | ok (order : List V)
  | cycle
  | wrongKind
  | fuelOut
  deriving DecidableEq, Repr

/-- Python in_degree[k] += 1 (keys cover all neighbors in wellformed graphs). -/
def incrKey (m : List (V × Int)) (k : V) : List (V × Int) :=
  dset m k ((alookup m k).getD 0 + 1)

/-- In-degree computation of kahn_algorithm: zeros, then one pass over all
adjacency entries. -/
def countInDeg (g : Graph) : List (V × Int) :=
  g.vertices.foldl (fun m v => (adjOf g v).foldl (fun m' p => incrKey m' p.1) m)
    (g.vertices.map (fun v => (v, (0 : Int))))

/-- Neighbor pass of one Kahn step: decrement each in-degree, enqueue on zero. -/
def kahnStep : Adj → List (V × Int) → List V → List (V × Int) × List V
  | [], indeg, q => (indeg, q)
  | (n, _) :: rest, indeg, q =>
    let d := (alookup indeg n).getD 0 - 1
    if d = 0 then kahnStep rest (dset indeg n d) (q ++ [n])
    else kahnStep rest (dset indeg n d) q

/-- Queue loop of kahn_algorithm. -/
def kahnLoop (g : Graph) : Nat → List V → List (V × Int) → List V → Option (List V)
  | _, [], _, res => some res
  | 0, _ :: _, _, _ => none
  | fuel+1, v :: q, indeg, res =>
    let r := kahnStep (adjOf g v) indeg q
    kahnLoop g fuel r.2 r.1 (res ++ [v])

/-- TopologicalSort.kahn_algorithm. -/
def kahn_algorithm (g : Graph) : TRes :=
  if g.is_directed then
    let indeg := countInDeg g
    let q0 := g.vertices.filter (fun v => (alookup indeg v).getD 0 == 0)
    match kahnLoop g g.vertices.length q0 indeg [] with
    | none => TRes.fuelOut
    | some res => if res.length = g.vertices.length then TRes.ok res else TRes.cycle
  else TRes.wrongKind

/-- Result of the recursive DFS of dfs_based: updated visited set and
completion stack, or the cycle ValueError, or the out-of-fuel artifact. -/
inductive DRes where
  | ok (visited stack : List V)
  | cyc
  | fuelOut
  deriving DecidableEq, Repr

/-- Neighbor loop of dfs_visit, parameterized by the recursive call; anc is the
recursion-stack set (inclusive of the current vertex). -/
def dfsScanF (visit : V → List V → List V → DRes) :
    Adj → List V → List V → List V → DRes
  | [], _, visited, stack => DRes.ok visited stack
  | (n, _) :: rest, anc, visited, stack =>
    if n ∈ visited then
      (if n ∈ anc then DRes.cyc else dfsScanF visit rest anc visited stack)
    else
      match visit n visited stack with
      | DRes.ok vis' st' => dfsScanF visit rest anc vis' st'
      | r => r

/-- dfs_visit of dfs_based: mark visited, scan neighbors with the extended
recursion stack, then append the vertex to the completion stack. -/
def dfsVisit (g : Graph) : Nat → V → List V → List V → List V → DRes
  | 0, _, _, _, _ => DRes.fuelOut
  | fuel+1, v, anc, visited, stack =>
    match dfsScanF (fun n vis st => dfsVisit g fuel n (v :: anc) vis st)
        (adjOf g v) (v :: anc) (visited ++ [v]) stack with
    | DRes.ok vis' st' => DRes.ok vis' (st' ++ [v])
    | r => r

/-- Outer loop of dfs_based over the vertex sequence. -/
def dfsOuter (g : Graph) (fuel : Nat) : List V → List V → List V → DRes
  | [], visited, stack => DRes.ok visited stack
  | v :: rest, visited, stack =>
    if v ∈ visited then dfsOuter g fuel rest visited stack
    else
      match dfsVisit g fuel v [] visited stack with
      | DRes.ok vis' st' => dfsOuter g fuel rest vis' st'
      | DRes.cyc => DRes.cyc
      | DRes.fuelOut => DRes.fuelOut

/-- TopologicalSort.dfs_based: the reversed completion stack. -/
def dfs_based (g : Graph) : TRes :=
  if g.is_directed then
    match dfsOuter g (g.vertices.length + 1) g.vertices [] [] with
    | DRes.ok _ stack => TRes.ok stack.reverse
    | DRes.cyc => TRes.cycle
    | DRes.fuelOut => TRes.fuelOut
  else TRes.wrongKind

/-! ### Dictionary lemmas -/

@[simp] theorem keys_nil {α : Type} : keys ([] : List (V × α)) = [] := rfl

@[simp] theorem keys_cons {α : Type} (k : V) (v : α) (m : List (V × α)) :
    keys ((k, v) :: m) = k :: keys m := rfl

theorem alookup_eq_none {α : Type} (m : List (V × α)) (k : V) :
    alookup m k = none ↔ k ∉ keys m := by
  induction m with
  | nil => simp [alookup]
  | cons p rest ih =>
    obtain ⟨k', v⟩ := p
    by_cases h : k' = k
    · subst h
      simp [alookup]
    · simp only [alookup, if_neg h, keys_cons, List.mem_cons, ih]
      constructor
      · intro hk hc
        rcases hc with hc | hc
        · exact h hc.symm
        · exact hk hc
      · intro hk hc
        exact hk (Or.inr hc)

theorem alookup_isSome {α : Type} (m : List (V × α)) (k : V) :
    (alookup m k).isSome ↔ k ∈ keys m := by
  rcases h : alookup m k with _ | v
  · simp [(alookup_eq_none m k).mp h]
  · simp only [Option.isSome_some, true_iff]
    by_contra hk
    rw [(alookup_eq_none m k).mpr hk] at h
    exact Option.noConfusion h

theorem keys_dset_of_mem {α : Type} (m : List (V × α)) (k : V) (val : α)
    (h : k ∈ keys m) : keys (dset m k val) = keys m := by
  induction m with
  | nil => simp at h
  | cons p rest ih =>
    obtain ⟨k', v⟩ := p
    by_cases hk : k' = k
    · simp [dset, hk]
    · have h' : k ∈ keys rest := by
        rcases List.mem_cons.mp h with h | h
        · exact absurd h.symm hk
        · exact h
      simp [dset, hk, ih h']

theorem keys_dset_of_not_mem {α : Type} (m : List (V × α)) (k : V) (val : α)
    (h : k ∉ keys m) : keys (dset m k val) = keys m ++ [k] := by
  induction m with
  | nil => simp [dset]
  | cons p rest ih =>
    obtain ⟨k', v⟩ := p
    have hk : k' ≠ k := by
      intro he
      exact h (by simp [he])
    have h' : k ∉ keys rest := by
      intro hm
      exact h (by simp [hm])
    simp [dset, hk, ih h']

theorem alookup_dset_self {α : Type} (m : List (V × α)) (k : V) (val : α) :
    alookup (dset m k val) k = some val := by
  induction m with
  | nil => simp [dset, alookup]
  | cons p rest ih =>
    obtain ⟨k', v⟩ := p
    by_cases hk : k' = k
    · simp [dset, hk, alookup]
    · simp [dset, hk, alookup, ih]

theorem alookup_dset_ne {α : Type} (m : List (V × α)) (k k' : V) (val : α)
    (h : k' ≠ k) : alookup (dset m k val) k' = alookup m k' := by
  induction m with
  | nil => simp [dset, alookup, Ne.symm h]
  | cons p rest ih =>
    obtain ⟨kk, v⟩ := p
    by_cases hk : kk = k
    · subst hk
      simp [dset, alookup, Ne.symm h]
    · simp only [dset, if_neg hk]
      by_cases hk' : kk = k'
      · simp [alookup, hk']
      · simp [alookup, hk', ih]

theorem keys_aappend (m : List (V × Adj)) (k : V) (e : V × W) :
    keys (aappend m k e) = keys m := by
  induction m with
  | nil => simp [aappend]
  | cons p rest ih =>
    obtain ⟨k', v⟩ := p
    by_cases hk : k' = k
    · simp [aappend, hk]
    · simp [aappend, hk, ih]

theorem aappend_of_not_mem (m : List (V × Adj)) (k : V) (e : V × W)
    (h : k ∉ keys m) : aappend m k e = m := by
  induction m with
  | nil => simp [aappend]
  | cons p rest ih =>
    obtain ⟨k', v⟩ := p
    have hk : k' ≠ k := fun he => h (by simp [he])
    have h' : k ∉ keys rest := fun hm => h (by simp [hm])
    simp [aappend, hk, ih h']

theorem alookup_aappend_self (m : List (V × Adj)) (k : V) (e : V × W) (l : Adj)
    (h : alookup m k = some l) : alookup (aappend m k e) k = some (l ++ [e]) := by
  induction m with
  | nil => simp [alookup] at h
  | cons p rest ih =>
    obtain ⟨k', v⟩ := p
    by_cases hk : k' = k
    · subst hk
      simp [alookup] at h
      simp [aappend, alookup, h]
    · simp only [alookup, if_neg hk] at h
      simp [aappend, hk, alookup, ih h]

theorem alookup_aappend_ne (m : List (V × Adj)) (k k' : V) (e : V × W)
    (h : k' ≠ k) : alookup (aappend m k e) k' = alookup m k' := by
  induction m with
  | nil => simp [aappend]
  | cons p rest ih =>
    obtain ⟨kk, v⟩ := p
    by_cases hk : kk = k
    · subst hk
      simp [aappend, alookup, Ne.symm h]
    · simp only [aappend, if_neg hk]
      by_cases hk' : kk = k'
      · simp [alookup, hk']
      · simp [alookup, hk', ih]

/-- Matrix cell accessor for statements. -/
def mcell (m : List (List Cell)) (i j : Nat) : Option Cell :=
  m[i]?.bind (fun r => r[j]?)

theorem build_matrix_length (n : Nat) (wt : Bool) : (build_matrix n wt).length = n := by
  simp [build_matrix]

theorem build_matrix_row_length (n : Nat) (wt : Bool) (r : List Cell)
    (h : r ∈ build_matrix n wt) : r.length = n := by
  simp [build_matrix] at h
  obtain ⟨i, _, rfl⟩ := h
  simp

theorem build_matrix_cell (n : Nat) (wt : Bool) (i j : Nat) (hi : i < n) (hj : j < n) :
    mcell (build_matrix n wt) i j =
      some (if wt then (if i = j then Cell.val 0 else Cell.inf) else Cell.val 0) := by
  simp [build_matrix, mcell, List.getElem?_map, List.getElem?_range, hi, hj]

/-! ### Wellformedness of reachable graph states -/

/-- Invariants holding for every graph built by the constructor (with a
duplicate-free initial vertex list) and any sequence of mutating calls. -/
structure WF (g : Graph) : Prop where
  count_eq : g.vertex_count = g.vertices.length
  keys_eq : keys g.adj_list = g.vertices
  nodup : g.vertices.Nodup
  mrows : g.adj_matrix.length = g.vertex_count
  mcols : ∀ r ∈ g.adj_matrix, r.length = g.vertex_count
  closed : ∀ u q, q ∈ adjOf g u → q.1 ∈ g.vertices
  symm : g.is_directed = false → ∀ u x w, (x, w) ∈ adjOf g u → (u, w) ∈ adjOf g x

theorem alookup_init (vs : List V) (u : V) :
    alookup (vs.map (fun v => (v, ([] : Adj)))) u =
      if u ∈ vs then some [] else none := by
  induction vs with
  | nil => simp [alookup]
  | cons x xs ih =>
    by_cases h : x = u
    · subst h
      simp [alookup]
    · simp [alookup, h, ih, Ne.symm h]

theorem wf_init (vs : List V) (dir wt : Bool) (h : vs.Nodup) :
    WF (Graph.init vs dir wt) := by
  refine ⟨rfl, ?_, h, ?_, ?_, ?_, ?_⟩
  · show keys (vs.map fun v => (v, [])) = vs
    induction vs with
    | nil => rfl
    | cons x xs ih => simpa using ih (List.Nodup.of_cons (by assumption))
  · exact build_matrix_length vs.length wt
  · intro r hr
    exact build_matrix_row_length vs.length wt r hr
  · intro u q hq
    simp only [Graph.init, adjOf, alookup_init] at hq
    by_cases hu : u ∈ vs
    · simp [hu] at hq
    · simp [hu] at hq
  · intro _ u x w hq
    simp only [Graph.init, adjOf, alookup_init] at hq
    by_cases hu : u ∈ vs
    · simp [hu] at hq
    · simp [hu] at hq

theorem add_vertex_flags (g : Graph) (v : V) :
    (add_vertex g v).is_directed = g.is_directed ∧
    (add_vertex g v).is_weighted = g.is_weighted := by
  unfold add_vertex
  by_cases h : v ∈ g.vertices <;> simp [h]

theorem add_vertex_vertices (g : Graph) (v : V) :
    (add_vertex g v).vertices = if v ∈ g.vertices then g.vertices else g.vertices ++ [v] := by
  unfold add_vertex
  by_cases h : v ∈ g.vertices <;> simp [h]

theorem mem_add_vertex_self (g : Graph) (v : V) : v ∈ (add_vertex g v).vertices := by
  rw [add_vertex_vertices]
  by_cases h : v ∈ g.vertices <;> simp [h]

theorem mem_add_vertex_of_mem (g : Graph) (v u : V) (h : u ∈ g.vertices) :
    u ∈ (add_vertex g v).vertices := by
  rw [add_vertex_vertices]
  by_cases hv : v ∈ g.vertices <;> simp [hv, h]

theorem adjOf_add_vertex (g : Graph) (v : V) (hk : keys g.adj_list = g.vertices) (u : V) :
    adjOf (add_vertex g v) u = adjOf g u := by
  unfold add_vertex
  by_cases h : v ∈ g.vertices
  · simp [h]
  · simp only [if_neg h, adjOf]
    by_cases hu : u = v
    · subst hu
      rw [alookup_dset_self]
      rw [(alookup_eq_none g.adj_list u).mpr (by rw [hk]; exact h)]
      rfl
    · rw [alookup_dset_ne _ _ _ _ hu]

theorem wf_add_vertex (g : Graph) (v : V) (h : WF g) : WF (add_vertex g v) := by
  by_cases hv : v ∈ g.vertices
  · simp only [add_vertex, if_pos hv]
    exact h
  · constructor
    · simp only [add_vertex, if_neg hv]
      simp [h.count_eq]
    · simp only [add_vertex, if_neg hv]
      show keys (dset g.adj_list v []) = g.vertices ++ [v]
      rw [keys_dset_of_not_mem _ _ _ (by rw [h.keys_eq]; exact hv), h.keys_eq]
    · simp only [add_vertex, if_neg hv]
      exact List.Nodup.append h.nodup (List.nodup_singleton v)
        (by simpa using fun hx => hv hx)
    · simp only [add_vertex, if_neg hv]
      exact build_matrix_length _ _
    · simp only [add_vertex, if_neg hv]
      intro r hr
      exact build_matrix_row_length _ _ r hr
    · intro u q hq
      rw [adjOf_add_vertex g v h.keys_eq] at hq
      exact mem_add_vertex_of_mem g v q.1 (h.closed u q hq)
    · intro hd u x w hq
      rw [adjOf_add_vertex g v h.keys_eq] at hq
      rw [adjOf_add_vertex g v h.keys_eq]
      exact h.symm (by rw [← (add_vertex_flags g v).1]; exact hd) u x w hq

theorem getD_aappend (m : List (V × Adj)) (k : V) (e : V × W) (u : V) :
    (alookup (aappend m k e) u).getD [] =
      if u = k ∧ k ∈ keys m then (alookup m u).getD [] ++ [e]
      else (alookup m u).getD [] := by
  by_cases hu : u = k
  · subst hu
    by_cases hk : u ∈ keys m
    · rcases h : alookup m u with _ | l
      · exact absurd ((alookup_eq_none m u).mp h) (by simp [hk])
      · rw [alookup_aappend_self m u e l h]
        simp [hk]
    · rw [aappend_of_not_mem m u e hk]
      simp [hk]
  · rw [alookup_aappend_ne m k u e hu]
    simp [hu]

theorem vindex_lt (l : List V) (v : V) (h : v ∈ l) : vindex l v < l.length := by
  induction l with
  | nil => simp at h
  | cons x xs ih =>
    by_cases hx : x = v
    · simp [vindex, hx]
    · rcases List.mem_cons.mp h with h' | h'
      · exact absurd h'.symm hx
      · simp only [vindex, if_neg hx, List.length_cons]
        exact Nat.succ_lt_succ (ih h')

theorem mset_length (m : List (List Cell)) (i j : Nat) (c : Cell) :
    (mset m i j c).length = m.length := by
  simp [mset]

theorem mset_cols (m : List (List Cell)) (n : Nat) (h : ∀ r ∈ m, r.length = n)
    (i j : Nat) (c : Cell) (hi : i < m.length) :
    ∀ r ∈ mset m i j c, r.length = n := by
  intro r hr
  rcases List.mem_or_eq_of_mem_set hr with h1 | h1
  · exact h r h1
  · subst h1
    rw [List.length_set]
    have : m.getD i [] = m[i] := List.getD_eq_getElem m [] hi
    rw [this]
    exact h m[i] (List.getElem_mem hi)

theorem add_edge_fields (g : Graph) (s d : V) (w : W) :
    (add_edge g s d w).vertices = (add_vertex (add_vertex g s) d).vertices ∧
    (add_edge g s d w).vertex_count = (add_vertex (add_vertex g s) d).vertex_count ∧
    (add_edge g s d w).is_directed = g.is_directed ∧
    (add_edge g s d w).is_weighted = g.is_weighted := by
  refine ⟨rfl, rfl, ?_, ?_⟩
  · show (add_vertex (add_vertex g s) d).is_directed = g.is_directed
    rw [(add_vertex_flags _ d).1, (add_vertex_flags g s).1]
  · show (add_vertex (add_vertex g s) d).is_weighted = g.is_weighted
    rw [(add_vertex_flags _ d).2, (add_vertex_flags g s).2]

theorem adjOf_add_edge (g : Graph) (s d : V) (w : W) (h : WF g) (u : V) :
    adjOf (add_edge g s d w) u =
      (let a1 := if u = s then adjOf g u ++ [(d, w)] else adjOf g u
       if g.is_directed then a1 else (if u = d then a1 ++ [(s, w)] else a1)) := by
  have h2 : WF (add_vertex (add_vertex g s) d) :=
    wf_add_vertex _ d (wf_add_vertex g s h)
  have hadj2 : ∀ x, (alookup (add_vertex (add_vertex g s) d).adj_list x).getD [] =
      adjOf g x := by
    intro x
    show adjOf (add_vertex (add_vertex g s) d) x = adjOf g x
    rw [adjOf_add_vertex _ d (wf_add_vertex g s h).keys_eq,
        adjOf_add_vertex g s h.keys_eq]
  have hs2 : s ∈ keys (add_vertex (add_vertex g s) d).adj_list := by
    rw [h2.keys_eq]
    exact mem_add_vertex_of_mem _ d s (mem_add_vertex_self g s)
  have hd2 : d ∈ keys (add_vertex (add_vertex g s) d).adj_list := by
    rw [h2.keys_eq]
    exact mem_add_vertex_self _ d
  have hdir : (add_vertex (add_vertex g s) d).is_directed = g.is_directed := by
    rw [(add_vertex_flags _ d).1, (add_vertex_flags g s).1]
  show (alookup (add_edge g s d w).adj_list u).getD [] = _
  have hfield : (add_edge g s d w).adj_list =
      (let g2 := add_vertex (add_vertex g s) d
       let adj1 := aappend g2.adj_list s (d, w)
       if g2.is_directed then adj1 else aappend adj1 d (s, w)) := rfl
  rw [hfield]
  simp only [hdir]
  rcases hD : g.is_directed with _ | _
  · simp only [Bool.false_eq_true, if_false]
    rw [getD_aappend, keys_aappend, getD_aappend]
    simp only [hs2, hd2, and_true, hadj2]
  · simp only [if_true]
    rw [getD_aappend]
    simp only [hs2, and_true, hadj2]

theorem mem_adjOf_add_edge (g : Graph) (s d : V) (w : W) (h : WF g) (u : V) (q : V × W) :
    q ∈ adjOf (add_edge g s d w) u ↔
      q ∈ adjOf g u ∨ (u = s ∧ q = (d, w)) ∨
        (g.is_directed = false ∧ u = d ∧ q = (s, w)) := by
  rw [adjOf_add_edge g s d w h u]
  rcases hD : g.is_directed with _ | _ <;>
    simp only [Bool.false_eq_true, if_false, if_true, Bool.true_eq_false] <;>
    split_ifs with h1 <;>
    simp_all [List.mem_append]

theorem wf_add_edge (g : Graph) (s d : V) (w : W) (h : WF g) :
    WF (add_edge g s d w) := by
  have h2 : WF (add_vertex (add_vertex g s) d) :=
    wf_add_vertex _ d (wf_add_vertex g s h)
  have hfields := add_edge_fields g s d w
  have hvg2 : (add_edge g s d w).vertices = (add_vertex (add_vertex g s) d).vertices :=
    hfields.1
  have hmem : ∀ x, x ∈ g.vertices → x ∈ (add_edge g s d w).vertices := by
    intro x hx
    rw [hvg2]
    exact mem_add_vertex_of_mem _ d x (mem_add_vertex_of_mem g s x hx)
  have hs : s ∈ (add_edge g s d w).vertices := by
    rw [hvg2]
    exact mem_add_vertex_of_mem _ d s (mem_add_vertex_self g s)
  have hd : d ∈ (add_edge g s d w).vertices := by
    rw [hvg2]
    exact mem_add_vertex_self _ d
  have hkeys : keys (add_edge g s d w).adj_list =
      (add_vertex (add_vertex g s) d).vertices := by
    have hfield : (add_edge g s d w).adj_list =
        (let g2 := add_vertex (add_vertex g s) d
         let adj1 := aappend g2.adj_list s (d, w)
         if g2.is_directed then adj1 else aappend adj1 d (s, w)) := rfl
    rw [hfield]
    rcases hD : (add_vertex (add_vertex g s) d).is_directed with _ | _
    · simp only [hD, Bool.false_eq_true, if_false]
      rw [keys_aappend, keys_aappend, h2.keys_eq]
    · simp only [hD, if_true]
      rw [keys_aappend, h2.keys_eq]
  constructor
  · rw [hfields.2.1, hvg2]
    exact h2.count_eq
  · rw [hkeys, hvg2]
  · rw [hvg2]
    exact h2.nodup
  · show (add_edge g s d w).adj_matrix.length = _
    have hfield : (add_edge g s d w).adj_matrix =
        (let g2 := add_vertex (add_vertex g s) d
         let si := vindex g2.vertices s
         let di := vindex g2.vertices d
         let c : Cell := if g2.is_weighted then Cell.val w else Cell.val 1
         let m1 := mset g2.adj_matrix si di c
         if g2.is_directed then m1 else mset m1 di si c) := rfl
    rw [hfield, hfields.2.1]
    rcases hD : (add_vertex (add_vertex g s) d).is_directed with _ | _ <;>
      simp [hD, mset_length, h2.mrows]
  · intro r hr
    have hfield : (add_edge g s d w).adj_matrix =
        (let g2 := add_vertex (add_vertex g s) d
         let si := vindex g2.vertices s
         let di := vindex g2.vertices d
         let c : Cell := if g2.is_weighted then Cell.val w else Cell.val 1
         let m1 := mset g2.adj_matrix si di c
         if g2.is_directed then m1 else mset m1 di si c) := rfl
    rw [hfield] at hr
    rw [hfields.2.1]
    have hsi : vindex (add_vertex (add_vertex g s) d).vertices s <
        (add_vertex (add_vertex g s) d).adj_matrix.length := by
      rw [h2.mrows, h2.count_eq]
      exact vindex_lt _ s (by rw [← hvg2]; exact hs)
    have hdi : vindex (add_vertex (add_vertex g s) d).vertices d <
        (add_vertex (add_vertex g s) d).adj_matrix.length := by
      rw [h2.mrows, h2.count_eq]
      exact vindex_lt _ d (by rw [← hvg2]; exact hd)
    rcases hD : (add_vertex (add_vertex g s) d).is_directed with _ | _
    · simp only [hD, Bool.false_eq_true, if_false] at hr
      refine mset_cols _ _ ?_ _ _ _ ?_ r hr
      · exact mset_cols _ _ h2.mcols _ _ _ hsi
      · rw [mset_length]
        exact hdi
    · simp only [hD, if_true] at hr
      exact mset_cols _ _ h2.mcols _ _ _ hsi r hr
  · intro u q hq
    rcases (mem_adjOf_add_edge g s d w h u q).mp hq with h1 | h1 | h1
    · exact hmem q.1 (h.closed u q h1)
    · rw [h1.2]
      exact hd
    · rw [h1.2.2]
      exact hs
  · intro hDf u x w' hq
    have hDg : g.is_directed = false := by
      rw [← hfields.2.2.1]
      exact hDf
    rcases (mem_adjOf_add_edge g s d w h u (x, w')).mp hq with h1 | h1 | h1
    · exact (mem_adjOf_add_edge g s d w h x (u, w')).mpr
        (Or.inl (h.symm hDg u x w' h1))
    · have hu : u = s := h1.1
      have hx1 : x = d := congrArg Prod.fst h1.2
      have hw1 : w' = w := congrArg Prod.snd h1.2
      rw [hu, hx1, hw1]
      exact (mem_adjOf_add_edge g s d w h d (s, w)).mpr
        (Or.inr (Or.inr ⟨hDg, rfl, rfl⟩))
    · have hu : u = d := h1.2.1
      have hx1 : x = s := congrArg Prod.fst h1.2.2
      have hw1 : w' = w := congrArg Prod.snd h1.2.2
      rw [hu, hx1, hw1]
      exact (mem_adjOf_add_edge g s d w h s (d, w)).mpr
        (Or.inr (Or.inl ⟨rfl, rfl⟩))

theorem wf_applyOp (g : Graph) (op : Op) (h : WF g) : WF (applyOp g op) := by
  cases op with
  | addV v => exact wf_add_vertex g v h
  | addE s d w => exact wf_add_edge g s d w h

theorem wf_applyOps (g : Graph) (ops : List Op) (h : WF g) : WF (applyOps g ops) := by
  induction ops generalizing g with
  | nil => exact h
  | cons op rest ih => exact ih (applyOp g op) (wf_applyOp g op h)

theorem applyOp_flags (g : Graph) (op : Op) :
    (applyOp g op).is_directed = g.is_directed ∧
    (applyOp g op).is_weighted = g.is_weighted := by
  cases op with
  | addV v => exact add_vertex_flags g v
  | addE s d w => exact ⟨(add_edge_fields g s d w).2.2.1, (add_edge_fields g s d w).2.2.2⟩

theorem applyOps_flags (g : Graph) (ops : List Op) :
    (applyOps g ops).is_directed = g.is_directed ∧
    (applyOps g ops).is_weighted = g.is_weighted := by
  induction ops generalizing g with
  | nil => exact ⟨rfl, rfl⟩
  | cons op rest ih =>
    refine ⟨?_, ?_⟩
    · show (applyOps (applyOp g op) rest).is_directed = g.is_directed
      rw [(ih (applyOp g op)).1, (applyOp_flags g op).1]
    · show (applyOps (applyOp g op) rest).is_weighted = g.is_weighted
      rw [(ih (applyOp g op)).2, (applyOp_flags g op).2]

theorem scanWeight_eq_none (l : Adj) (d : V) :
    scanWeight l d = none ↔ ∀ q ∈ l, q.1 ≠ d := by
  induction l with
  | nil => simp [scanWeight]
  | cons q rest ih =>
    obtain ⟨n, w⟩ := q
    by_cases h : n = d
    · simp [scanWeight, h]
    · simp [scanWeight, h, ih]

/-! ### Claim C4: constructor and mutator invariants -/

/-- C4: for every graph built by the constructor on a duplicate-free vertex
list followed by any sequence of add_vertex / add_edge calls, vertex_count
equals the length of the vertices list, the adjacency matrix is square of
dimension vertex_count, and every vertex has exactly one adjacency entry. -/
theorem C4_graph_invariants (vs : List V) (dir wt : Bool) (ops : List Op) (g : Graph)
    (hnd : vs.Nodup) (hg : g = applyOps (Graph.init vs dir wt) ops) :
    g.vertex_count = g.vertices.length ∧
    g.adj_matrix.length = g.vertex_count ∧
    (∀ r ∈ g.adj_matrix, r.length = g.vertex_count) ∧
    (∀ v ∈ g.vertices, (keys g.adj_list).count v = 1) := by
  have hwf : WF g := hg ▸ wf_applyOps _ ops (wf_init vs dir wt hnd)
  refine ⟨hwf.count_eq, hwf.mrows, hwf.mcols, ?_⟩
  intro v hv
  rw [hwf.keys_eq]
  exact List.count_eq_one_of_mem hwf.nodup hv

/-- Witness for C4 at a concrete construction. -/
theorem C4_graph_invariants_witness :
    ([0] : List V).Nodup ∧
    ((applyOps (Graph.init [0] false false) [Op.addE 0 1 1]).vertex_count =
        (applyOps (Graph.init [0] false false) [Op.addE 0 1 1]).vertices.length ∧
      (applyOps (Graph.init [0] false false) [Op.addE 0 1 1]).adj_matrix.length =
        (applyOps (Graph.init [0] false false) [Op.addE 0 1 1]).vertex_count ∧
      (∀ r ∈ (applyOps (Graph.init [0] false false) [Op.addE 0 1 1]).adj_matrix,
        r.length = (applyOps (Graph.init [0] false false) [Op.addE 0 1 1]).vertex_count) ∧
      (∀ v ∈ (applyOps (Graph.init [0] false false) [Op.addE 0 1 1]).vertices,
        (keys (applyOps (Graph.init [0] false false) [Op.addE 0 1 1]).adj_list).count v = 1)) :=
  ⟨by decide, C4_graph_invariants [0] false false [Op.addE 0 1 1] _ (by decide) rfl⟩

/-! ### Claim C5: undirected symmetry -/

/-- C5: in every reachable undirected graph, (v, w) appears in the adjacency
entry of u iff (u, w) appears in the adjacency entry of v, for distinct u, v. -/
theorem C5_undirected_symmetry (vs : List V) (wt : Bool) (ops : List Op) (g : Graph)
    (hnd : vs.Nodup) (hg : g = applyOps (Graph.init vs false wt) ops)
    (u v : V) (w : W) (huv : u ≠ v) :
    ((v, w) ∈ adjOf g u ↔ (u, w) ∈ adjOf g v) := by
  have hwf : WF g := hg ▸ wf_applyOps _ ops (wf_init vs false wt hnd)
  have hdir : g.is_directed = false := by
    rw [hg]
    exact (applyOps_flags (Graph.init vs false wt) ops).1
  exact ⟨fun h => hwf.symm hdir u v w h, fun h => hwf.symm hdir v u w h⟩

/-- Witness for C5 at a concrete undirected edge. -/
theorem C5_undirected_symmetry_witness :
    ([] : List V).Nodup ∧ (0 : V) ≠ 1 ∧
    ((1, (5 : W)) ∈ adjOf (applyOps (Graph.init [] false true) [Op.addE 0 1 5]) 0 ↔
      (0, (5 : W)) ∈ adjOf (applyOps (Graph.init [] false true) [Op.addE 0 1 5]) 1) :=
  ⟨by decide, by decide,
    C5_undirected_symmetry [] true [Op.addE 0 1 5] _ (by decide) rfl 0 1 5 (by decide)⟩

/-! ### Claim C9: add_vertex wipes the matrix but not the list -/

/-- C9: after at least one edge has been added, adding a fresh vertex rebuilds
the adjacency matrix from scratch: every off-diagonal cell holds the no-edge
value (inf when weighted, 0 when unweighted) while the adjacency lists are
unchanged, so previously recorded edges survive only in the list. -/
theorem C9_add_vertex_resets_matrix (vs : List V) (dir wt : Bool) (ops : List Op)
    (g : Graph) (hnd : vs.Nodup) (hg : g = applyOps (Graph.init vs dir wt) ops)
    (hedge : ∃ u q, q ∈ adjOf g u) (x : V) (hx : x ∉ g.vertices) :
    (∀ i j, i < (add_vertex g x).vertex_count → j < (add_vertex g x).vertex_count →
      i ≠ j → mcell (add_vertex g x).adj_matrix i j =
        some (if g.is_weighted then Cell.inf else Cell.val 0)) ∧
    (∀ u, adjOf (add_vertex g x) u = adjOf g u) := by
  have hwf : WF g := hg ▸ wf_applyOps _ ops (wf_init vs dir wt hnd)
  constructor
  · intro i j hi hj hij
    have hm : (add_vertex g x).adj_matrix = build_matrix (g.vertex_count + 1) g.is_weighted := by
      simp [add_vertex, hx]
    have hc : (add_vertex g x).vertex_count = g.vertex_count + 1 := by
      simp [add_vertex, hx]
    rw [hm]
    rw [hc] at hi hj
    rw [build_matrix_cell (g.vertex_count + 1) g.is_weighted i j hi hj]
    rcases hW : g.is_weighted with _ | _ <;> simp [hij]
  · intro u
    exact adjOf_add_vertex g x hwf.keys_eq u

/-- Witness for C9: one edge added, then a fresh vertex. -/
theorem C9_add_vertex_resets_matrix_witness :
    ([] : List V).Nodup ∧
    (∃ u q, q ∈ adjOf (applyOps (Graph.init [] false true) [Op.addE 0 1 7]) u) ∧
    (2 : V) ∉ (applyOps (Graph.init [] false true) [Op.addE 0 1 7]).vertices ∧
    ((∀ i j, i < (add_vertex (applyOps (Graph.init [] false true) [Op.addE 0 1 7]) 2).vertex_count →
        j < (add_vertex (applyOps (Graph.init [] false true) [Op.addE 0 1 7]) 2).vertex_count →
        i ≠ j → mcell (add_vertex (applyOps (Graph.init [] false true) [Op.addE 0 1 7]) 2).adj_matrix i j =
          some (if (applyOps (Graph.init [] false true) [Op.addE 0 1 7]).is_weighted
            then Cell.inf else Cell.val 0)) ∧
      (∀ u, adjOf (add_vertex (applyOps (Graph.init [] false true) [Op.addE 0 1 7]) 2) u =
        adjOf (applyOps (Graph.init [] false true) [Op.addE 0 1 7]) u)) :=
  ⟨by decide, ⟨0, (1, 7), by decide⟩, by decide,
    C9_add_vertex_resets_matrix [] false true [Op.addE 0 1 7] _ (by decide) rfl
      ⟨0, (1, 7), by decide⟩ 2 (by decide)⟩

/-! ### Claim C10: get_edge_weight error behavior -/

/-- C10: get_edge_weight returns the Python None sentinel only when the source
vertex is present and no adjacency entry matches the destination; when the
source is absent it raises a KeyError (the outer none) instead. -/
theorem C10_get_edge_weight_missing_source (vs : List V) (dir wt : Bool) (ops : List Op)
    (g : Graph) (hnd : vs.Nodup) (hg : g = applyOps (Graph.init vs dir wt) ops)
    (s d : V) :
    (s ∉ g.vertices → get_edge_weight g s d = none) ∧
    (get_edge_weight g s d = some none →
      s ∈ g.vertices ∧ ∀ q ∈ adjOf g s, q.1 ≠ d) := by
  have hwf : WF g := hg ▸ wf_applyOps _ ops (wf_init vs dir wt hnd)
  constructor
  · intro hs
    have : alookup g.adj_list s = none :=
      (alookup_eq_none _ s).mpr (by rw [hwf.keys_eq]; exact hs)
    simp [get_edge_weight, this]
  · intro hr
    rcases hl : alookup g.adj_list s with _ | l
    · simp [get_edge_weight, hl] at hr
    · have hs : s ∈ g.vertices := by
        rw [← hwf.keys_eq]
        have := (alookup_isSome g.adj_list s)
        rw [hl] at this
        exact this.mp (by simp)
      refine ⟨hs, ?_⟩
      simp only [get_edge_weight, hl, Option.some.injEq] at hr
      have hnone := (scanWeight_eq_none l d).mp hr
      intro q hq
      have : adjOf g s = l := by simp [adjOf, hl]
      exact hnone q (this ▸ hq)

/-- Witness for C10 at a concrete graph with one edge. -/
theorem C10_get_edge_weight_missing_source_witness :
    ([] : List V).Nodup ∧
    (((9 : V) ∉ (applyOps (Graph.init [] false true) [Op.addE 0 1 7]).vertices →
        get_edge_weight (applyOps (Graph.init [] false true) [Op.addE 0 1 7]) 9 0 = none) ∧
      (get_edge_weight (applyOps (Graph.init [] false true) [Op.addE 0 1 7]) 9 0 = some none →
        (9 : V) ∈ (applyOps (Graph.init [] false true) [Op.addE 0 1 7]).vertices ∧
        ∀ q ∈ adjOf (applyOps (Graph.init [] false true) [Op.addE 0 1 7]) 9, q.1 ≠ 0)) :=
  ⟨by decide,
    C10_get_edge_weight_missing_source [] false true [Op.addE 0 1 7] _ (by decide) rfl 9 0⟩

/-! ### Claims C7 and C8: concrete scenarios -/

/-- Total-weight component of a Kruskal result. -/
def kruskalWeight (g : Graph) : Option W := (kruskal g).map Prod.snd

/-- Total-weight component of a Prim result. -/
def primWeight (g : Graph) : Option W := (prim g).map Prod.snd

/-- The weighted undirected example graph of the MST scenario, with labels
A..E as 0..4 and edges added in the stated order. -/
def mstExample : Graph :=
  applyOps (Graph.init [0, 1, 2, 3, 4] false true)
    [Op.addE 0 1 4, Op.addE 0 2 2, Op.addE 1 2 1, Op.addE 1 3 5,
     Op.addE 2 3 8, Op.addE 2 4 10, Op.addE 3 4 2]

/-- C7 counterexample: Kruskal on the scenario graph does not return total
weight 9. -/
theorem C7_kruskal_weight_not_nine : kruskalWeight mstExample ≠ some 9 := by decide

/-- C7 amended: Kruskal on the scenario graph returns total weight 10 (the
true minimum: edges B-C:1, A-C:2, D-E:2 and B-D:5 connect all five vertices;
the edge set B-C,A-C,D-E,A-B named by the spec is not a spanning tree). -/
theorem C7_kruskal_weight_ten : kruskalWeight mstExample = some 10 := by decide

/-- The undirected example graph of the connected-components scenario, with
labels A..G as 0..6: a path A-B-C, a triangle D-E-F, and a self-loop at G. -/
def ccExample : Graph :=
  applyOps (Graph.init [] false false)
    [Op.addE 0 1 1, Op.addE 1 2 1, Op.addE 3 4 1, Op.addE 4 5 1,
     Op.addE 5 3 1, Op.addE 6 6 1]

/-- C8: connected_components on the scenario graph returns exactly the three
components {A,B,C}, {D,E,F}, {G} (in traversal order). -/
theorem C8_connected_components :
    connected_components ccExample = some [[0, 1, 2], [3, 4, 5], [6]] := by decide

/-! ### Claim C6: has_cycle on undirected graphs -/

/-- Number of vertices of a list not yet in the visited set (the fuel measure
of the DFS recursion). -/
def ucount (l : List V) (visited : List V) : Nat :=
  match l with
  | [] => 0
  | x :: xs => (if x ∈ visited then 0 else 1) + ucount xs visited

theorem ucount_le_length (l visited : List V) : ucount l visited ≤ l.length := by
  induction l with
  | nil => simp [ucount]
  | cons x xs ih =>
    by_cases h : x ∈ visited <;> simp [ucount, h] <;> omega

theorem ucount_congr (l vis1 vis2 : List V)
    (h : ∀ t ∈ l, (t ∈ vis1 ↔ t ∈ vis2)) : ucount l vis1 = ucount l vis2 := by
  induction l with
  | nil => rfl
  | cons x xs ih =>
    have hx := h x (List.mem_cons_self x xs)
    have hxs := ih (fun t ht => h t (List.mem_cons_of_mem x ht))
    by_cases h1 : x ∈ vis1
    · simp [ucount, h1, hx.mp h1, hxs]
    · have h2 : x ∉ vis2 := fun hc => h1 (hx.mpr hc)
      simp [ucount, h1, h2, hxs]

theorem ucount_append_singleton (l visited : List V) (y : V) (hnd : l.Nodup)
    (hy : y ∈ l) (hyv : y ∉ visited) :
    ucount l (visited ++ [y]) + 1 = ucount l visited := by
  induction l with
  | nil => simp at hy
  | cons x xs ih =>
    have hnd1 : x ∉ xs := (List.nodup_cons.mp hnd).1
    have hnd2 : xs.Nodup := (List.nodup_cons.mp hnd).2
    rcases List.mem_cons.mp hy with hxy | hxy
    · have hx : x = y := hxy.symm
      subst hx
      have hcong : ucount xs (visited ++ [x]) = ucount xs visited := by
        apply ucount_congr
        intro t ht
        have hty : t ≠ x := fun hc => hnd1 (by rw [← hc]; exact ht)
        simp [List.mem_append, hty]
      have hxin : x ∈ visited ++ [x] := by simp
      simp [ucount, hxin, hyv, hcong]
      omega
    · have hrec := ih hnd2 hxy
      by_cases hx : x ∈ visited
      · have hxin : x ∈ visited ++ [y] := by simp [hx]
        simp only [ucount, if_pos hx, if_pos hxin]
        omega
      · have hxy2 : x ≠ y := fun hc => hnd1 (by rw [hc]; exact hxy)
        have hxnin : x ∉ visited ++ [y] := by simp [List.mem_append, hx, hxy2]
        simp only [ucount, if_neg hx, if_neg hxnin]
        omega

theorem adjOf_alookup (g : Graph) (y : V) (hk : keys g.adj_list = g.vertices)
    (hy : y ∈ g.vertices) : alookup g.adj_list y = some (adjOf g y) := by
  rcases h : alookup g.adj_list y with _ | l
  · exact absurd ((alookup_eq_none _ y).mp h) (by rw [hk]; exact fun hc => hc hy)
  · simp [adjOf, h]

theorem cycScanF_true (util : V → List V → List V → Option (Bool × List V))
    (ns : Adj) (stack visited : List V)
    (hwit : ∃ q ∈ ns, q.1 ∈ stack ∨ q.1 ∉ visited)
    (hU : ∀ n w, (n, w) ∈ ns → n ∉ visited →
      ∃ vis2, util n stack visited = some (true, vis2)) :
    ∃ vis2, cycScanF util ns stack visited = some (true, vis2) := by
  induction ns with
  | nil =>
    obtain ⟨q, hq, _⟩ := hwit
    simp at hq
  | cons p rest ih =>
    obtain ⟨n, w⟩ := p
    by_cases hv : n ∈ visited
    · by_cases hs : n ∈ stack
      · exact ⟨visited, by simp [cycScanF, hv, hs]⟩
      · obtain ⟨q, hq, hcase⟩ := hwit
        have hq' : q ∈ rest := by
          rcases List.mem_cons.mp hq with h | h
          · rw [h] at hcase
            rcases hcase with hc | hc
            · exact absurd hc hs
            · exact absurd hv hc
          · exact h
        obtain ⟨vis2, h2⟩ :=
          ih ⟨q, hq', hcase⟩ (fun n' w' hm hnv => hU n' w' (List.mem_cons_of_mem _ hm) hnv)
        exact ⟨vis2, by simp [cycScanF, hv, hs, h2]⟩
    · obtain ⟨vis2, h2⟩ := hU n w (List.mem_cons_self _ _) hv
      exact ⟨vis2, by simp [cycScanF, hv, h2]⟩

theorem cycUtil_true (g : Graph)
    (hsym : ∀ u x w, (x, w) ∈ adjOf g u → (u, w) ∈ adjOf g x)
    (hclosed : ∀ u q, q ∈ adjOf g u → q.1 ∈ g.vertices)
    (hkeys : keys g.adj_list = g.vertices)
    (hnd : g.vertices.Nodup) :
    ∀ fuel y stack visited, y ∉ visited → y ∈ g.vertices →
      ucount g.vertices visited < fuel →
      (∃ z w, (z, w) ∈ adjOf g y ∧ (z ∈ stack ∨ z = y)) →
      ∃ vis', cycUtil g fuel y stack visited = some (true, vis') := by
  intro fuel
  induction fuel with
  | zero =>
    intro y stack visited _ _ hfuel _
    exact absurd hfuel (Nat.not_lt_zero _)
  | succ f ih =>
    intro y stack visited hy hyv hfuel hwit
    have hkey : get_neighbors g y = some (adjOf g y) := adjOf_alookup g y hkeys hyv
    have hstep : cycUtil g (f + 1) y stack visited =
        cycScanF (cycUtil g f) (adjOf g y) (y :: stack) (visited ++ [y]) := by
      simp [cycUtil, hkey]
    rw [hstep]
    apply cycScanF_true
    · obtain ⟨z, w, hzw, hz⟩ := hwit
      refine ⟨(z, w), hzw, Or.inl ?_⟩
      rcases hz with hz | hz
      · exact List.mem_cons_of_mem y hz
      · rw [hz]
        exact List.mem_cons_self y stack
    · intro n w hmem hnvis
      apply ih n (y :: stack) (visited ++ [y]) hnvis (hclosed y (n, w) hmem)
      · have hdrop := ucount_append_singleton g.vertices visited y hnd hyv hy
        omega
      · exact ⟨y, w, hsym y n w hmem, Or.inl (List.mem_cons_self y stack)⟩

theorem cycOuter_true (g : Graph)
    (hsym : ∀ u x w, (x, w) ∈ adjOf g u → (u, w) ∈ adjOf g x)
    (hclosed : ∀ u q, q ∈ adjOf g u → q.1 ∈ g.vertices)
    (hkeys : keys g.adj_list = g.vertices)
    (hnd : g.vertices.Nodup) :
    ∀ rest visited, (∀ v ∈ rest, v ∈ g.vertices) →
      (∀ v ∈ visited, adjOf g v = []) →
      (∃ u, u ∈ rest ∧ adjOf g u ≠ []) →
      cycOuter g (g.vertices.length + 1) rest visited = some true := by
  intro rest
  induction rest with
  | nil =>
    intro visited _ _ hwitu
    obtain ⟨u, hu, _⟩ := hwitu
    simp at hu
  | cons v rest' ih =>
    intro visited hsub hvis hwitu
    have hvv : v ∈ g.vertices := hsub v (List.mem_cons_self v rest')
    by_cases hv : v ∈ visited
    · obtain ⟨u, hu, hune⟩ := hwitu
      have hu' : u ∈ rest' := by
        rcases List.mem_cons.mp hu with h | h
        · rw [h] at hune
          exact absurd (hvis v hv) hune
        · exact h
      have := ih visited (fun t ht => hsub t (List.mem_cons_of_mem v ht)) hvis ⟨u, hu', hune⟩
      simpa [cycOuter, hv] using this
    · have hkey : get_neighbors g v = some (adjOf g v) := adjOf_alookup g v hkeys hvv
      by_cases hadj : adjOf g v = []
      · have hstep : cycUtil g (g.vertices.length + 1) v [] visited =
            some (false, visited ++ [v]) := by
          simp [cycUtil, hkey, hadj, cycScanF]
        obtain ⟨u, hu, hune⟩ := hwitu
        have hu' : u ∈ rest' := by
          rcases List.mem_cons.mp hu with h | h
          · rw [h] at hune
            exact absurd hadj hune
          · exact h
        have hvis' : ∀ t ∈ visited ++ [v], adjOf g t = [] := by
          intro t ht
          rcases List.mem_append.mp ht with h | h
          · exact hvis t h
          · rw [List.mem_singleton.mp h]
            exact hadj
        have := ih (visited ++ [v]) (fun t ht => hsub t (List.mem_cons_of_mem v ht))
          hvis' ⟨u, hu', hune⟩
        simpa [cycOuter, hv, hstep] using this
      · have hlen : 0 < g.vertices.length := List.length_pos.mpr (by
          intro hc
          rw [hc] at hvv
          simp at hvv)
        have htrue : ∃ vis', cycUtil g (g.vertices.length + 1) v [] visited =
            some (true, vis') := by
          have hstep : cycUtil g (g.vertices.length + 1) v [] visited =
              cycScanF (cycUtil g g.vertices.length) (adjOf g v) [v] (visited ++ [v]) := by
            simp [cycUtil, hkey]
          rw [hstep]
          apply cycScanF_true
          · rcases hq : adjOf g v with _ | ⟨q, qs⟩
            · exact absurd hq hadj
            · refine ⟨q, List.mem_cons_self q qs, ?_⟩
              by_cases hqv : q.1 = v
              · exact Or.inl (by rw [hqv]; exact List.mem_singleton.mpr rfl)
              · refine Or.inr ?_
                intro hc
                rcases List.mem_append.mp hc with h | h
                · have hvq : (v, q.2) ∈ adjOf g q.1 :=
                    hsym v q.1 q.2 (by rw [hq]; exact List.mem_cons_self q qs)
                  rw [hvis q.1 h] at hvq
                  simp at hvq
                · exact hqv (List.mem_singleton.mp h)
          · intro n w hmem hnvis
            apply cycUtil_true g hsym hclosed hkeys hnd g.vertices.length n [v]
              (visited ++ [v]) hnvis (hclosed v (n, w) hmem)
            · have hdrop := ucount_append_singleton g.vertices visited v hnd hvv hv
              have hle := ucount_le_length g.vertices visited
              omega
            · exact ⟨v, w, hsym v n w hmem, Or.inl (List.mem_singleton.mpr rfl)⟩
        obtain ⟨vis', hstep2⟩ := htrue
        simp [cycOuter, hv, hstep2]

/-- C6: DFS.has_cycle returns True on every reachable undirected graph with at
least one edge (equivalently, some nonempty adjacency entry): the reverse
adjacency entry of each undirected edge looks like a back-edge, and a
self-loop entry is its own back-edge. -/
theorem C6_has_cycle_undirected (vs : List V) (wt : Bool) (ops : List Op) (g : Graph)
    (hnd : vs.Nodup) (hg : g = applyOps (Graph.init vs false wt) ops)
    (hedge : ∃ u, adjOf g u ≠ []) :
    has_cycle g = some true := by
  have hwf : WF g := hg ▸ wf_applyOps _ ops (wf_init vs false wt hnd)
  have hdir : g.is_directed = false := by
    rw [hg]
    exact (applyOps_flags (Graph.init vs false wt) ops).1
  obtain ⟨u, hu⟩ := hedge
  have huv : u ∈ g.vertices := by
    rw [← hwf.keys_eq]
    rcases h : alookup g.adj_list u with _ | l
    · exact absurd (by simp [adjOf, h]) hu
    · have := alookup_isSome g.adj_list u
      rw [h] at this
      exact this.mp (by simp)
  show cycOuter g (g.vertices.length + 1) g.vertices [] = some true
  exact cycOuter_true g (hwf.symm hdir) hwf.closed hwf.keys_eq hwf.nodup
    g.vertices [] (fun t ht => ht) (by simp) ⟨u, huv, hu⟩

/-- Witness for C6 at the one-edge undirected graph. -/
theorem C6_has_cycle_undirected_witness :
    ([] : List V).Nodup ∧
    (∃ u, adjOf (applyOps (Graph.init [] false false) [Op.addE 0 1 1]) u ≠ []) ∧
    has_cycle (applyOps (Graph.init [] false false) [Op.addE 0 1 1]) = some true :=
  ⟨by decide, ⟨0, by decide⟩,
    C6_has_cycle_undirected [] false [Op.addE 0 1 1] _ (by decide) rfl ⟨0, by decide⟩⟩

/-! ### Claim C2: topological sort. Directed walks and cycles -/

/-- Directed edge relation: some adjacency entry of u points to v. -/
def isEdge (g : Graph) (u v : V) : Prop := ∃ q ∈ adjOf g u, q.1 = v

instance (g : Graph) (u v : V) : Decidable (isEdge g u v) := by
  unfold isEdge
  infer_instance

/-- Directed walk from u to v through the successive vertices p. -/
def walk (g : Graph) : V → List V → V → Prop
  | u, [], v => u = v
  | u, x :: xs, v => isEdge g u x ∧ walk g x xs v

/-- The graph contains a directed cycle: a nonempty closed walk. -/
def Cyclic (g : Graph) : Prop := ∃ v p, p ≠ [] ∧ walk g v p v

theorem walk_append_edge (g : Graph) (u : V) (p : List V) (v x : V)
    (hw : walk g u p v) (he : isEdge g v x) : walk g u (p ++ [x]) x := by
  induction p generalizing u with
  | nil =>
    rw [show u = v from hw]
    exact ⟨he, rfl⟩
  | cons y ys ih => exact ⟨hw.1, ih y hw.2⟩

theorem walk_split (g : Graph) (p1 : List V) (u x v : V) (p2 : List V)
    (hw : walk g u (p1 ++ x :: p2) v) :
    walk g u (p1 ++ [x]) x ∧ walk g x p2 v := by
  induction p1 generalizing u with
  | nil => exact ⟨⟨hw.1, rfl⟩, hw.2⟩
  | cons y ys ih =>
    obtain ⟨he, hw'⟩ := hw
    obtain ⟨h1, h2⟩ := ih y hw'
    exact ⟨⟨he, h1⟩, h2⟩

theorem exists_dup_of_not_nodup (l : List V) (h : ¬ l.Nodup) :
    ∃ l1 x l2 l3, l = l1 ++ x :: (l2 ++ x :: l3) := by
  induction l with
  | nil => exact absurd List.nodup_nil h
  | cons a as ih =>
    by_cases ha : a ∈ as
    · obtain ⟨s, t, hst⟩ := List.append_of_mem ha
      exact ⟨[], a, s, t, by simp [hst]⟩
    · have has : ¬ as.Nodup := fun hc => h (List.nodup_cons.mpr ⟨ha, hc⟩)
      obtain ⟨l1, x, l2, l3, hl⟩ := ih has
      exact ⟨a :: l1, x, l2, l3, by simp [hl]⟩

/-- A closed nonempty walk exists as soon as some walk repeats a vertex. -/
theorem cyclic_of_walk_dup (g : Graph) (u : V) (p : List V) (v : V)
    (hw : walk g u p v) (hdup : ¬ (u :: p).Nodup) : Cyclic g := by
  by_cases hu : u ∈ p
  · obtain ⟨s, t, hst⟩ := List.append_of_mem hu
    rw [hst] at hw
    obtain ⟨h1, _⟩ := walk_split g s u u v t hw
    exact ⟨u, s ++ [u], by simp, h1⟩
  · have hp : ¬ p.Nodup := fun hc => hdup (List.nodup_cons.mpr ⟨hu, hc⟩)
    obtain ⟨l1, x, l2, l3, hl⟩ := exists_dup_of_not_nodup p hp
    rw [hl] at hw
    obtain ⟨_, h2⟩ := walk_split g l1 u x v (l2 ++ x :: l3) hw
    obtain ⟨h3, _⟩ := walk_split g l2 x x v l3 h2
    exact ⟨x, l2 ++ [x], by simp, h3⟩

/-- An ordering in which every edge goes strictly forward. -/
def topoOrder (g : Graph) (o : List V) : Prop :=
  ∀ u v, isEdge g u v → vindex o u < vindex o v

theorem topoOrder_walk (g : Graph) (o : List V) (ho : topoOrder g o)
    (u : V) (p : List V) (v : V) (hw : walk g u p v) (hne : p ≠ []) :
    vindex o u < vindex o v := by
  induction p generalizing u with
  | nil => exact absurd rfl hne
  | cons x xs ih =>
    cases xs with
    | nil =>
      have hxv : x = v := hw.2
      rw [← hxv]
      exact ho u x hw.1
    | cons y ys =>
      exact Nat.lt_trans (ho u x hw.1) (ih x hw.2 (by simp))

/-- A graph with a valid topological order of its edges has no cycle. -/
theorem not_cyclic_of_topoOrder (g : Graph) (o : List V) (ho : topoOrder g o) :
    ¬ Cyclic g := by
  rintro ⟨v, p, hne, hw⟩
  exact Nat.lt_irrefl _ (topoOrder_walk g o ho v p v hw hne)

/-! ### Kahn invariant machinery -/

/-- In-degree dictionary value with the Python dict-get semantics. -/
def ideg (m : List (V × Int)) (v : V) : Int := (alookup m v).getD 0

/-- Number of adjacency entries of the sources in srcs pointing at v. -/
def inCnt (g : Graph) (srcs : List V) (v : V) : Nat :=
  (srcs.map (fun u => ((adjOf g u).map Prod.fst).count v)).sum

theorem alookup_map_const {α : Type} (vs : List V) (c : α) (u : V) :
    alookup (vs.map (fun v => (v, c))) u = if u ∈ vs then some c else none := by
  induction vs with
  | nil => simp [alookup]
  | cons x xs ih =>
    by_cases h : x = u
    · subst h
      simp [alookup]
    · simp [alookup, h, ih, Ne.symm h]

theorem ideg_dset_self (m : List (V × Int)) (k : V) (x : Int) :
    ideg (dset m k x) k = x := by
  simp [ideg, alookup_dset_self]

theorem ideg_dset_ne (m : List (V × Int)) (k k' : V) (x : Int) (h : k' ≠ k) :
    ideg (dset m k x) k' = ideg m k' := by
  simp [ideg, alookup_dset_ne m k k' x h]

theorem ideg_incrKey (m : List (V × Int)) (k v : V) :
    ideg (incrKey m k) v = ideg m v + (if v = k then 1 else 0) := by
  by_cases h : v = k
  · subst h
    show ideg (dset m v ((alookup m v).getD 0 + 1)) v = _
    rw [ideg_dset_self]
    simp [ideg]
  · show ideg (dset m k ((alookup m k).getD 0 + 1)) v = _
    rw [ideg_dset_ne m k v _ h]
    simp [h]

theorem ideg_foldl_adj (l : Adj) (m : List (V × Int)) (x : V) :
    ideg (l.foldl (fun m' p => incrKey m' p.1) m) x =
      ideg m x + ((l.map Prod.fst).count x : Int) := by
  induction l generalizing m with
  | nil => simp
  | cons p rest ih =>
    rw [List.foldl_cons, ih]
    rw [ideg_incrKey]
    by_cases h : x = p.1
    · simp [h, List.count_cons]
      omega
    · simp [h, List.count_cons, Ne.symm h]

theorem ideg_countInDeg (g : Graph) (x : V) :
    ideg (countInDeg g) x = (inCnt g g.vertices x : Int) := by
  unfold countInDeg
  have hz : ideg (g.vertices.map (fun v => (v, (0 : Int)))) x = 0 := by
    unfold ideg
    rw [alookup_map_const]
    by_cases h : x ∈ g.vertices <;> simp [h]
  have hgen : ∀ (vs : List V) (m : List (V × Int)),
      ideg (vs.foldl (fun m v => (adjOf g v).foldl (fun m' p => incrKey m' p.1) m) m) x =
        ideg m x + (inCnt g vs x : Int) := by
    intro vs
    induction vs with
    | nil => intro m; simp [inCnt]
    | cons v rest ih =>
      intro m
      rw [List.foldl_cons, ih, ideg_foldl_adj]
      simp [inCnt]
      omega
  rw [hgen, hz]
  omega

theorem count_pos_iff_isEdge (g : Graph) (u v : V) :
    0 < ((adjOf g u).map Prod.fst).count v ↔ isEdge g u v := by
  rw [List.count_pos_iff]
  unfold isEdge
  constructor
  · intro h
    obtain ⟨q, hq, hq1⟩ := List.mem_map.mp h
    exact ⟨q, hq, hq1⟩
  · rintro ⟨q, hq, hq1⟩
    exact List.mem_map.mpr ⟨q, hq, hq1⟩

theorem inCnt_pos (g : Graph) (srcs : List V) (v : V) (h : 0 < inCnt g srcs v) :
    ∃ u ∈ srcs, isEdge g u v := by
  induction srcs with
  | nil => simp [inCnt] at h
  | cons u rest ih =>
    rw [inCnt, List.map_cons, List.sum_cons] at h
    by_cases hu : 0 < ((adjOf g u).map Prod.fst).count v
    · exact ⟨u, List.mem_cons_self u rest, (count_pos_iff_isEdge g u v).mp hu⟩
    · have : 0 < inCnt g rest v := by
        unfold inCnt
        omega
      obtain ⟨u', hu', he⟩ := ih this
      exact ⟨u', List.mem_cons_of_mem u hu', he⟩

theorem inCnt_ge_member (g : Graph) (srcs : List V) (u : V) (hu : u ∈ srcs) (x : V) :
    ((adjOf g u).map Prod.fst).count x ≤ inCnt g srcs x := by
  induction srcs with
  | nil => simp at hu
  | cons a rest ih =>
    rw [inCnt, List.map_cons, List.sum_cons]
    rcases List.mem_cons.mp hu with h | h
    · rw [h]
      omega
    · have := ih h
      unfold inCnt at this
      omega

theorem inCnt_filter_snoc (g : Graph) (l res : List V) (u : V) (hnd : l.Nodup)
    (hu : u ∈ l) (hur : u ∉ res) (x : V) :
    inCnt g (l.filter (fun t => decide (t ∉ res ++ [u]))) x +
      ((adjOf g u).map Prod.fst).count x =
    inCnt g (l.filter (fun t => decide (t ∉ res))) x := by
  induction l with
  | nil => simp at hu
  | cons a as ih =>
    have hnd1 : a ∉ as := (List.nodup_cons.mp hnd).1
    have hnd2 : as.Nodup := (List.nodup_cons.mp hnd).2
    rcases List.mem_cons.mp hu with hau | hau
    · have ha : a = u := hau.symm
      subst ha
      have hfilt : as.filter (fun t => decide (t ∉ res ++ [a])) =
          as.filter (fun t => decide (t ∉ res)) := by
        apply List.filter_congr
        intro t ht
        have hta : t ≠ a := fun hc => hnd1 (by rw [← hc]; exact ht)
        simp [List.mem_append, hta]
      have hain : ¬ (a ∉ res ++ [a]) := by simp
      simp only [List.filter_cons, decide_eq_true_eq, hain, if_false, hur,
        not_false_iff, if_true, hfilt, inCnt, List.map_cons, List.sum_cons]
      omega
    · have hrec := ih hnd2 hau
      simp only [inCnt] at hrec
      by_cases har : a ∈ res
      · have h1 : ¬ (a ∉ res ++ [u]) := by simp [har]
        have h2 : ¬ (a ∉ res) := by simp [har]
        simp only [List.filter_cons, decide_eq_true_eq, h1, if_false, h2, inCnt]
        exact hrec
      · have hau2 : a ≠ u := fun hc => hnd1 (by rw [hc]; exact hau)
        have h1 : a ∉ res ++ [u] := by simp [List.mem_append, har, hau2]
        have h2 : a ∉ res := har
        simp only [List.filter_cons, decide_eq_true_eq, h1, not_false_iff, if_true,
          h2, inCnt, List.map_cons, List.sum_cons]
        omega

theorem vindex_append_left (l t : List V) (y : V) (hy : y ∈ l) :
    vindex (l ++ t) y = vindex l y := by
  induction l with
  | nil => simp at hy
  | cons a as ih =>
    by_cases h : a = y
    · simp [vindex, h]
    · rcases List.mem_cons.mp hy with h' | h'
      · exact absurd h'.symm h
      · simp [vindex, h, ih h']

theorem vindex_append_self (l : List V) (v : V) (hv : v ∉ l) :
    vindex (l ++ [v]) v = l.length := by
  induction l with
  | nil => simp [vindex]
  | cons a as ih =>
    have ha : a ≠ v := fun hc => hv (by rw [hc]; exact List.mem_cons_self v as)
    have hv' : v ∉ as := fun hc => hv (List.mem_cons_of_mem a hc)
    simp [vindex, ha, ih hv']

theorem kahnStep_cons (n : V) (w : W) (rest : Adj) (indeg : List (V × Int)) (q : List V) :
    kahnStep ((n, w) :: rest) indeg q =
      if (alookup indeg n).getD 0 - 1 = 0
      then kahnStep rest (dset indeg n ((alookup indeg n).getD 0 - 1)) (q ++ [n])
      else kahnStep rest (dset indeg n ((alookup indeg n).getD 0 - 1)) q := rfl

theorem kahnStep_fst (ns : Adj) (indeg : List (V × Int)) (q : List V) (v : V) :
    ideg (kahnStep ns indeg q).1 v = ideg indeg v - ((ns.map Prod.fst).count v : Int) := by
  induction ns generalizing indeg q with
  | nil => simp [kahnStep]
  | cons p rest ih =>
    obtain ⟨n, w⟩ := p
    rw [kahnStep_cons]
    have hdef : ideg indeg n = (alookup indeg n).getD 0 := rfl
    have hd : ∀ q', ideg (kahnStep rest (dset indeg n ((alookup indeg n).getD 0 - 1)) q').1 v =
        ideg (dset indeg n ((alookup indeg n).getD 0 - 1)) v -
          ((rest.map Prod.fst).count v : Int) := fun q' => ih _ q'
    by_cases hv : v = n
    · subst hv
      have hcnt : (((v, w) :: rest).map Prod.fst).count v = (rest.map Prod.fst).count v + 1 := by
        simp [List.count_cons]
      by_cases hd0 : (alookup indeg v).getD 0 - 1 = 0 <;>
        [rw [if_pos hd0, hd, ideg_dset_self]; rw [if_neg hd0, hd, ideg_dset_self]] <;>
        rw [hcnt] <;> push_cast <;> omega
    · have hcnt : (((n, w) :: rest).map Prod.fst).count v = (rest.map Prod.fst).count v := by
        simp [List.count_cons, hv, Ne.symm hv]
      by_cases hd0 : (alookup indeg n).getD 0 - 1 = 0 <;>
        [rw [if_pos hd0, hd, ideg_dset_ne _ _ _ _ hv]; rw [if_neg hd0, hd, ideg_dset_ne _ _ _ _ hv]] <;>
        rw [hcnt]

theorem kahnStep_snd_mem (ns : Adj) (indeg : List (V × Int)) (q : List V) (x : V)
    (hx : x ∈ (kahnStep ns indeg q).2) : x ∈ q ∨ x ∈ ns.map Prod.fst := by
  induction ns generalizing indeg q with
  | nil =>
    simp [kahnStep] at hx
    exact Or.inl hx
  | cons p rest ih =>
    obtain ⟨n, w⟩ := p
    rw [kahnStep_cons] at hx
    by_cases hd0 : (alookup indeg n).getD 0 - 1 = 0
    · rw [if_pos hd0] at hx
      rcases ih _ _ hx with h | h
      · rcases List.mem_append.mp h with h' | h'
        · exact Or.inl h'
        · exact Or.inr (by simp [List.mem_singleton.mp h'])
      · exact Or.inr (by simp [h])
    · rw [if_neg hd0] at hx
      rcases ih _ _ hx with h | h
      · exact Or.inl h
      · exact Or.inr (by simp [h])

theorem kahnStep_snd_inv (ns : Adj) (indeg : List (V × Int)) (q : List V)
    (hq : q.Nodup) (hq0 : ∀ x ∈ q, ideg indeg x ≤ 0) :
    (kahnStep ns indeg q).2.Nodup ∧
    (∀ x ∈ (kahnStep ns indeg q).2, ideg (kahnStep ns indeg q).1 x ≤ 0) := by
  induction ns generalizing indeg q with
  | nil => exact ⟨hq, by simpa [kahnStep] using hq0⟩
  | cons p rest ih =>
    obtain ⟨n, w⟩ := p
    rw [kahnStep_cons]
    by_cases hd0 : (alookup indeg n).getD 0 - 1 = 0
    · rw [if_pos hd0]
      have hnq : n ∉ q := by
        intro hc
        have h1 := hq0 n hc
        have h2 : ideg indeg n = (alookup indeg n).getD 0 := rfl
        omega
      apply ih
      · refine List.Nodup.append hq (List.nodup_singleton n) ?_
        intro a ha hb
        exact hnq ((List.mem_singleton.mp hb) ▸ ha)
      · intro x hx
        rcases List.mem_append.mp hx with h | h
        · have hxn : x ≠ n := fun hc => hnq (hc ▸ h)
          rw [ideg_dset_ne _ _ _ _ hxn]
          exact hq0 x h
        · rw [List.mem_singleton.mp h, ideg_dset_self]
          omega
    · rw [if_neg hd0]
      apply ih
      · exact hq
      · intro x hx
        by_cases hxn : x = n
        · subst hxn
          rw [ideg_dset_self]
          have h1 := hq0 x hx
          have h2 : ideg indeg x = (alookup indeg x).getD 0 := rfl
          omega
        · rw [ideg_dset_ne _ _ _ _ hxn]
          exact hq0 x hx

theorem kahnStep_snd_zero (ns : Adj) (indeg : List (V × Int)) (q : List V)
    (hpos : ∀ v, ((ns.map Prod.fst).count v : Int) ≤ ideg indeg v) (x : V) :
    x ∈ (kahnStep ns indeg q).2 ↔
      x ∈ q ∨ (x ∈ ns.map Prod.fst ∧ ideg (kahnStep ns indeg q).1 x = 0) := by
  induction ns generalizing indeg q with
  | nil => simp [kahnStep]
  | cons p rest ih =>
    obtain ⟨n, w⟩ := p
    have hdef : ideg indeg n = (alookup indeg n).getD 0 := rfl
    have hcnt_self : (((n, w) :: rest).map Prod.fst).count n =
        (rest.map Prod.fst).count n + 1 := by
      simp [List.count_cons]
    have hcnt_ne : ∀ v, v ≠ n → (((n, w) :: rest).map Prod.fst).count v =
        (rest.map Prod.fst).count v := by
      intro v hv
      simp [List.count_cons, hv, Ne.symm hv]
    have hpos' : ∀ v, ((rest.map Prod.fst).count v : Int) ≤
        ideg (dset indeg n ((alookup indeg n).getD 0 - 1)) v := by
      intro v
      by_cases hv : v = n
      · subst hv
        rw [ideg_dset_self]
        have h := hpos v
        rw [hcnt_self] at h
        push_cast at h
        omega
      · rw [ideg_dset_ne _ _ _ _ hv]
        have h := hpos v
        rw [hcnt_ne v hv] at h
        exact h
    rw [kahnStep_cons]
    by_cases hd0 : (alookup indeg n).getD 0 - 1 = 0
    · rw [if_pos hd0, ih _ _ hpos']
      have hcrn : (rest.map Prod.fst).count n = 0 := by
        have h := hpos n
        rw [hcnt_self] at h
        push_cast at h
        omega
      have hzn : ideg (kahnStep rest (dset indeg n ((alookup indeg n).getD 0 - 1))
          (q ++ [n])).1 n = 0 := by
        rw [kahnStep_fst, ideg_dset_self, hcrn]
        omega
      constructor
      · rintro (hq' | ⟨hxr, hz⟩)
        · rcases List.mem_append.mp hq' with h | h
          · exact Or.inl h
          · have hx : x = n := List.mem_singleton.mp h
            subst hx
            exact Or.inr ⟨by simp, hzn⟩
        · exact Or.inr ⟨by rw [List.map_cons]; exact List.mem_cons_of_mem n hxr, hz⟩
      · rintro (hq' | ⟨hmem, hz⟩)
        · exact Or.inl (List.mem_append.mpr (Or.inl hq'))
        · rw [List.map_cons] at hmem
          rcases List.mem_cons.mp hmem with hxn | hxr
          · exact Or.inl (List.mem_append.mpr (Or.inr (by simp [hxn])))
          · exact Or.inr ⟨hxr, hz⟩
    · rw [if_neg hd0, ih _ _ hpos']
      constructor
      · rintro (hq' | ⟨hxr, hz⟩)
        · exact Or.inl hq'
        · exact Or.inr ⟨by rw [List.map_cons]; exact List.mem_cons_of_mem n hxr, hz⟩
      · rintro (hq' | ⟨hmem, hz⟩)
        · exact Or.inl hq'
        · rw [List.map_cons] at hmem
          by_cases hr : x ∈ rest.map Prod.fst
          · exact Or.inr ⟨hr, hz⟩
          · have hxn : x = n := by
              rcases List.mem_cons.mp hmem with h | h
              · exact h
              · exact absurd h hr
            subst hxn
            exfalso
            rw [kahnStep_fst, ideg_dset_self] at hz
            have hcrn : (rest.map Prod.fst).count x = 0 := by
              rcases Nat.eq_zero_or_pos ((rest.map Prod.fst).count x) with h | h
              · exact h
              · exact absurd (List.count_pos_iff.mp h) hr
            rw [hcrn] at hz
            omega

theorem isEdge_src_mem (g : Graph) (hk : keys g.adj_list = g.vertices) (u v : V)
    (h : isEdge g u v) : u ∈ g.vertices := by
  obtain ⟨p, hp, _⟩ := h
  rcases hl : alookup g.adj_list u with _ | l
  · rw [adjOf, hl] at hp
    simp at hp
  · rw [← hk]
    have := alookup_isSome g.adj_list u
    rw [hl] at this
    exact this.mp (by simp)

/-- Loop invariant of kahn_algorithm: res is the emitted order, q the pending
queue, indeg the in-degree dictionary. -/
structure KInv (g : Graph) (res q : List V) (indeg : List (V × Int)) : Prop where
  hdeg : ∀ x, ideg indeg x =
    (inCnt g (g.vertices.filter (fun t => decide (t ∉ res))) x : Int)
  hnd : (res ++ q).Nodup
  hsub : ∀ x ∈ res ++ q, x ∈ g.vertices
  hmiss : ∀ x ∈ g.vertices, x ∉ res ++ q → ideg indeg x ≠ 0
  hq0 : ∀ x ∈ q, ideg indeg x ≤ 0
  horder : ∀ x ∈ res, ∀ u, isEdge g u x → u ∈ res ∧ vindex res u < vindex res x

theorem kahnLoop_spec (g : Graph) (hwf : WF g) :
    ∀ fuel q indeg res, KInv g res q indeg →
      g.vertices.length ≤ fuel + res.length →
      ∃ res2 indeg2, kahnLoop g fuel q indeg res = some res2 ∧ KInv g res2 [] indeg2 := by
  intro fuel
  induction fuel with
  | zero =>
    intro q indeg res hinv hlen
    cases q with
    | nil => exact ⟨res, indeg, by simp [kahnLoop], hinv⟩
    | cons v q' =>
      exfalso
      have hsp : (res ++ v :: q').length ≤ g.vertices.length :=
        (List.subperm_of_subset hinv.hnd (fun x hx => hinv.hsub x hx)).length_le
      rw [List.length_append, List.length_cons] at hsp
      omega
  | succ f ih =>
    intro q indeg res hinv hlen
    cases q with
    | nil => exact ⟨res, indeg, by simp [kahnLoop], hinv⟩
    | cons v q' =>
      have hndparts := List.nodup_append.mp hinv.hnd
      have hndres : res.Nodup := hndparts.1
      have hndvq : (v :: q').Nodup := hndparts.2.1
      have hdisj : res.Disjoint (v :: q') := hndparts.2.2
      have hvq : v ∈ res ++ v :: q' := List.mem_append.mpr (Or.inr (List.mem_cons_self v q'))
      have hvV : v ∈ g.vertices := hinv.hsub v hvq
      have hvres : v ∉ res := fun hc => hdisj hc (List.mem_cons_self v q')
      have hvq' : v ∉ q' := (List.nodup_cons.mp hndvq).1
      have hvz : ideg indeg v = 0 := by
        have h1 := hinv.hq0 v (List.mem_cons_self v q')
        have h2 := hinv.hdeg v
        omega
      have hvfil : v ∈ g.vertices.filter (fun t => decide (t ∉ res)) :=
        List.mem_filter.mpr ⟨hvV, by simp [hvres]⟩
      have hpos : ∀ x, (((adjOf g v).map Prod.fst).count x : Int) ≤ ideg indeg x := by
        intro x
        rw [hinv.hdeg x]
        exact_mod_cast inCnt_ge_member g _ v hvfil x
      have hq0q' : ∀ x ∈ q', ideg indeg x ≤ 0 :=
        fun x hx => hinv.hq0 x (List.mem_cons_of_mem v hx)
      have hstepinv := kahnStep_snd_inv (adjOf g v) indeg q' (List.nodup_cons.mp hndvq).2 hq0q'
      have hzero := fun x => kahnStep_snd_zero (adjOf g v) indeg q' hpos x
      have hsnoc := fun x => inCnt_filter_snoc g g.vertices res v hwf.nodup hvV hvres x
      have hdeg' : ∀ x, ideg (kahnStep (adjOf g v) indeg q').1 x =
          (inCnt g (g.vertices.filter (fun t => decide (t ∉ res ++ [v]))) x : Int) := by
        intro x
        rw [kahnStep_fst, hinv.hdeg x]
        have := hsnoc x
        push_cast
        omega
      have hedge_of_mem : ∀ x, x ∈ (adjOf g v).map Prod.fst → isEdge g v x := by
        intro x hx
        obtain ⟨p, hp, hp1⟩ := List.mem_map.mp hx
        exact ⟨p, hp, hp1⟩
      have hnotself : ∀ x ∈ (kahnStep (adjOf g v) indeg q').2, x ∉ res ++ [v] := by
        intro x hx hc
        rcases (hzero x).mp hx with hxq | ⟨hxm, _⟩
        · rcases List.mem_append.mp hc with h | h
          · exact hdisj h (List.mem_cons_of_mem v hxq)
          · exact hvq' ((List.mem_singleton.mp h) ▸ hxq)
        · have hedge : isEdge g v x := hedge_of_mem x hxm
          rcases List.mem_append.mp hc with h | h
          · exact hvres ((hinv.horder x h v hedge).1)
          · have hxv : x = v := List.mem_singleton.mp h
            rw [hxv] at hedge
            have hc1 : 0 < ((adjOf g v).map Prod.fst).count v :=
              (count_pos_iff_isEdge g v v).mpr hedge
            have hc2 := hpos v
            omega
      have hq'sub : ∀ x ∈ q', x ∈ (kahnStep (adjOf g v) indeg q').2 :=
        fun x hx => (hzero x).mpr (Or.inl hx)
      have hinv' : KInv g (res ++ [v]) (kahnStep (adjOf g v) indeg q').2
          (kahnStep (adjOf g v) indeg q').1 := by
        constructor
        · exact hdeg'
        · rw [List.nodup_append]
          refine ⟨?_, hstepinv.1, ?_⟩
          · rw [List.nodup_append]
            exact ⟨hndres, List.nodup_singleton v,
              fun a ha hb => hvres ((List.mem_singleton.mp hb) ▸ ha)⟩
          · intro a ha hb
            exact hnotself a hb ha
        · intro x hx
          rcases List.mem_append.mp hx with h | h
          · rcases List.mem_append.mp h with h' | h'
            · exact hinv.hsub x (List.mem_append.mpr (Or.inl h'))
            · exact (List.mem_singleton.mp h') ▸ hvV
          · rcases kahnStep_snd_mem _ _ _ _ h with h' | h'
            · exact hinv.hsub x (List.mem_append.mpr (Or.inr (List.mem_cons_of_mem v h')))
            · obtain ⟨p, hp, hp1⟩ := List.mem_map.mp h'
              exact hp1 ▸ hwf.closed v p hp
        · intro x hxV hxn
          have hxold : x ∉ res ++ v :: q' := by
            intro hc
            rcases List.mem_append.mp hc with h | h
            · exact hxn (List.mem_append.mpr (Or.inl (List.mem_append.mpr (Or.inl h))))
            · rcases List.mem_cons.mp h with h' | h'
              · exact hxn (List.mem_append.mpr (Or.inl (List.mem_append.mpr (Or.inr (by simp [h'])))))
              · exact hxn (List.mem_append.mpr (Or.inr (hq'sub x h')))
          have hmiss0 := hinv.hmiss x hxV hxold
          intro hc
          by_cases hxm : x ∈ (adjOf g v).map Prod.fst
          · exact hxn (List.mem_append.mpr (Or.inr ((hzero x).mpr (Or.inr ⟨hxm, hc⟩))))
          · rw [kahnStep_fst, List.count_eq_zero.mpr hxm] at hc
            simp at hc
            exact hmiss0 hc
        · exact hstepinv.2
        · intro x hx u hedge
          rcases List.mem_append.mp hx with h | h
          · have hold := hinv.horder x h u hedge
            refine ⟨List.mem_append.mpr (Or.inl hold.1), ?_⟩
            rw [vindex_append_left res [v] u hold.1, vindex_append_left res [v] x h]
            exact hold.2
          · have hxv : x = v := List.mem_singleton.mp h
            rw [hxv] at hedge ⊢
            have hures : u ∈ res := by
              by_contra hur
              have huV : u ∈ g.vertices := isEdge_src_mem g hwf.keys_eq u v hedge
              have hufil : u ∈ g.vertices.filter (fun t => decide (t ∉ res)) :=
                List.mem_filter.mpr ⟨huV, by simp [hur]⟩
              have hc1 : 0 < ((adjOf g u).map Prod.fst).count v :=
                (count_pos_iff_isEdge g u v).mpr hedge
              have hc2 := inCnt_ge_member g _ u hufil v
              have hc3 := hinv.hdeg v
              omega
            refine ⟨List.mem_append.mpr (Or.inl hures), ?_⟩
            rw [vindex_append_left res [v] u hures, vindex_append_self res v hvres]
            exact vindex_lt res u hures
      have hrec := ih (kahnStep (adjOf g v) indeg q').2 (kahnStep (adjOf g v) indeg q').1
        (res ++ [v]) hinv' (by rw [List.length_append, List.length_singleton]; omega)
      obtain ⟨res2, indeg2, hres2, hinv2⟩ := hrec
      refine ⟨res2, indeg2, ?_, hinv2⟩
      rw [show kahnLoop g (f + 1) (v :: q') indeg res =
        kahnLoop g f (kahnStep (adjOf g v) indeg q').2 (kahnStep (adjOf g v) indeg q').1
          (res ++ [v]) from rfl]
      exact hres2

theorem cyclic_of_all_pred (g : Graph) (R : List V) (hne : R ≠ [])
    (hpred : ∀ r ∈ R, ∃ u ∈ R, isEdge g u r) : Cyclic g := by
  obtain ⟨r0, hr0⟩ : ∃ r, r ∈ R := by
    cases R with
    | nil => exact absurd rfl hne
    | cons a as => exact ⟨a, List.mem_cons_self a as⟩
  have grow : ∀ n, ∃ u p, u ∈ R ∧ (∀ x ∈ p, x ∈ R) ∧ walk g u p r0 ∧ p.length = n := by
    intro n
    induction n with
    | zero => exact ⟨r0, [], hr0, by simp, rfl, rfl⟩
    | succ k ihn =>
      obtain ⟨u, p, huR, hpR, hw, hlen⟩ := ihn
      obtain ⟨u', hu'R, hedge⟩ := hpred u huR
      refine ⟨u', u :: p, hu'R, ?_, ⟨hedge, hw⟩, by simp [hlen]⟩
      intro x hx
      rcases List.mem_cons.mp hx with h | h
      · exact h ▸ huR
      · exact hpR x h
  obtain ⟨u, p, huR, hpR, hw, hlen⟩ := grow R.length
  have hdup : ¬ (u :: p).Nodup := by
    intro hc
    have hsub : (u :: p) ⊆ R := by
      intro x hx
      rcases List.mem_cons.mp hx with h | h
      · exact h ▸ huR
      · exact hpR x h
    have := (List.subperm_of_subset hc hsub).length_le
    simp [hlen] at this
  exact cyclic_of_walk_dup g u p r0 hw hdup

theorem kahn_spec (g : Graph) (hwf : WF g) (hdir : g.is_directed = true) :
    (∃ o, kahn_algorithm g = TRes.ok o ∧ o.Perm g.vertices ∧ topoOrder g o) ∨
    (kahn_algorithm g = TRes.cycle ∧ Cyclic g) := by
  have hfilall : g.vertices.filter (fun t => decide (t ∉ ([] : List V))) = g.vertices := by
    apply List.filter_eq_self.mpr
    intro a _
    simp
  have hinit : KInv g []
      (g.vertices.filter (fun v => (alookup (countInDeg g) v).getD 0 == 0))
      (countInDeg g) := by
    constructor
    · intro x
      rw [hfilall]
      exact ideg_countInDeg g x
    · exact List.Nodup.filter _ hwf.nodup
    · intro x hx
      simp only [List.nil_append] at hx
      exact (List.mem_filter.mp hx).1
    · intro x hxV hxn
      simp only [List.nil_append] at hxn
      intro hc
      apply hxn
      apply List.mem_filter.mpr
      refine ⟨hxV, ?_⟩
      have : ideg (countInDeg g) x = (alookup (countInDeg g) x).getD 0 := rfl
      simp [← this, hc]
    · intro x hx
      have h := (List.mem_filter.mp hx).2
      have h2 : (alookup (countInDeg g) x).getD 0 = 0 := by
        simpa using h
      have : ideg (countInDeg g) x = (alookup (countInDeg g) x).getD 0 := rfl
      omega
    · intro x hx
      simp at hx
  obtain ⟨res2, indeg2, hloop, hinv2⟩ :=
    kahnLoop_spec g hwf g.vertices.length _ _ [] hinit (by simp)
  have hnd2 : res2.Nodup := by
    have := hinv2.hnd
    rwa [List.append_nil] at this
  have hsub2 : res2 ⊆ g.vertices := by
    intro x hx
    exact hinv2.hsub x (by rw [List.append_nil]; exact hx)
  have heq : kahn_algorithm g =
      (if res2.length = g.vertices.length then TRes.ok res2 else TRes.cycle) := by
    unfold kahn_algorithm
    rw [if_pos hdir]
    simp only [hloop]
  by_cases hlenres : res2.length = g.vertices.length
  · left
    refine ⟨res2, by rw [heq, if_pos hlenres], ?_, ?_⟩
    · exact (List.subperm_of_subset hnd2 hsub2).perm_of_length_le (by omega)
    · intro u x hedge
      have hxV : x ∈ g.vertices := by
        obtain ⟨p, hp, hp1⟩ := hedge
        exact hp1 ▸ hwf.closed u p hp
      have hperm : res2.Perm g.vertices :=
        (List.subperm_of_subset hnd2 hsub2).perm_of_length_le (by omega)
      have hxres : x ∈ res2 := hperm.mem_iff.mpr hxV
      exact (hinv2.horder x hxres u hedge).2
  · right
    refine ⟨by rw [heq, if_neg hlenres], ?_⟩
    have hRne : g.vertices.filter (fun t => decide (t ∉ res2)) ≠ [] := by
      intro hc
      have hall : g.vertices ⊆ res2 := by
        intro x hx
        by_contra hxr
        have : x ∈ g.vertices.filter (fun t => decide (t ∉ res2)) :=
          List.mem_filter.mpr ⟨hx, by simp [hxr]⟩
        rw [hc] at this
        simp at this
      have h1 := (List.subperm_of_subset hwf.nodup hall).length_le
      have h2 := (List.subperm_of_subset hnd2 hsub2).length_le
      omega
    apply cyclic_of_all_pred g (g.vertices.filter (fun t => decide (t ∉ res2))) hRne
    intro r hr
    have hrV : r ∈ g.vertices := (List.mem_filter.mp hr).1
    have hrres : r ∉ res2 := by
      have := (List.mem_filter.mp hr).2
      simpa using this
    have hmiss := hinv2.hmiss r hrV (by rw [List.append_nil]; exact hrres)
    have hdeg := hinv2.hdeg r
    have hpos : 0 < inCnt g (g.vertices.filter (fun t => decide (t ∉ res2))) r := by
      rcases Nat.eq_zero_or_pos (inCnt g (g.vertices.filter (fun t => decide (t ∉ res2))) r)
        with h | h
      · rw [h] at hdeg
        simp at hdeg
        exact absurd hdeg hmiss
      · exact h
    exact inCnt_pos g _ r hpos

/-! ### dfs_based machinery -/

/-- The recursion stack as a chain: each ancestor has an edge to its child. -/
def chain (g : Graph) : List V → Prop
  | [] => True
  | [_] => True
  | b :: a :: rest => isEdge g a b ∧ chain g (a :: rest)

theorem chain_walk (g : Graph) : ∀ (t : List V) (h : V), chain g (h :: t) →
    ∀ x ∈ h :: t, ∃ p, walk g x p h := by
  intro t
  induction t with
  | nil =>
    intro h _ x hx
    have hxh : x = h := by simpa using hx
    exact ⟨[], hxh⟩
  | cons a t' ih =>
    intro h hch x hx
    rcases List.mem_cons.mp hx with hxh | hxa
    · exact ⟨[], hxh⟩
    · obtain ⟨p, hp⟩ := ih a hch.2 x hxa
      exact ⟨p ++ [h], walk_append_edge g x p a h hp hch.1⟩

theorem ucount_mono (l va vb : List V) (h : ∀ x ∈ va, x ∈ vb) :
    ucount l vb ≤ ucount l va := by
  induction l with
  | nil => simp [ucount]
  | cons x xs ih =>
    by_cases hx : x ∈ va
    · simp only [ucount, if_pos hx, if_pos (h x hx)]
      omega
    · by_cases hx2 : x ∈ vb
      · simp only [ucount, if_neg hx, if_pos hx2]
        omega
      · simp only [ucount, if_neg hx, if_neg hx2]
        omega

/-- State invariant of the dfs_based recursion: every visited vertex is either
completed (on the stack) or on the recursion path; completed vertices have all
out-edges into earlier completed vertices. -/
structure DPre (g : Graph) (anc visited stack : List V) : Prop where
  hvs : ∀ x ∈ visited, x ∈ stack ∨ x ∈ anc
  hsv : ∀ x ∈ stack, x ∈ visited
  hav : ∀ x ∈ anc, x ∈ visited
  hsnd : stack.Nodup
  hsa : ∀ x ∈ stack, x ∉ anc
  hord : ∀ u ∈ stack, ∀ x, isEdge g u x → x ∈ stack ∧ vindex stack x < vindex stack u
  hvV : ∀ x ∈ visited, x ∈ g.vertices

theorem dfsScanF_spec (g : Graph) (hwf : WF g) (f : Nat) (v : V) (anc : List V)
    (hchain : chain g (v :: anc))
    (HV : ∀ n vis st, n ∉ vis → n ∈ g.vertices → DPre g (v :: anc) vis st →
      chain g (n :: v :: anc) → ucount g.vertices vis < f →
      (∃ vis' st', dfsVisit g f n (v :: anc) vis st = DRes.ok vis' st' ∧
        (∃ ext, vis' = vis ++ ext) ∧ (∃ ext2, st' = st ++ ext2) ∧
        n ∈ st' ∧ DPre g (v :: anc) vis' st') ∨
      (dfsVisit g f n (v :: anc) vis st = DRes.cyc ∧ Cyclic g)) :
    ∀ ns vis st, (∀ q ∈ ns, q ∈ adjOf g v) → DPre g (v :: anc) vis st →
      ucount g.vertices vis < f →
      (∃ vis' st',
        dfsScanF (fun n vis st => dfsVisit g f n (v :: anc) vis st) ns (v :: anc) vis st =
          DRes.ok vis' st' ∧
        (∃ ext, vis' = vis ++ ext) ∧ (∃ ext2, st' = st ++ ext2) ∧
        (∀ q ∈ ns, q.1 ∈ st') ∧ DPre g (v :: anc) vis' st') ∨
      (dfsScanF (fun n vis st => dfsVisit g f n (v :: anc) vis st) ns (v :: anc) vis st =
          DRes.cyc ∧ Cyclic g) := by
  intro ns
  induction ns with
  | nil =>
    intro vis st hns hpre hfc
    left
    exact ⟨vis, st, rfl, ⟨[], (List.append_nil vis).symm⟩, ⟨[], (List.append_nil st).symm⟩,
      by simp, hpre⟩
  | cons q rest ih =>
    intro vis st hns hpre hfc
    obtain ⟨n, w⟩ := q
    have hqadj : (n, w) ∈ adjOf g v := hns (n, w) (List.mem_cons_self _ _)
    have hedge : isEdge g v n := ⟨(n, w), hqadj, rfl⟩
    by_cases hnvis : n ∈ vis
    · by_cases hnanc : n ∈ v :: anc
      · right
        constructor
        · simp [dfsScanF, hnvis, hnanc]
        · obtain ⟨p, hp⟩ := chain_walk g anc v hchain n hnanc
          exact ⟨n, p ++ [n], by simp, walk_append_edge g n p v n hp hedge⟩
      · have hres := ih vis st (fun q hq => hns q (List.mem_cons_of_mem _ hq)) hpre hfc
        have heq : dfsScanF (fun n vis st => dfsVisit g f n (v :: anc) vis st)
            ((n, w) :: rest) (v :: anc) vis st =
            dfsScanF (fun n vis st => dfsVisit g f n (v :: anc) vis st) rest
              (v :: anc) vis st := by
          simp [dfsScanF, hnvis, hnanc]
        rw [heq]
        rcases hres with ⟨vis', st', hok, hext, hext2, hns', hpre'⟩ | ⟨hcyc, hC⟩
        · left
          refine ⟨vis', st', hok, hext, hext2, ?_, hpre'⟩
          intro q hq
          rcases List.mem_cons.mp hq with h | h
          · have hnst : n ∈ st := by
              rcases hpre.hvs n hnvis with h' | h'
              · exact h'
              · exact absurd h' hnanc
            obtain ⟨ext2, he⟩ := hext2
            rw [h, he]
            exact List.mem_append.mpr (Or.inl hnst)
          · exact hns' q h
        · right
          exact ⟨hcyc, hC⟩
    · have hnV : n ∈ g.vertices := hwf.closed v (n, w) hqadj
      have hch : chain g (n :: v :: anc) := ⟨hedge, hchain⟩
      rcases HV n vis st hnvis hnV hpre hch hfc with
        ⟨vis1, st1, hok1, ⟨ext1, he1⟩, ⟨ext2, he2⟩, hnst1, hpre1⟩ | ⟨hcyc, hC⟩
      · have hfc1 : ucount g.vertices vis1 < f := by
          have hm : ∀ x ∈ vis, x ∈ vis1 := by
            intro x hx
            rw [he1]
            exact List.mem_append.mpr (Or.inl hx)
          exact Nat.lt_of_le_of_lt (ucount_mono g.vertices vis vis1 hm) hfc
        have hres := ih vis1 st1 (fun q hq => hns q (List.mem_cons_of_mem _ hq)) hpre1 hfc1
        have heq : dfsScanF (fun n vis st => dfsVisit g f n (v :: anc) vis st)
            ((n, w) :: rest) (v :: anc) vis st =
            dfsScanF (fun n vis st => dfsVisit g f n (v :: anc) vis st) rest
              (v :: anc) vis1 st1 := by
          simp [dfsScanF, hnvis, hok1]
        rw [heq]
        rcases hres with ⟨vis', st', hok, ⟨e1, h1⟩, ⟨e2, h2⟩, hns', hpre'⟩ | ⟨hcyc, hC⟩
        · left
          refine ⟨vis', st', hok, ⟨ext1 ++ e1, by rw [h1, he1, List.append_assoc]⟩,
            ⟨ext2 ++ e2, by rw [h2, he2, List.append_assoc]⟩, ?_, hpre'⟩
          intro q hq
          rcases List.mem_cons.mp hq with h | h
          · rw [h]
            show n ∈ st'
            rw [h2]
            exact List.mem_append.mpr (Or.inl hnst1)
          · exact hns' q h
        · right
          exact ⟨hcyc, hC⟩
      · right
        constructor
        · simp [dfsScanF, hnvis, hcyc]
        · exact hC

theorem dfsVisit_spec (g : Graph) (hwf : WF g) :
    ∀ fuel v anc visited stack, v ∉ visited → v ∈ g.vertices →
      DPre g anc visited stack → chain g (v :: anc) →
      ucount g.vertices visited < fuel →
      (∃ vis' st', dfsVisit g fuel v anc visited stack = DRes.ok vis' st' ∧
        (∃ ext, vis' = visited ++ ext) ∧ (∃ ext2, st' = stack ++ ext2) ∧
        v ∈ st' ∧ DPre g anc vis' st') ∨
      (dfsVisit g fuel v anc visited stack = DRes.cyc ∧ Cyclic g) := by
  intro fuel
  induction fuel with
  | zero =>
    intro v anc visited stack _ _ _ _ hfc
    exact absurd hfc (Nat.not_lt_zero _)
  | succ f ih =>
    intro v anc visited stack hv hvV hpre hch hfc
    have hpre0 : DPre g (v :: anc) (visited ++ [v]) stack := by
      constructor
      · intro x hx
        rcases List.mem_append.mp hx with h | h
        · rcases hpre.hvs x h with h' | h'
          · exact Or.inl h'
          · exact Or.inr (List.mem_cons_of_mem v h')
        · exact Or.inr (by rw [List.mem_singleton.mp h]; exact List.mem_cons_self v anc)
      · intro x hx
        exact List.mem_append.mpr (Or.inl (hpre.hsv x hx))
      · intro x hx
        rcases List.mem_cons.mp hx with h | h
        · exact List.mem_append.mpr (Or.inr (by simp [h]))
        · exact List.mem_append.mpr (Or.inl (hpre.hav x h))
      · exact hpre.hsnd
      · intro x hx hc
        rcases List.mem_cons.mp hc with h | h
        · exact hv (h ▸ hpre.hsv x hx)
        · exact hpre.hsa x hx h
      · exact hpre.hord
      · intro x hx
        rcases List.mem_append.mp hx with h | h
        · exact hpre.hvV x h
        · exact (List.mem_singleton.mp h) ▸ hvV
    have hfc0 : ucount g.vertices (visited ++ [v]) < f := by
      have := ucount_append_singleton g.vertices visited v hwf.nodup hvV hv
      omega
    have hscan := dfsScanF_spec g hwf f v anc hch
      (fun n vis st hn hnV hp hc hf => ih n (v :: anc) vis st hn hnV hp hc hf)
      (adjOf g v) (visited ++ [v]) stack (fun q hq => hq) hpre0 hfc0
    have hunfold : dfsVisit g (f + 1) v anc visited stack =
        (match dfsScanF (fun n vis st => dfsVisit g f n (v :: anc) vis st)
            (adjOf g v) (v :: anc) (visited ++ [v]) stack with
        | DRes.ok vis' st' => DRes.ok vis' (st' ++ [v])
        | r => r) := rfl
    rcases hscan with ⟨vis', st', hok, ⟨ext, he⟩, ⟨ext2, he2⟩, hnsdone, hpre'⟩ | ⟨hcyc, hC⟩
    · left
      refine ⟨vis', st' ++ [v], ?_, ⟨[v] ++ ext, by rw [he, List.append_assoc]⟩,
        ⟨ext2 ++ [v], by rw [he2, List.append_assoc]⟩, by simp, ?_⟩
      · rw [hunfold, hok]
      · have hvnotst : v ∉ st' := fun hc => hpre'.hsa v hc (List.mem_cons_self v anc)
        have hvnotanc : v ∉ anc := fun hc => hv (hpre.hav v hc)
        constructor
        · intro x hx
          rcases hpre'.hvs x hx with h | h
          · exact Or.inl (List.mem_append.mpr (Or.inl h))
          · rcases List.mem_cons.mp h with h' | h'
            · exact Or.inl (List.mem_append.mpr (Or.inr (by simp [h'])))
            · exact Or.inr h'
        · intro x hx
          rcases List.mem_append.mp hx with h | h
          · exact hpre'.hsv x h
          · rw [List.mem_singleton.mp h, he]
            exact List.mem_append.mpr (Or.inl (List.mem_append.mpr (Or.inr (by simp))))
        · intro x hx
          exact hpre'.hav x (List.mem_cons_of_mem v hx)
        · rw [List.nodup_append]
          exact ⟨hpre'.hsnd, List.nodup_singleton v,
            fun a ha hb => hvnotst ((List.mem_singleton.mp hb) ▸ ha)⟩
        · intro x hx hc
          rcases List.mem_append.mp hx with h | h
          · exact hpre'.hsa x h (List.mem_cons_of_mem v hc)
          · exact hvnotanc ((List.mem_singleton.mp h) ▸ hc)
        · intro u hu x hedge
          rcases List.mem_append.mp hu with h | h
          · have hold := hpre'.hord u h x hedge
            refine ⟨List.mem_append.mpr (Or.inl hold.1), ?_⟩
            rw [vindex_append_left st' [v] x hold.1, vindex_append_left st' [v] u h]
            exact hold.2
          · have huv : u = v := List.mem_singleton.mp h
            obtain ⟨q, hq, hq1⟩ := hedge
            rw [huv] at hq
            have hxst : x ∈ st' := hq1 ▸ hnsdone q hq
            refine ⟨List.mem_append.mpr (Or.inl hxst), ?_⟩
            rw [vindex_append_left st' [v] x hxst, huv, vindex_append_self st' v hvnotst]
            exact vindex_lt st' x hxst
        · exact hpre'.hvV
    · right
      refine ⟨?_, hC⟩
      rw [hunfold, hcyc]

theorem dfsOuter_spec (g : Graph) (hwf : WF g) :
    ∀ rest visited stack, (∀ x ∈ rest, x ∈ g.vertices) →
      DPre g [] visited stack →
      (∃ vis' st', dfsOuter g (g.vertices.length + 1) rest visited stack =
          DRes.ok vis' st' ∧
        (∀ x ∈ rest, x ∈ vis') ∧ (∃ ext, vis' = visited ++ ext) ∧
        DPre g [] vis' st') ∨
      (dfsOuter g (g.vertices.length + 1) rest visited stack = DRes.cyc ∧ Cyclic g) := by
  intro rest
  induction rest with
  | nil =>
    intro visited stack _ hpre
    left
    exact ⟨visited, stack, rfl, by simp, ⟨[], (List.append_nil _).symm⟩, hpre⟩
  | cons v rest' ih =>
    intro visited stack hsub hpre
    by_cases hv : v ∈ visited
    · have heq : dfsOuter g (g.vertices.length + 1) (v :: rest') visited stack =
          dfsOuter g (g.vertices.length + 1) rest' visited stack := by
        simp [dfsOuter, hv]
      rw [heq]
      rcases ih visited stack (fun x hx => hsub x (List.mem_cons_of_mem v hx)) hpre with
        ⟨vis', st', hok, hall, hext, hpre'⟩ | hc
      · left
        refine ⟨vis', st', hok, ?_, hext, hpre'⟩
        intro x hx
        rcases List.mem_cons.mp hx with h | h
        · obtain ⟨ext, he⟩ := hext
          rw [h, he]
          exact List.mem_append.mpr (Or.inl hv)
        · exact hall x h
      · right
        exact hc
    · have hvV : v ∈ g.vertices := hsub v (List.mem_cons_self v rest')
      have hfc : ucount g.vertices visited < g.vertices.length + 1 :=
        Nat.lt_succ_of_le (ucount_le_length g.vertices visited)
      have hch : chain g (v :: []) := trivial
      rcases dfsVisit_spec g hwf (g.vertices.length + 1) v [] visited stack hv hvV hpre
        hch hfc with ⟨vis1, st1, hok1, ⟨ext1, he1⟩, _, hvst1, hpre1⟩ | ⟨hcyc, hC⟩
      · have heq : dfsOuter g (g.vertices.length + 1) (v :: rest') visited stack =
            dfsOuter g (g.vertices.length + 1) rest' vis1 st1 := by
          simp [dfsOuter, hv, hok1]
        rw [heq]
        rcases ih vis1 st1 (fun x hx => hsub x (List.mem_cons_of_mem v hx)) hpre1 with
          ⟨vis', st', hok, hall, ⟨e1, h1⟩, hpre'⟩ | hc
        · left
          refine ⟨vis', st', hok, ?_,
            ⟨ext1 ++ e1, by rw [h1, he1, List.append_assoc]⟩, hpre'⟩
          intro x hx
          rcases List.mem_cons.mp hx with h | h
          · rw [h, h1]
            exact List.mem_append.mpr (Or.inl (hpre1.hsv v hvst1))
          · exact hall x h
        · right
          exact hc
      · right
        refine ⟨?_, hC⟩
        simp [dfsOuter, hv, hcyc]

theorem vindex_cons_self (a : V) (l : List V) : vindex (a :: l) a = 0 := by
  simp [vindex]

theorem vindex_cons_ne (a y : V) (l : List V) (h : a ≠ y) :
    vindex (a :: l) y = vindex l y + 1 := by
  simp [vindex, h]

theorem vindex_reverse (l : List V) (hnd : l.Nodup) (y : V) (hy : y ∈ l) :
    vindex l.reverse y = l.length - 1 - vindex l y := by
  induction l using List.reverseRecOn with
  | nil => simp at hy
  | append_singleton l0 a ihl =>
    have hparts := List.nodup_append.mp hnd
    have hnd0 : l0.Nodup := hparts.1
    have hanl : a ∉ l0 := fun hc => hparts.2.2 hc (List.mem_singleton.mpr rfl)
    rw [List.reverse_append, List.reverse_singleton, List.singleton_append]
    by_cases hya : y = a
    · subst hya
      rw [vindex_cons_self, vindex_append_self l0 y hanl]
      simp
    · have hyl0 : y ∈ l0 := by
        rcases List.mem_append.mp hy with h | h
        · exact h
        · exact absurd (List.mem_singleton.mp h) hya
      rw [vindex_cons_ne a y l0.reverse (Ne.symm hya), ihl hnd0 hyl0,
        vindex_append_left l0 [a] y hyl0]
      have h1 := vindex_lt l0 y hyl0
      rw [List.length_append, List.length_singleton]
      omega

theorem dfs_spec (g : Graph) (hwf : WF g) (hdir : g.is_directed = true) :
    (∃ o, dfs_based g = TRes.ok o ∧ o.Perm g.vertices ∧ topoOrder g o) ∨
    (dfs_based g = TRes.cycle ∧ Cyclic g) := by
  have hpre0 : DPre g [] [] [] :=
    ⟨by simp, by simp, by simp, List.nodup_nil, by simp, by simp, by simp⟩
  rcases dfsOuter_spec g hwf g.vertices [] [] (fun x hx => hx) hpre0 with
    ⟨vis', st', hok, hall, _, hpre'⟩ | ⟨hcyc, hC⟩
  · left
    have hstV : ∀ x ∈ st', x ∈ g.vertices := fun x hx => hpre'.hvV x (hpre'.hsv x hx)
    have hVst : ∀ x ∈ g.vertices, x ∈ st' := by
      intro x hx
      rcases hpre'.hvs x (hall x hx) with h | h
      · exact h
      · simp at h
    have hperm : st'.Perm g.vertices :=
      (List.subperm_of_subset hpre'.hsnd hstV).perm_of_length_le
        ((List.subperm_of_subset hwf.nodup hVst).length_le)
    refine ⟨st'.reverse, ?_, ?_, ?_⟩
    · unfold dfs_based
      rw [if_pos hdir, hok]
    · exact (List.reverse_perm st').trans hperm
    · intro u x hedge
      have huV : u ∈ g.vertices := isEdge_src_mem g hwf.keys_eq u x hedge
      have hust : u ∈ st' := hVst u huV
      have hord := hpre'.hord u hust x hedge
      have hxst : x ∈ st' := hord.1
      rw [vindex_reverse st' hpre'.hsnd u hust, vindex_reverse st' hpre'.hsnd x hxst]
      have h1 := vindex_lt st' u hust
      have h2 := vindex_lt st' x hxst
      have h3 := hord.2
      omega
  · right
    refine ⟨?_, hC⟩
    unfold dfs_based
    rw [if_pos hdir, hcyc]

/-- C2: on every reachable directed graph, if the graph is acyclic both
kahn_algorithm and dfs_based return a topological order containing every
vertex exactly once with every edge going forward; if the graph has a cycle,
both raise the cycle-detected error (returning no order). -/
theorem C2_topological_sort (vs : List V) (wt : Bool) (ops : List Op) (g : Graph)
    (hnd : vs.Nodup) (hg : g = applyOps (Graph.init vs true wt) ops) :
    (¬ Cyclic g → ∃ o1 o2,
        kahn_algorithm g = TRes.ok o1 ∧ dfs_based g = TRes.ok o2 ∧
        o1.Perm g.vertices ∧ o2.Perm g.vertices ∧ topoOrder g o1 ∧ topoOrder g o2) ∧
    (Cyclic g → kahn_algorithm g = TRes.cycle ∧ dfs_based g = TRes.cycle) := by
  have hwf : WF g := hg ▸ wf_applyOps _ ops (wf_init vs true wt hnd)
  have hdir : g.is_directed = true := by
    rw [hg]
    exact (applyOps_flags _ ops).1
  have hk := kahn_spec g hwf hdir
  have hd := dfs_spec g hwf hdir
  constructor
  · intro hnc
    rcases hk with ⟨o1, h1, hp1, ht1⟩ | ⟨_, hC⟩
    · rcases hd with ⟨o2, h2, hp2, ht2⟩ | ⟨_, hC⟩
      · exact ⟨o1, o2, h1, h2, hp1, hp2, ht1, ht2⟩
      · exact absurd hC hnc
    · exact absurd hC hnc
  · intro hc
    rcases hk with ⟨o1, h1, hp1, ht1⟩ | ⟨hk1, _⟩
    · exact absurd hc (not_cyclic_of_topoOrder g o1 ht1)
    · rcases hd with ⟨o2, h2, hp2, ht2⟩ | ⟨hd1, _⟩
      · exact absurd hc (not_cyclic_of_topoOrder g o2 ht2)
      · exact ⟨hk1, hd1⟩

/-- Witness for C2 at a concrete two-vertex directed graph. -/
theorem C2_topological_sort_witness :
    ([] : List V).Nodup ∧
    ((¬ Cyclic (applyOps (Graph.init [] true false) [Op.addE 0 1 1]) → ∃ o1 o2,
        kahn_algorithm (applyOps (Graph.init [] true false) [Op.addE 0 1 1]) = TRes.ok o1 ∧
        dfs_based (applyOps (Graph.init [] true false) [Op.addE 0 1 1]) = TRes.ok o2 ∧
        o1.Perm (applyOps (Graph.init [] true false) [Op.addE 0 1 1]).vertices ∧
        o2.Perm (applyOps (Graph.init [] true false) [Op.addE 0 1 1]).vertices ∧
        topoOrder (applyOps (Graph.init [] true false) [Op.addE 0 1 1]) o1 ∧
        topoOrder (applyOps (Graph.init [] true false) [Op.addE 0 1 1]) o2) ∧
      (Cyclic (applyOps (Graph.init [] true false) [Op.addE 0 1 1]) →
        kahn_algorithm (applyOps (Graph.init [] true false) [Op.addE 0 1 1]) = TRes.cycle ∧
        dfs_based (applyOps (Graph.init [] true false) [Op.addE 0 1 1]) = TRes.cycle)) :=
  ⟨by decide, C2_topological_sort [] false [Op.addE 0 1 1] _ (by decide) rfl⟩

/-! ### Claim C3: BFS.shortest_path machinery -/

theorem ucount_nil (l : List V) : ucount l [] = l.length := by
  induction l with
  | nil => rfl
  | cons x xs ih =>
    simp [ucount, ih]
    omega

theorem walk_concat_last (g : Graph) (s : V) :
    ∀ (q0 : List V) (w v : V), walk g s (q0 ++ [w]) v →
      w = v ∧ ∃ u, walk g s q0 u ∧ isEdge g u w := by
  intro q0
  induction q0 generalizing s with
  | nil =>
    intro w v hw
    exact ⟨hw.2, s, rfl, hw.1⟩
  | cons a q0' ih =>
    intro w v hw
    obtain ⟨he, hw'⟩ := hw
    obtain ⟨hwv, u, hu, hue⟩ := ih a w v hw'
    exact ⟨hwv, u, ⟨he, hu⟩, hue⟩

theorem walks_stay (g : Graph) (vis : List V)
    (hclosed : ∀ a ∈ vis, ∀ y, isEdge g a y → y ∈ vis) :
    ∀ (q : List V) (u w : V), u ∈ vis → walk g u q w → w ∈ vis := by
  intro q
  induction q with
  | nil =>
    intro u w hu hw
    exact hw ▸ hu
  | cons x xs ih =>
    intro u w hu hw
    exact ih x w (hclosed u hu x hw.1) hw.2

theorem spPush_spec (s : V) (path : List V) (vlist : List V) (hvnd : vlist.Nodup) :
    ∀ (ns : Adj) (q : List (V × List V)) (vis : List V),
      (∀ y w', (y, w') ∈ ns → y ∈ vlist) →
      (∀ x, x ∈ (spPush path ns q vis).2 ↔ x ∈ vis ∨ x ∈ ns.map Prod.fst) ∧
      (∀ x ∈ vis, x ∈ (spPush path ns q vis).2) ∧
      (∃ newq, (spPush path ns q vis).1 = q ++ newq ∧
        (∀ y py, (y, py) ∈ newq → py = path ++ [y] ∧ y ∉ vis ∧ ∃ w', (y, w') ∈ ns) ∧
        (newq.map Prod.fst).Nodup ∧
        (∀ y ∈ newq.map Prod.fst, y ∉ vis) ∧
        (∀ y ∈ newq.map Prod.fst, y ∈ (spPush path ns q vis).2) ∧
        (∀ x ∈ (spPush path ns q vis).2, x ∈ vis ∨ x ∈ newq.map Prod.fst) ∧
        ucount vlist (spPush path ns q vis).2 + newq.length = ucount vlist vis) := by
  intro ns
  induction ns with
  | nil =>
    intro q vis _
    refine ⟨by simp [spPush], by simp [spPush], [], by simp [spPush], ?_, ?_, ?_, ?_, ?_, ?_⟩
    · intro y py h
      simp at h
    · simp
    · simp
    · simp
    · intro x hx
      exact Or.inl (by simpa [spPush] using hx)
    · simp [spPush]
  | cons p rest ih =>
    intro q vis hcl
    obtain ⟨n, w⟩ := p
    have hcl' : ∀ y w', (y, w') ∈ rest → y ∈ vlist :=
      fun y w' h => hcl y w' (List.mem_cons_of_mem _ h)
    by_cases hn : n ∈ vis
    · have hstep : spPush path ((n, w) :: rest) q vis = spPush path rest q vis := by
        simp [spPush, hn]
      obtain ⟨hmem, hmono, newq, hq, hnew, hnd, hnv, hns, hcomp, hcount⟩ := ih q vis hcl'
      rw [hstep]
      refine ⟨?_, hmono, newq, hq, ?_, hnd, hnv, hns, hcomp, hcount⟩
      · intro x
        rw [hmem x]
        constructor
        · rintro (h | h)
          · exact Or.inl h
          · exact Or.inr (by simp [h])
        · rintro (h | h)
          · exact Or.inl h
          · rw [List.map_cons] at h
            rcases List.mem_cons.mp h with h' | h'
            · exact Or.inl (h' ▸ hn)
            · exact Or.inr h'
      · intro y py h
        obtain ⟨h1, h2, w', h3⟩ := hnew y py h
        exact ⟨h1, h2, w', List.mem_cons_of_mem _ h3⟩
    · have hstep : spPush path ((n, w) :: rest) q vis =
          spPush path rest (q ++ [(n, path ++ [n])]) (vis ++ [n]) := by
        simp [spPush, hn]
      have hnvl : n ∈ vlist := hcl n w (List.mem_cons_self _ _)
      obtain ⟨hmem, hmono, newq, hq, hnew, hnd, hnv, hns, hcomp, hcount⟩ :=
        ih (q ++ [(n, path ++ [n])]) (vis ++ [n]) hcl'
      rw [hstep]
      refine ⟨?_, ?_, (n, path ++ [n]) :: newq, ?_, ?_, ?_, ?_, ?_, ?_, ?_⟩
      · intro x
        rw [hmem x]
        constructor
        · rintro (h | h)
          · rcases List.mem_append.mp h with h' | h'
            · exact Or.inl h'
            · exact Or.inr (by simp [List.mem_singleton.mp h'])
          · exact Or.inr (by rw [List.map_cons]; exact List.mem_cons_of_mem n h)
        · rintro (h | h)
          · exact Or.inl (List.mem_append.mpr (Or.inl h))
          · rw [List.map_cons] at h
            rcases List.mem_cons.mp h with h' | h'
            · exact Or.inl (List.mem_append.mpr (Or.inr (by simp [h'])))
            · exact Or.inr h'
      · intro x hx
        exact hmono x (List.mem_append.mpr (Or.inl hx))
      · rw [hq, List.append_assoc]
        rfl
      · intro y py h
        rcases List.mem_cons.mp h with h' | h'
        · have h1 : y = n := congrArg Prod.fst h'
          have h2 : py = path ++ [n] := congrArg Prod.snd h'
          exact ⟨by rw [h2, h1], h1 ▸ hn, w, by rw [h1]; exact List.mem_cons_self _ _⟩
        · obtain ⟨h1, h2, w', h3⟩ := hnew y py h'
          have h2' : y ∉ vis := fun hc => h2 (List.mem_append.mpr (Or.inl hc))
          exact ⟨h1, h2', w', List.mem_cons_of_mem _ h3⟩
      · rw [List.map_cons, List.nodup_cons]
        refine ⟨?_, hnd⟩
        intro hc
        have := hnv n hc
        exact this (List.mem_append.mpr (Or.inr (by simp)))
      · intro y hy
        rw [List.map_cons] at hy
        rcases List.mem_cons.mp hy with h' | h'
        · exact h' ▸ hn
        · intro hc
          exact hnv y h' (List.mem_append.mpr (Or.inl hc))
      · intro y hy
        rw [List.map_cons] at hy
        rcases List.mem_cons.mp hy with h' | h'
        · exact hmono y (by rw [h']; exact List.mem_append.mpr (Or.inr (by simp)))
        · exact hns y h'
      · intro x hx
        rcases hcomp x hx with h | h
        · rcases List.mem_append.mp h with h' | h'
          · exact Or.inl h'
          · exact Or.inr (by rw [List.map_cons]; simp [List.mem_singleton.mp h'])
        · exact Or.inr (by rw [List.map_cons]; exact List.mem_cons_of_mem n h)
      · have hdrop := ucount_append_singleton vlist vis n hvnd hnvl hn
        rw [List.length_cons]
        omega

theorem bfs_shift (g : Graph) (s : V) (queue : List (V × List V)) (vis : List V) (m : Nat)
    (hpaths : ∀ x p, (x, p) ∈ queue → ∃ p', p = s :: p' ∧ walk g s p' x ∧
      (∀ q, walk g s q x → p'.length ≤ q.length))
    (hclosed : ∀ x ∈ vis, x ∉ queue.map Prod.fst → ∀ y, isEdge g x y → y ∈ vis)
    (hsvis : s ∈ vis)
    (hall : ∀ x p, (x, p) ∈ queue → p.length = m + 1)
    (hlow : ∀ w, w ∉ vis → ∀ q, walk g s q w → m ≤ q.length) :
    ∀ w, w ∉ vis → ∀ q, walk g s q w → m + 1 ≤ q.length := by
  intro w hw q hq
  by_contra hlt
  push_neg at hlt
  have hqm : q.length = m := by
    have := hlow w hw q hq
    omega
  rcases List.eq_nil_or_concat q with rfl | ⟨q0, a, rfl⟩
  · exact hw ((show s = w from hq) ▸ hsvis)
  · rw [List.concat_eq_append] at hq hqm
    obtain ⟨haw, u, hu, hue⟩ := walk_concat_last g s q0 a w hq
    have hlens : q0.length + 1 = m := by
      rw [List.length_append, List.length_singleton] at hqm
      omega
    have huvis : u ∈ vis := by
      by_contra huv
      have := hlow u huv q0 hu
      omega
    have hunq : u ∉ queue.map Prod.fst := by
      intro hc
      obtain ⟨xp, hmemq, hx⟩ := List.mem_map.mp hc
      obtain ⟨x, p⟩ := xp
      obtain ⟨p', hp1, hp2, hp3⟩ := hpaths x p hmemq
      have hlen := hall x p hmemq
      have hx' : x = u := hx
      rw [hx'] at hp3
      have hmin := hp3 q0 hu
      rw [hp1, List.length_cons] at hlen
      omega
    exact hw (hclosed u huvis hunq w (haw ▸ hue))

/-- Loop invariant of BFS.shortest_path: queue entries carry minimal paths,
the visited set is exactly the discovered set, and the queue is leveled. -/
structure BInv (g : Graph) (s e : V) (queue : List (V × List V)) (vis : List V) : Prop where
  hpaths : ∀ x p, (x, p) ∈ queue → ∃ p', p = s :: p' ∧ walk g s p' x ∧
    (∀ q, walk g s q x → p'.length ≤ q.length)
  hqvis : ∀ x p, (x, p) ∈ queue → x ∈ vis
  hqnd : (queue.map Prod.fst).Nodup
  hclosed : ∀ x ∈ vis, x ∉ queue.map Prod.fst → ∀ y, isEdge g x y → y ∈ vis
  hsvis : s ∈ vis
  hvisV : ∀ x ∈ vis, x ∈ g.vertices
  hevis : e ∈ vis → e ∈ queue.map Prod.fst
  hlevels : ∃ m qa qb, queue = qa ++ qb ∧
    (∀ x p, (x, p) ∈ qa → p.length = m) ∧
    (∀ x p, (x, p) ∈ qb → p.length = m + 1) ∧
    (∀ w, w ∉ vis → ∀ q, walk g s q w → m ≤ q.length)

theorem spLoop_spec (g : Graph) (hwf : WF g) (s e : V) :
    ∀ fuel queue vis, BInv g s e queue vis →
      queue.length + ucount g.vertices vis ≤ fuel →
      (∃ p', spLoop g e fuel queue vis = SPRes.path (s :: p') ∧ walk g s p' e ∧
        (∀ q, walk g s q e → p'.length ≤ q.length)) ∨
      (spLoop g e fuel queue vis = SPRes.nopath ∧ ∀ q, ¬ walk g s q e) := by
  intro fuel
  induction fuel with
  | zero =>
    intro queue vis hinv hfuel
    cases queue with
    | nil =>
      right
      refine ⟨rfl, ?_⟩
      have hev : e ∉ vis := fun hc => by simpa using hinv.hevis hc
      exact fun q hq => hev (walks_stay g vis
        (fun a ha y hy => hinv.hclosed a ha (by simp) y hy) q s e hinv.hsvis hq)
    | cons a rest =>
      exfalso
      rw [List.length_cons] at hfuel
      omega
  | succ f ih =>
    intro queue vis hinv hfuel
    cases queue with
    | nil =>
      right
      refine ⟨rfl, ?_⟩
      have hev : e ∉ vis := fun hc => by simpa using hinv.hevis hc
      exact fun q hq => hev (walks_stay g vis
        (fun a ha y hy => hinv.hclosed a ha (by simp) y hy) q s e hinv.hsvis hq)
    | cons entry rest =>
      obtain ⟨vtx, path⟩ := entry
      obtain ⟨p0, hp01, hp02, hp03⟩ := hinv.hpaths vtx path (List.mem_cons_self _ _)
      by_cases hve : vtx = e
      · left
        subst hve
        refine ⟨p0, ?_, hp02, hp03⟩
        rw [← hp01]
        simp [spLoop]
      · have hvtxvis : vtx ∈ vis := hinv.hqvis vtx path (List.mem_cons_self _ _)
        have hvtxV : vtx ∈ g.vertices := hinv.hvisV vtx hvtxvis
        have hkey : get_neighbors g vtx = some (adjOf g vtx) :=
          adjOf_alookup g vtx hwf.keys_eq hvtxV
        have hstep : spLoop g e (f + 1) ((vtx, path) :: rest) vis =
            spLoop g e f (spPush path (adjOf g vtx) rest vis).1
              (spPush path (adjOf g vtx) rest vis).2 := by
          simp [spLoop, hve, hkey]
        obtain ⟨hmem, hmono, newq, hq, hnew, hnd, hnv, hns, hcomp, hcount⟩ :=
          spPush_spec s path g.vertices hwf.nodup (adjOf g vtx) rest vis
            (fun y w' hy => hwf.closed vtx (y, w') hy)
        obtain ⟨m, qa, qb, hsplit, hqa, hqb, hlow⟩ := hinv.hlevels
        have hnorm : ∃ qa2 qb2, rest = qa2 ++ qb2 ∧
            (∀ x p, (x, p) ∈ qa2 → p.length = path.length) ∧
            (∀ x p, (x, p) ∈ qb2 → p.length = path.length + 1) ∧
            (∀ w, w ∉ vis → ∀ q, walk g s q w → path.length ≤ q.length) := by
          cases qa with
          | nil =>
            rw [List.nil_append] at hsplit
            have hallm1 : ∀ x p, (x, p) ∈ (vtx, path) :: rest → p.length = m + 1 := by
              rw [hsplit]
              exact hqb
            have hpl : path.length = m + 1 := hallm1 vtx path (List.mem_cons_self _ _)
            have hshift := bfs_shift g s ((vtx, path) :: rest) vis m hinv.hpaths
              hinv.hclosed hinv.hsvis hallm1 hlow
            refine ⟨rest, [], (List.append_nil rest).symm, ?_, by simp, ?_⟩
            · intro x p hp
              rw [hallm1 x p (List.mem_cons_of_mem _ hp), hpl]
            · intro w hw q hq
              rw [hpl]
              exact hshift w hw q hq
          | cons c qa' =>
            rw [List.cons_append] at hsplit
            injection hsplit with hch hrest
            have hpl : path.length = m :=
              hqa vtx path (by rw [← hch]; exact List.mem_cons_self _ _)
            refine ⟨qa', qb, hrest, ?_, ?_, ?_⟩
            · intro x p hp
              rw [hqa x p (List.mem_cons_of_mem c hp), hpl]
            · intro x p hp
              rw [hqb x p hp, hpl]
            · intro w hw q hq
              rw [hpl]
              exact hlow w hw q hq
        obtain ⟨qa2, qb2, hrest2, hqa2, hqb2, hlow2⟩ := hnorm
        have hp0len : p0.length + 1 = path.length := by
          rw [hp01, List.length_cons]
        have hpaths' : ∀ x p, (x, p) ∈ rest ++ newq → ∃ p', p = s :: p' ∧ walk g s p' x ∧
            (∀ q, walk g s q x → p'.length ≤ q.length) := by
          intro x p hp
          rcases List.mem_append.mp hp with h | h
          · exact hinv.hpaths x p (List.mem_cons_of_mem _ h)
          · obtain ⟨hpy, hxvis, w', hw'⟩ := hnew x p h
            have hedge : isEdge g vtx x := ⟨(x, w'), hw', rfl⟩
            refine ⟨p0 ++ [x], by rw [hpy, hp01]; rfl,
              walk_append_edge g s p0 vtx x hp02 hedge, ?_⟩
            intro q hq
            have := hlow2 x hxvis q hq
            rw [List.length_append, List.length_singleton]
            omega
        have hqvis' : ∀ x p, (x, p) ∈ rest ++ newq →
            x ∈ (spPush path (adjOf g vtx) rest vis).2 := by
          intro x p hp
          rcases List.mem_append.mp hp with h | h
          · exact hmono x (hinv.hqvis x p (List.mem_cons_of_mem _ h))
          · exact hns x (List.mem_map.mpr ⟨(x, p), h, rfl⟩)
        have hrestnd : (rest.map Prod.fst).Nodup ∧ vtx ∉ rest.map Prod.fst := by
          have h := hinv.hqnd
          rw [List.map_cons] at h
          exact ⟨(List.nodup_cons.mp h).2, (List.nodup_cons.mp h).1⟩
        have hqnd' : ((rest ++ newq).map Prod.fst).Nodup := by
          rw [List.map_append, List.nodup_append]
          refine ⟨hrestnd.1, hnd, ?_⟩
          intro a ha hb
          have haV : a ∈ vis := by
            obtain ⟨⟨x, p⟩, hmem2, hx⟩ := List.mem_map.mp ha
            exact hx ▸ hinv.hqvis x p (List.mem_cons_of_mem _ hmem2)
          exact hnv a hb haV
        have hclosed' : ∀ x ∈ (spPush path (adjOf g vtx) rest vis).2,
            x ∉ (rest ++ newq).map Prod.fst → ∀ y, isEdge g x y →
            y ∈ (spPush path (adjOf g vtx) rest vis).2 := by
          intro x hx hxq y hy
          rcases hcomp x hx with hxv | hxnew
          · by_cases hxvtx : x = vtx
            · obtain ⟨qq, hqq, hqq1⟩ := hy
              rw [hxvtx] at hqq
              exact (hmem y).mpr (Or.inr (List.mem_map.mpr ⟨qq, hqq, hqq1⟩))
            · have hxold : x ∉ ((vtx, path) :: rest).map Prod.fst := by
                rw [List.map_cons]
                intro hc
                rcases List.mem_cons.mp hc with h | h
                · exact hxvtx h
                · exact hxq (by rw [List.map_append]; exact List.mem_append.mpr (Or.inl h))
              exact hmono y (hinv.hclosed x hxv hxold y hy)
          · exact absurd (by rw [List.map_append]; exact List.mem_append.mpr (Or.inr hxnew)) hxq
        have hvisV' : ∀ x ∈ (spPush path (adjOf g vtx) rest vis).2, x ∈ g.vertices := by
          intro x hx
          rcases (hmem x).mp hx with h | h
          · exact hinv.hvisV x h
          · obtain ⟨⟨y, w'⟩, hmem2, hx2⟩ := List.mem_map.mp h
            exact hx2 ▸ hwf.closed vtx (y, w') hmem2
        have hevis' : e ∈ (spPush path (adjOf g vtx) rest vis).2 →
            e ∈ (rest ++ newq).map Prod.fst := by
          intro he
          rcases hcomp e he with h | h
          · have h2 := hinv.hevis h
            rw [List.map_cons] at h2
            rcases List.mem_cons.mp h2 with h' | h'
            · exact absurd h' (fun hc => hve hc.symm)
            · rw [List.map_append]
              exact List.mem_append.mpr (Or.inl h')
          · rw [List.map_append]
            exact List.mem_append.mpr (Or.inr h)
        have hlev' : ∃ m' qa' qb', rest ++ newq = qa' ++ qb' ∧
            (∀ x p, (x, p) ∈ qa' → p.length = m') ∧
            (∀ x p, (x, p) ∈ qb' → p.length = m' + 1) ∧
            (∀ w, w ∉ (spPush path (adjOf g vtx) rest vis).2 →
              ∀ q, walk g s q w → m' ≤ q.length) := by
          refine ⟨path.length, qa2, qb2 ++ newq,
            by rw [hrest2, List.append_assoc], hqa2, ?_, ?_⟩
          · intro x p hp
            rcases List.mem_append.mp hp with h | h
            · exact hqb2 x p h
            · obtain ⟨hpy, _, _⟩ := hnew x p h
              rw [hpy, List.length_append, List.length_singleton]
          · intro w hw q hq
            exact hlow2 w (fun hc => hw (hmono w hc)) q hq
        have hfuel' : (rest ++ newq).length +
            ucount g.vertices (spPush path (adjOf g vtx) rest vis).2 ≤ f := by
          rw [List.length_append]
          rw [List.length_cons] at hfuel
          omega
        rw [hstep, hq]
        exact ih (rest ++ newq) (spPush path (adjOf g vtx) rest vis).2
          ⟨hpaths', hqvis', hqnd', hclosed', hmono s hinv.hsvis, hvisV', hevis', hlev'⟩
          hfuel'

/-- C3: BFS.shortest_path never raises; it returns the Python None exactly when
an endpoint is absent or no walk from start to the target exists, and any
returned path is a start-to-target path of minimal edge count. -/
theorem C3_shortest_path (vs : List V) (dir wt : Bool) (ops : List Op) (g : Graph)
    (hnd : vs.Nodup) (hg : g = applyOps (Graph.init vs dir wt) ops) (s e : V) :
    (shortest_path g s e ≠ SPRes.err ∧ shortest_path g s e ≠ SPRes.fuelOut) ∧
    (shortest_path g s e = SPRes.nopath ↔
      (s ∉ g.vertices ∨ e ∉ g.vertices ∨ ∀ q, ¬ walk g s q e)) ∧
    (∀ p, shortest_path g s e = SPRes.path p →
      ∃ p', p = s :: p' ∧ walk g s p' e ∧ ∀ q, walk g s q e → p'.length ≤ q.length) := by
  have hwf : WF g := hg ▸ wf_applyOps _ ops (wf_init vs dir wt hnd)
  by_cases hin : s ∈ g.vertices ∧ e ∈ g.vertices
  · have hsp : shortest_path g s e = spLoop g e g.vertices.length [(s, [s])] [s] := by
      simp [shortest_path, hin]
    have hinit : BInv g s e [(s, [s])] [s] := by
      constructor
      · intro x p hp
        have hp' : (x, p) = (s, [s]) := List.mem_singleton.mp hp
        have hx : x = s := congrArg Prod.fst hp'
        have hpp : p = [s] := congrArg Prod.snd hp'
        exact ⟨[], hpp, show s = x from hx.symm, fun q _ => by simp⟩
      · intro x p hp
        have hx : x = s := congrArg Prod.fst (List.mem_singleton.mp hp)
        simp [hx]
      · simp
      · intro x hx hxq
        exact absurd (by simpa using hx) (by simpa using hxq)
      · simp
      · intro x hx
        rw [List.mem_singleton.mp hx]
        exact hin.1
      · intro he
        simpa using he
      · refine ⟨1, [(s, [s])], [], by simp, ?_, by simp, ?_⟩
        · intro x p hp
          have hpp : p = [s] := congrArg Prod.snd (List.mem_singleton.mp hp)
          rw [hpp]
          rfl
        · intro w hw q hq
          cases q with
          | nil => exact absurd (by rw [(show s = w from hq)] at hw; simpa using hw) not_false
          | cons a q' => simp
    have hfuel : ([(s, [s])] : List (V × List V)).length + ucount g.vertices [s] ≤
        g.vertices.length := by
      have h1 := ucount_append_singleton g.vertices [] s hwf.nodup hin.1 (by simp)
      have h2 := ucount_nil g.vertices
      rw [List.nil_append] at h1
      rw [List.length_singleton]
      omega
    rcases spLoop_spec g hwf s e g.vertices.length [(s, [s])] [s] hinit hfuel with
      ⟨p', hres, hwalk, hmin⟩ | ⟨hres, hunreach⟩
    · refine ⟨⟨by rw [hsp, hres]; simp, by rw [hsp, hres]; simp⟩, ?_, ?_⟩
      · rw [hsp, hres]
        constructor
        · intro hc
          exact absurd hc (by simp)
        · rintro (h | h | h)
          · exact absurd hin.1 h
          · exact absurd hin.2 h
          · exact absurd hwalk (h p')
      · intro p hp
        rw [hsp, hres] at hp
        have hpeq : p = s :: p' := (SPRes.path.injEq .. ▸ hp).symm
        exact ⟨p', hpeq, hwalk, hmin⟩
    · refine ⟨⟨by rw [hsp, hres]; simp, by rw [hsp, hres]; simp⟩, ?_, ?_⟩
      · rw [hsp, hres]
        simp only [true_iff]
        exact Or.inr (Or.inr hunreach)
      · intro p hp
        rw [hsp, hres] at hp
        exact absurd hp (by simp)
  · have hsp : shortest_path g s e = SPRes.nopath := by
      simp [shortest_path, hin]
    refine ⟨⟨by rw [hsp]; simp, by rw [hsp]; simp⟩, ?_, ?_⟩
    · rw [hsp]
      simp only [true_iff]
      rcases not_and_or.mp hin with h | h
      · exact Or.inl h
      · exact Or.inr (Or.inl h)
    · intro p hp
      rw [hsp] at hp
      exact absurd hp (by simp)

/-- Witness for C3 at a concrete one-edge graph. -/
theorem C3_shortest_path_witness :
    ([] : List V).Nodup ∧
    ((shortest_path (applyOps (Graph.init [] false false) [Op.addE 0 1 1]) 0 1 ≠
        SPRes.err ∧
      shortest_path (applyOps (Graph.init [] false false) [Op.addE 0 1 1]) 0 1 ≠
        SPRes.fuelOut) ∧
    (shortest_path (applyOps (Graph.init [] false false) [Op.addE 0 1 1]) 0 1 =
        SPRes.nopath ↔
      ((0 : V) ∉ (applyOps (Graph.init [] false false) [Op.addE 0 1 1]).vertices ∨
        (1 : V) ∉ (applyOps (Graph.init [] false false) [Op.addE 0 1 1]).vertices ∨
        ∀ q, ¬ walk (applyOps (Graph.init [] false false) [Op.addE 0 1 1]) 0 q 1)) ∧
    (∀ p, shortest_path (applyOps (Graph.init [] false false) [Op.addE 0 1 1]) 0 1 =
        SPRes.path p →
      ∃ p', p = 0 :: p' ∧ walk (applyOps (Graph.init [] false false) [Op.addE 0 1 1]) 0 p' 1 ∧
        ∀ q, walk (applyOps (Graph.init [] false false) [Op.addE 0 1 1]) 0 q 1 →
          p'.length ≤ q.length)) :=
  ⟨by decide, C3_shortest_path [] false false [Op.addE 0 1 1] _ (by decide) rfl 0 1⟩

/-! ### Claim C1: MST machinery. Undirected edge-list connectivity -/

/-- Edge tuples as collected by Kruskal: (weight, endpoint, endpoint). -/
abbrev KE := W × V × V

/-- One undirected step along an edge list (either orientation). -/
def estep (T : List KE) (x y : V) : Prop :=
  ∃ w, (w, x, y) ∈ T ∨ (w, y, x) ∈ T

/-- Undirected path along an edge list through the successive vertices p. -/
def epath (T : List KE) : V → List V → V → Prop
  | u, [], v => u = v
  | u, x :: xs, v => estep T u x ∧ epath T x xs v

/-- Connectivity by the edges of T. -/
def connE (T : List KE) (u v : V) : Prop := ∃ p, epath T u p v

theorem estep_symm (T : List KE) (x y : V) (h : estep T x y) : estep T y x := by
  obtain ⟨w, h | h⟩ := h
  · exact ⟨w, Or.inr h⟩
  · exact ⟨w, Or.inl h⟩

theorem estep_mono (T T' : List KE) (hsub : ∀ t ∈ T, t ∈ T') (x y : V)
    (h : estep T x y) : estep T' x y := by
  obtain ⟨w, h | h⟩ := h
  · exact ⟨w, Or.inl (hsub _ h)⟩
  · exact ⟨w, Or.inr (hsub _ h)⟩

theorem connE_refl (T : List KE) (u : V) : connE T u u := ⟨[], rfl⟩

theorem epath_append (T : List KE) :
    ∀ (p1 : List V) (u m : V) (p2 : List V) (v : V),
      epath T u p1 m → epath T m p2 v → epath T u (p1 ++ p2) v := by
  intro p1
  induction p1 with
  | nil =>
    intro u m p2 v h1 h2
    exact (show u = m from h1) ▸ h2
  | cons x xs ih =>
    intro u m p2 v h1 h2
    exact ⟨h1.1, ih x m p2 v h1.2 h2⟩

theorem connE_trans (T : List KE) (u m v : V) (h1 : connE T u m) (h2 : connE T m v) :
    connE T u v := by
  obtain ⟨p1, hp1⟩ := h1
  obtain ⟨p2, hp2⟩ := h2
  exact ⟨p1 ++ p2, epath_append T p1 u m p2 v hp1 hp2⟩

theorem epath_reverse (T : List KE) :
    ∀ (p : List V) (u v : V), epath T u p v → connE T v u := by
  intro p
  induction p with
  | nil =>
    intro u v h
    exact (show u = v from h) ▸ connE_refl T u
  | cons x xs ih =>
    intro u v h
    exact connE_trans T v x u (ih x v h.2) ⟨[u], estep_symm T u x h.1, rfl⟩

theorem connE_symm (T : List KE) (u v : V) (h : connE T u v) : connE T v u := by
  obtain ⟨p, hp⟩ := h
  exact epath_reverse T p u v hp

theorem connE_mono (T T' : List KE) (hsub : ∀ t ∈ T, t ∈ T') (u v : V)
    (h : connE T u v) : connE T' u v := by
  obtain ⟨p, hp⟩ := h
  refine ⟨p, ?_⟩
  induction p generalizing u with
  | nil => exact hp
  | cons x xs ih => exact ⟨estep_mono T T' hsub u x hp.1, ih x hp.2⟩

/-- A walk with all intermediate step relations replaced by connectivity in
another edge list yields connectivity in that list. -/
theorem connE_of_steps (T T' : List KE)
    (hstep : ∀ x y, estep T x y → connE T' x y) :
    ∀ (p : List V) (u v : V), epath T u p v → connE T' u v := by
  intro p
  induction p with
  | nil =>
    intro u v h
    exact (show u = v from h) ▸ connE_refl T' u
  | cons x xs ih =>
    intro u v h
    exact connE_trans T' u x v (hstep u x h.1) (ih x v h.2)

theorem epath_split_e (T : List KE) :
    ∀ (p1 : List V) (u x v : V) (p2 : List V),
      epath T u (p1 ++ x :: p2) v → epath T u (p1 ++ [x]) x ∧ epath T x p2 v := by
  intro p1
  induction p1 with
  | nil =>
    intro u x v p2 hw
    exact ⟨⟨hw.1, rfl⟩, hw.2⟩
  | cons y ys ih =>
    intro u x v p2 hw
    obtain ⟨he, hw'⟩ := hw
    obtain ⟨h1, h2⟩ := ih y x v p2 hw'
    exact ⟨⟨he, h1⟩, h2⟩

/-- Any undirected walk contains a duplicate-free walk between the same
endpoints. -/
theorem epath_simple (T : List KE) :
    ∀ (n : Nat) (p : List V) (u v : V), p.length ≤ n → epath T u p v →
      ∃ p', epath T u p' v ∧ (u :: p').Nodup ∧ p'.length ≤ p.length := by
  intro n
  induction n with
  | zero =>
    intro p u v hlen hp
    rw [Nat.le_zero, List.length_eq_zero] at hlen
    subst hlen
    exact ⟨[], hp, List.nodup_cons.mpr (by simp), by simp⟩
  | succ k ih =>
    intro p u v hlen hp
    by_cases hnd : (u :: p).Nodup
    · exact ⟨p, hp, hnd, le_refl _⟩
    · by_cases hu : u ∈ p
      · obtain ⟨s, t, hst⟩ := List.append_of_mem hu
        rw [hst] at hp
        obtain ⟨_, h2⟩ := epath_split_e T s u u v t hp
        have hlen2 : t.length ≤ k := by
          rw [hst, List.length_append, List.length_cons] at hlen
          omega
        obtain ⟨p', hp', hnd', hlen'⟩ := ih t u v hlen2 h2
        refine ⟨p', hp', hnd', ?_⟩
        rw [hst, List.length_append, List.length_cons]
        omega
      · have hp2 : ¬ p.Nodup := fun hc => hnd (List.nodup_cons.mpr ⟨hu, hc⟩)
        obtain ⟨l1, x, l2, l3, hl⟩ := exists_dup_of_not_nodup p hp2
        rw [hl] at hp
        obtain ⟨h1, h2⟩ := epath_split_e T l1 u x v (l2 ++ x :: l3) hp
        obtain ⟨_, h3⟩ := epath_split_e T l2 x x v l3 h2
        have hjoin : epath T u (l1 ++ [x] ++ l3) v :=
          epath_append T (l1 ++ [x]) u x l3 v h1 h3
        have hlen2 : (l1 ++ [x] ++ l3).length ≤ k := by
          rw [hl, List.length_append, List.length_cons, List.length_append,
            List.length_cons] at hlen
          rw [List.length_append, List.length_append, List.length_singleton]
          omega
        obtain ⟨p', hp', hnd', hlen'⟩ := ih (l1 ++ [x] ++ l3) u v hlen2 hjoin
        refine ⟨p', hp', hnd', ?_⟩
        rw [List.length_append, List.length_append, List.length_singleton] at hlen'
        rw [hl, List.length_append, List.length_cons, List.length_append,
          List.length_cons]
        omega

/-- First exit of a walk out of a predicate region: a decomposition at the
first step that leaves P. -/
theorem epath_first_exit (T : List KE) (P : V → Prop) :
    ∀ (p : List V) (u v : V), epath T u p v → P u → ¬ P v →
      ∃ p1 x y p2, p = p1 ++ y :: p2 ∧ x = (u :: p1).getLast (by simp) ∧
        epath T u p1 x ∧ (∀ c ∈ u :: p1, P c) ∧ ¬ P y ∧ estep T x y ∧
        epath T y p2 v := by
  intro p
  induction p with
  | nil =>
    intro u v hp hu hv
    exact absurd ((show u = v from hp) ▸ hu) hv
  | cons a p' ih =>
    intro u v hp hu hv
    by_cases ha : P a
    · obtain ⟨p1, x, y, p2, hdec, hlast, hpath1, hall, hy, hstep, hpath2⟩ :=
        ih a v hp.2 ha hv
      refine ⟨a :: p1, x, y, p2, by rw [hdec]; simp, ?_, ⟨hp.1, hpath1⟩, ?_, hy, hstep, hpath2⟩
      · rw [hlast]
        simp [List.getLast_cons]
      · intro c hc
        rcases List.mem_cons.mp hc with h | h
        · exact h ▸ hu
        · exact hall c h
    · exact ⟨[], u, a, p', rfl, by simp, rfl, by simpa using hu, ha, hp.1, hp.2⟩

/-- Removal of one occurrence of an edge tuple (avoids BEq instance issues of
List.erase). -/
def kerase : List KE → KE → List KE
  | [], _ => []
  | t :: rest, f => if t = f then rest else t :: kerase rest f

theorem kerase_subset (f : KE) : ∀ (T : List KE) (t : KE), t ∈ kerase T f → t ∈ T := by
  intro T
  induction T with
  | nil => intro t ht; exact ht
  | cons s rest ih =>
    intro t ht
    by_cases h : s = f
    · rw [show kerase (s :: rest) f = rest by simp [kerase, h]] at ht
      exact List.mem_cons_of_mem _ ht
    · rw [show kerase (s :: rest) f = s :: kerase rest f by simp [kerase, h]] at ht
      rcases List.mem_cons.mp ht with h' | h'
      · exact h' ▸ List.mem_cons_self _ _
      · exact List.mem_cons_of_mem _ (ih t h')

theorem mem_kerase_of_ne (f t : KE) (hne : t ≠ f) :
    ∀ (T : List KE), t ∈ T → t ∈ kerase T f := by
  intro T
  induction T with
  | nil => intro ht; exact ht
  | cons s rest ih =>
    intro ht
    by_cases h : s = f
    · rw [show kerase (s :: rest) f = rest by simp [kerase, h]]
      rcases List.mem_cons.mp ht with h' | h'
      · exact absurd (h' ▸ h) hne
      · exact h'
    · rw [show kerase (s :: rest) f = s :: kerase rest f by simp [kerase, h]]
      rcases List.mem_cons.mp ht with h' | h'
      · exact h' ▸ List.mem_cons_self _ _
      · exact List.mem_cons_of_mem _ (ih h')

theorem nodup_kerase (f : KE) : ∀ (T : List KE), T.Nodup → (kerase T f).Nodup := by
  intro T
  induction T with
  | nil => intro h; exact h
  | cons s rest ih =>
    intro h
    by_cases hs : s = f
    · rw [show kerase (s :: rest) f = rest by simp [kerase, hs]]
      exact (List.nodup_cons.mp h).2
    · rw [show kerase (s :: rest) f = s :: kerase rest f by simp [kerase, hs]]
      exact List.nodup_cons.mpr ⟨fun hc => (List.nodup_cons.mp h).1
        (kerase_subset f rest s hc), ih (List.nodup_cons.mp h).2⟩

theorem perm_cons_kerase (f : KE) : ∀ (T : List KE), f ∈ T →
    T.Perm (f :: kerase T f) := by
  intro T
  induction T with
  | nil => intro h; exact absurd h (List.not_mem_nil _)
  | cons s rest ih =>
    intro h
    by_cases hs : s = f
    · rw [show kerase (s :: rest) f = rest by simp [kerase, hs], hs]
    · rw [show kerase (s :: rest) f = s :: kerase rest f by simp [kerase, hs]]
      have hf : f ∈ rest := by
        rcases List.mem_cons.mp h with h' | h'
        · exact absurd h'.symm hs
        · exact h'
      exact ((ih hf).cons s).trans (List.Perm.swap f s _)

theorem length_kerase (f : KE) : ∀ (T : List KE), f ∈ T →
    (kerase T f).length + 1 = T.length := by
  intro T hf
  have := (perm_cons_kerase f T hf).length_eq
  simp only [List.length_cons] at this
  omega

/-- If an endpoint of f is never visited, the walk avoids f. -/
theorem epath_erase_of_not_mem (T : List KE) (f : KE) :
    ∀ (p : List V) (u v : V), epath T u p v →
      (f.2.1 ∉ u :: p ∨ f.2.2 ∉ u :: p) → epath (kerase T f) u p v := by
  intro p
  induction p with
  | nil =>
    intro u v hp _
    exact hp
  | cons a p' ih =>
    intro u v hp havoid
    obtain ⟨w, hw⟩ := hp.1
    have hstep' : estep (kerase T f) u a := by
      have hne : ∀ t : KE, t ∈ T → (t.2.1 = u ∧ t.2.2 = a) ∨ (t.2.1 = a ∧ t.2.2 = u) →
          t ≠ f := by
        intro t _ hends hc
        subst hc
        rcases hends with ⟨h1, h2⟩ | ⟨h1, h2⟩ <;>
          rcases havoid with h | h <;> simp [h1, h2] at h
      rcases hw with hw | hw
      · exact ⟨w, Or.inl (mem_kerase_of_ne f (w, u, a) (hne (w, u, a) hw (Or.inl ⟨rfl, rfl⟩)) T hw)⟩
      · exact ⟨w, Or.inr (mem_kerase_of_ne f (w, a, u) (hne (w, a, u) hw (Or.inr ⟨rfl, rfl⟩)) T hw)⟩
    refine ⟨hstep', ih a v hp.2 ?_⟩
    rcases havoid with h | h
    · exact Or.inl (fun hc => h (List.mem_cons_of_mem u hc))
    · exact Or.inr (fun hc => h (List.mem_cons_of_mem u hc))

/-! ### Characterization of the Kruskal edge collection -/

/-- Unordered endpoint pair of an edge tuple. -/
def pairOf (t : KE) : V × V := epair t.2.1 t.2.2

theorem epair_cases (a b u v : V) (h : epair a b = epair u v) :
    (a = u ∧ b = v) ∨ (a = v ∧ b = u) := by
  simp only [epair] at h
  split_ifs at h
  · exact Or.inl ⟨congrArg Prod.fst h, congrArg Prod.snd h⟩
  · exact Or.inr ⟨congrArg Prod.fst h, congrArg Prod.snd h⟩
  · exact Or.inr ⟨congrArg Prod.snd h, congrArg Prod.fst h⟩
  · exact Or.inl ⟨congrArg Prod.snd h, congrArg Prod.fst h⟩

theorem collectInner_spec (vtx : V) :
    ∀ (adj : Adj) (seen : List (V × V)) (acc : List KE),
      seen = acc.map pairOf →
      (collectInner vtx adj seen acc).1 = (collectInner vtx adj seen acc).2.map pairOf ∧
      (∀ s ∈ seen, s ∈ (collectInner vtx adj seen acc).1) ∧
      (∀ t ∈ acc, t ∈ (collectInner vtx adj seen acc).2) ∧
      (∀ t ∈ (collectInner vtx adj seen acc).2,
        t ∈ acc ∨ ∃ n w, t = (w, vtx, n) ∧ (n, w) ∈ adj) ∧
      (∀ n w, (n, w) ∈ adj → epair vtx n ∈ (collectInner vtx adj seen acc).1) ∧
      (seen.Nodup → (collectInner vtx adj seen acc).1.Nodup) := by
  intro adj
  induction adj with
  | nil =>
    intro seen acc hinv
    exact ⟨hinv, fun s hs => hs, fun t ht => ht, fun t ht => Or.inl ht,
      fun n w hnw => absurd hnw (List.not_mem_nil _), fun h => h⟩
  | cons q rest ih =>
    intro seen acc hinv
    obtain ⟨n, w⟩ := q
    by_cases hmem : epair vtx n ∈ seen
    · have hstep : collectInner vtx ((n, w) :: rest) seen acc =
          collectInner vtx rest seen acc := by
        simp [collectInner, hmem]
      obtain ⟨h1, h2, h3, h4, h5, h6⟩ := ih seen acc hinv
      rw [hstep]
      refine ⟨h1, h2, h3, ?_, ?_, h6⟩
      · intro t ht
        rcases h4 t ht with h | ⟨n', w', ht', hw'⟩
        · exact Or.inl h
        · exact Or.inr ⟨n', w', ht', List.mem_cons_of_mem _ hw'⟩
      · intro n' w' hnw
        rcases List.mem_cons.mp hnw with h | h
        · have : n' = n := by
            have := congrArg Prod.fst h
            simpa using this
          subst this
          exact h2 _ hmem
        · exact h5 n' w' h
    · have hstep : collectInner vtx ((n, w) :: rest) seen acc =
          collectInner vtx rest (seen ++ [epair vtx n]) (acc ++ [(w, vtx, n)]) := by
        simp [collectInner, hmem]
      have hinv' : seen ++ [epair vtx n] = (acc ++ [(w, vtx, n)]).map pairOf := by
        rw [List.map_append, hinv]
        rfl
      obtain ⟨h1, h2, h3, h4, h5, h6⟩ := ih (seen ++ [epair vtx n]) (acc ++ [(w, vtx, n)]) hinv'
      rw [hstep]
      refine ⟨h1, ?_, ?_, ?_, ?_, ?_⟩
      · intro s hs
        exact h2 s (List.mem_append_left _ hs)
      · intro t ht
        exact h3 t (List.mem_append_left _ ht)
      · intro t ht
        rcases h4 t ht with h | ⟨n', w', ht', hw'⟩
        · rcases List.mem_append.mp h with h' | h'
          · exact Or.inl h'
          · have : t = (w, vtx, n) := by simpa using h'
            exact Or.inr ⟨n, w, this, List.mem_cons_self _ _⟩
        · exact Or.inr ⟨n', w', ht', List.mem_cons_of_mem _ hw'⟩
      · intro n' w' hnw
        rcases List.mem_cons.mp hnw with h | h
        · have : n' = n := by
            have := congrArg Prod.fst h
            simpa using this
          subst this
          exact h2 _ (List.mem_append_right _ (List.mem_singleton.mpr rfl))
        · exact h5 n' w' h
      · intro hnd
        apply h6
        rw [List.nodup_append]
        exact ⟨hnd, List.nodup_singleton _, by simpa using hmem⟩

theorem collectEdges_spec (g : Graph) :
    ∀ (vs : List V) (seen : List (V × V)) (acc : List KE),
      seen = acc.map pairOf →
      (∀ t ∈ acc, t ∈ collectEdges g vs seen acc) ∧
      (∀ t ∈ collectEdges g vs seen acc,
        t ∈ acc ∨ ∃ x n w, t = (w, x, n) ∧ x ∈ vs ∧ (n, w) ∈ adjOf g x) ∧
      (∀ u ∈ vs, ∀ n w, (n, w) ∈ adjOf g u →
        epair u n ∈ (collectEdges g vs seen acc).map pairOf) ∧
      (seen.Nodup → ((collectEdges g vs seen acc).map pairOf).Nodup) := by
  intro vs
  induction vs with
  | nil =>
    intro seen acc hinv
    refine ⟨fun t ht => ht, fun t ht => Or.inl ht, ?_, ?_⟩
    · intro u hu
      exact absurd hu (List.not_mem_nil _)
    · intro hnd
      rw [show collectEdges g [] seen acc = acc from rfl, ← hinv]
      exact hnd
  | cons v rest ih =>
    intro seen acc hinv
    obtain ⟨hc1, hc2, hc3, hc4, hc5, hc6⟩ := collectInner_spec v (adjOf g v) seen acc hinv
    have hstep : collectEdges g (v :: rest) seen acc =
        collectEdges g rest (collectInner v (adjOf g v) seen acc).1
          (collectInner v (adjOf g v) seen acc).2 := rfl
    obtain ⟨h1, h2, h3, h4⟩ := ih (collectInner v (adjOf g v) seen acc).1
      (collectInner v (adjOf g v) seen acc).2 hc1
    rw [hstep]
    refine ⟨?_, ?_, ?_, ?_⟩
    · intro t ht
      exact h1 t (hc3 t ht)
    · intro t ht
      rcases h2 t ht with h | ⟨x, n, w, htx, hx, hadj⟩
      · rcases hc4 t h with h' | ⟨n, w, ht', hw'⟩
        · exact Or.inl h'
        · exact Or.inr ⟨v, n, w, ht', List.mem_cons_self _ _, hw'⟩
      · exact Or.inr ⟨x, n, w, htx, List.mem_cons_of_mem _ hx, hadj⟩
    · intro u hu n w hadj
      rcases List.mem_cons.mp hu with h | h
      · subst h
        have hseen : epair u n ∈ (collectInner u (adjOf g u) seen acc).1 := hc5 n w hadj
        rw [hc1] at hseen
        obtain ⟨t, ht, hpt⟩ := List.mem_map.mp hseen
        exact List.mem_map.mpr ⟨t, h1 t ht, hpt⟩
      · exact h3 u h n w hadj
    · intro hnd
      exact h4 (hc6 hnd)

/-- The deduplicated undirected edge list Kruskal builds. -/
def Eg (g : Graph) : List KE := collectEdges g g.vertices [] []

theorem Eg_sound (g : Graph) (t : KE) (ht : t ∈ Eg g) :
    t.2.1 ∈ g.vertices ∧ (t.2.2, t.1) ∈ adjOf g t.2.1 := by
  obtain ⟨_, h2, _, _⟩ := collectEdges_spec g g.vertices [] [] rfl
  rcases h2 t ht with h | ⟨x, n, w, htx, hx, hadj⟩
  · exact absurd h (List.not_mem_nil _)
  · subst htx
    exact ⟨hx, hadj⟩

theorem Eg_pairs_nodup (g : Graph) : ((Eg g).map pairOf).Nodup := by
  obtain ⟨_, _, _, h4⟩ := collectEdges_spec g g.vertices [] [] rfl
  exact h4 (List.nodup_nil)

/-- No vertex pair carries two edges (no parallel edges). -/
def noPar (g : Graph) : Prop :=
  ∀ u v, u ≠ v → ((adjOf g u).map Prod.fst).count v ≤ 1

theorem noPar_weight (g : Graph) (h : noPar g) (u v : V) (hne : u ≠ v) (w w' : W)
    (h1 : (v, w) ∈ adjOf g u) (h2 : (v, w') ∈ adjOf g u) : w = w' := by
  by_contra hww
  obtain ⟨l1, l2, hsplit⟩ := List.append_of_mem h1
  have h2' : (v, w') ∈ l1 ∨ (v, w') ∈ l2 := by
    rw [hsplit] at h2
    rcases List.mem_append.mp h2 with h | h
    · exact Or.inl h
    · rcases List.mem_cons.mp h with h | h
      · exact absurd (congrArg Prod.snd h).symm hww
      · exact Or.inr h
  have hcnt : 2 ≤ ((adjOf g u).map Prod.fst).count v := by
    rw [hsplit, List.map_append, List.map_cons, List.count_append, List.count_cons]
    simp only [beq_self_eq_true, if_true]
    rcases h2' with h | h
    · have : 0 < (l1.map Prod.fst).count v :=
        List.count_pos_iff.mpr (List.mem_map.mpr ⟨(v, w'), h, rfl⟩)
      omega
    · have : 0 < (l2.map Prod.fst).count v :=
        List.count_pos_iff.mpr (List.mem_map.mpr ⟨(v, w'), h, rfl⟩)
      omega
  have := h u v hne
  omega

theorem mem_vertices_of_adjOf (g : Graph) (hwf : WF g) (u : V) (q : V × W)
    (hq : q ∈ adjOf g u) : u ∈ g.vertices := by
  by_contra hu
  rw [← hwf.keys_eq] at hu
  have : alookup g.adj_list u = none := (alookup_eq_none g.adj_list u).mpr hu
  simp [adjOf, this] at hq

theorem Eg_complete (g : Graph) (hwf : WF g) (hnp : noPar g)
    (hundir : g.is_directed = false) (u v : V) (hne : u ≠ v) (w : W)
    (hadj : (v, w) ∈ adjOf g u) : (w, u, v) ∈ Eg g ∨ (w, v, u) ∈ Eg g := by
  have hu : u ∈ g.vertices := mem_vertices_of_adjOf g hwf u (v, w) hadj
  obtain ⟨_, _, h3, _⟩ := collectEdges_spec g g.vertices [] [] rfl
  have hpair : epair u v ∈ (Eg g).map pairOf := h3 u hu v w hadj
  obtain ⟨t, ht, hpt⟩ := List.mem_map.mp hpair
  obtain ⟨w', a, b⟩ := t
  have hab := epair_cases a b u v hpt
  obtain ⟨hav, hadj'⟩ := Eg_sound g (w', a, b) ht
  rcases hab with ⟨ha, hb⟩ | ⟨ha, hb⟩
  · rw [ha, hb] at ht hadj'
    have hww : w' = w := noPar_weight g hnp u v hne w' w hadj' hadj
    rw [hww] at ht
    exact Or.inl ht
  · rw [ha, hb] at ht hadj'
    have hsym : (v, w') ∈ adjOf g u := hwf.symm hundir v u w' hadj'
    have hww : w' = w := noPar_weight g hnp u v hne w' w hsym hadj
    rw [hww] at ht
    exact Or.inr ht

theorem Eg_closed (g : Graph) (hwf : WF g) (t : KE) (ht : t ∈ Eg g) :
    t.2.1 ∈ g.vertices ∧ t.2.2 ∈ g.vertices := by
  obtain ⟨h1, h2⟩ := Eg_sound g t ht
  exact ⟨h1, hwf.closed t.2.1 (t.2.2, t.1) h2⟩

/-! ### Spanning trees over the collected edge list -/

/-- No self-loop tuples. -/
def noSelfE (T : List KE) : Prop := ∀ t ∈ T, t.2.1 ≠ t.2.2

/-- Total weight of an edge tuple list. -/
def ewt (T : List KE) : W := (T.map (fun t => t.1)).sum

/-- T is a spanning tree of the collected edge list of g: a duplicate-free
self-loop-free subset of the edges that connects all vertices with exactly
one edge less than there are vertices. -/
def isST (g : Graph) (T : List KE) : Prop :=
  T.Nodup ∧ (∀ t ∈ T, t ∈ Eg g) ∧ noSelfE T ∧
  (∀ u v, u ∈ g.vertices → v ∈ g.vertices → connE T u v) ∧
  T.length + 1 = g.vertices.length

/-- Minimum spanning tree: a spanning tree of least total weight. -/
def isMST (g : Graph) (T : List KE) : Prop :=
  isST g T ∧ ∀ T', isST g T' → ewt T ≤ ewt T'

theorem subset_nodup_length_le (S vs : List V) (hnd : S.Nodup)
    (hsub : ∀ s ∈ S, s ∈ vs) : S.length ≤ vs.length :=
  (List.subperm_of_subset hnd hsub).length_le

theorem grow_step (vs : List V) (T : List KE)
    (hvnd : vs.Nodup)
    (hTconn : ∀ u v, u ∈ vs → v ∈ vs → connE T u v)
    (hTends : ∀ t ∈ T, t.2.1 ∈ vs ∧ t.2.2 ∈ vs) :
    ∀ (k : Nat) (S : List V) (F : List KE),
      S.Nodup → S ≠ [] → (∀ s ∈ S, s ∈ vs) →
      (∀ t ∈ F, t ∈ T) → F.Nodup → noSelfE F →
      (∀ t ∈ F, t.2.1 ∈ S ∧ t.2.2 ∈ S) →
      (∀ u v, u ∈ S → v ∈ S → connE F u v) →
      S.length = F.length + 1 →
      vs.length - S.length ≤ k →
      ∃ F', (∀ t ∈ F', t ∈ T) ∧ F'.Nodup ∧ noSelfE F' ∧
        (∀ u v, u ∈ vs → v ∈ vs → connE F' u v) ∧ F'.length + 1 = vs.length := by
  intro k
  induction k with
  | zero =>
    intro S F hSnd hSne hSsub hFT hFnd hFns hFends hFconn hlen hfuel
    have hle : S.length ≤ vs.length := subset_nodup_length_le S vs hSnd hSsub
    have heq : S.length = vs.length := by omega
    have hperm : S.Perm vs :=
      (List.subperm_of_subset hSnd hSsub).perm_of_length_le (by omega)
    refine ⟨F, hFT, hFnd, hFns, ?_, by omega⟩
    intro u v hu hv
    exact hFconn u v (hperm.mem_iff.mpr hu) (hperm.mem_iff.mpr hv)
  | succ k ih =>
    intro S F hSnd hSne hSsub hFT hFnd hFns hFends hFconn hlen hfuel
    by_cases hfull : vs.length ≤ S.length
    · have hperm : S.Perm vs :=
        (List.subperm_of_subset hSnd hSsub).perm_of_length_le hfull
      refine ⟨F, hFT, hFnd, hFns, ?_, ?_⟩
      · intro u v hu hv
        exact hFconn u v (hperm.mem_iff.mpr hu) (hperm.mem_iff.mpr hv)
      · rw [← hperm.length_eq]
        omega
    · have hex : ∃ y ∈ vs, y ∉ S := by
        by_contra hc
        push_neg at hc
        exact hfull (subset_nodup_length_le vs S hvnd hc)
      obtain ⟨y, hyvs, hyS⟩ := hex
      obtain ⟨s0, hs0⟩ := List.exists_mem_of_ne_nil S hSne
      obtain ⟨p, hp⟩ := hTconn s0 y (hSsub s0 hs0) hyvs
      obtain ⟨p1, x, y', p2, _, hlast, _, hall, hy', hstep, _⟩ :=
        epath_first_exit T (· ∈ S) p s0 y hp hs0 hyS
      have hxS : x ∈ S := by
        have : x ∈ s0 :: p1 := hlast ▸ List.getLast_mem _
        exact hall x this
      obtain ⟨w, hw⟩ := hstep
      have hxy : x ≠ y' := fun hc => hy' (hc ▸ hxS)
      rcases hw with hw | hw
      · -- edge tuple (w, x, y') ∈ T
        have hy'vs : y' ∈ vs := (hTends (w, x, y') hw).2
        have heF : (w, x, y') ∉ F := fun hc => hy' (hFends _ hc).2
        apply ih (S ++ [y']) (F ++ [(w, x, y')])
        · rw [List.nodup_append]
          exact ⟨hSnd, List.nodup_singleton _, by simpa using hy'⟩
        · simp
        · intro s hs
          rcases List.mem_append.mp hs with h | h
          · exact hSsub s h
          · rw [List.mem_singleton.mp h]
            exact hy'vs
        · intro t ht
          rcases List.mem_append.mp ht with h | h
          · exact hFT t h
          · rw [List.mem_singleton.mp h]
            exact hw
        · rw [List.nodup_append]
          exact ⟨hFnd, List.nodup_singleton _, by simpa using heF⟩
        · intro t ht
          rcases List.mem_append.mp ht with h | h
          · exact hFns t h
          · rw [List.mem_singleton.mp h]
            exact hxy
        · intro t ht
          rcases List.mem_append.mp ht with h | h
          · exact ⟨List.mem_append_left _ (hFends t h).1,
              List.mem_append_left _ (hFends t h).2⟩
          · rw [List.mem_singleton.mp h]
            exact ⟨List.mem_append_left _ hxS, List.mem_append_right _ (by simp)⟩
        · intro u v hu hv
          have hF' : ∀ a b, connE F a b → connE (F ++ [(w, x, y')]) a b :=
            fun a b => connE_mono F _ (fun t ht => List.mem_append_left _ ht) a b
          have hxy' : connE (F ++ [(w, x, y')]) x y' :=
            ⟨[y'], ⟨w, Or.inl (List.mem_append_right _ (by simp))⟩, rfl⟩
          rcases List.mem_append.mp hu with hu' | hu' <;>
            rcases List.mem_append.mp hv with hv' | hv'
          · exact hF' u v (hFconn u v hu' hv')
          · rw [List.mem_singleton.mp hv']
            exact connE_trans _ u x y' (hF' u x (hFconn u x hu' hxS)) hxy'
          · rw [List.mem_singleton.mp hu']
            exact connE_trans _ y' x v (connE_symm _ x y' hxy')
              (hF' x v (hFconn x v hxS hv'))
          · rw [List.mem_singleton.mp hu', List.mem_singleton.mp hv']
            exact connE_refl _ y'
        · simp [hlen]
        · have hS'le : (S ++ [y']).length ≤ vs.length := by
            apply subset_nodup_length_le
            · rw [List.nodup_append]
              exact ⟨hSnd, List.nodup_singleton _, by simpa using hy'⟩
            · intro s hs
              rcases List.mem_append.mp hs with h | h
              · exact hSsub s h
              · rw [List.mem_singleton.mp h]
                exact hy'vs
          simp only [List.length_append, List.length_singleton] at hS'le ⊢
          omega
      · -- edge tuple (w, y', x) ∈ T
        have hy'vs : y' ∈ vs := (hTends (w, y', x) hw).1
        have heF : (w, y', x) ∉ F := fun hc => hy' (hFends _ hc).1
        apply ih (S ++ [y']) (F ++ [(w, y', x)])
        · rw [List.nodup_append]
          exact ⟨hSnd, List.nodup_singleton _, by simpa using hy'⟩
        · simp
        · intro s hs
          rcases List.mem_append.mp hs with h | h
          · exact hSsub s h
          · rw [List.mem_singleton.mp h]
            exact hy'vs
        · intro t ht
          rcases List.mem_append.mp ht with h | h
          · exact hFT t h
          · rw [List.mem_singleton.mp h]
            exact hw
        · rw [List.nodup_append]
          exact ⟨hFnd, List.nodup_singleton _, by simpa using heF⟩
        · intro t ht
          rcases List.mem_append.mp ht with h | h
          · exact hFns t h
          · rw [List.mem_singleton.mp h]
            exact Ne.symm hxy
        · intro t ht
          rcases List.mem_append.mp ht with h | h
          · exact ⟨List.mem_append_left _ (hFends t h).1,
              List.mem_append_left _ (hFends t h).2⟩
          · rw [List.mem_singleton.mp h]
            exact ⟨List.mem_append_right _ (by simp), List.mem_append_left _ hxS⟩
        · intro u v hu hv
          have hF' : ∀ a b, connE F a b → connE (F ++ [(w, y', x)]) a b :=
            fun a b => connE_mono F _ (fun t ht => List.mem_append_left _ ht) a b
          have hxy' : connE (F ++ [(w, y', x)]) x y' :=
            ⟨[y'], ⟨w, Or.inr (List.mem_append_right _ (by simp))⟩, rfl⟩
          rcases List.mem_append.mp hu with hu' | hu' <;>
            rcases List.mem_append.mp hv with hv' | hv'
          · exact hF' u v (hFconn u v hu' hv')
          · rw [List.mem_singleton.mp hv']
            exact connE_trans _ u x y' (hF' u x (hFconn u x hu' hxS)) hxy'
          · rw [List.mem_singleton.mp hu']
            exact connE_trans _ y' x v (connE_symm _ x y' hxy')
              (hF' x v (hFconn x v hxS hv'))
          · rw [List.mem_singleton.mp hu', List.mem_singleton.mp hv']
            exact connE_refl _ y'
        · simp [hlen]
        · have hS'le : (S ++ [y']).length ≤ vs.length := by
            apply subset_nodup_length_le
            · rw [List.nodup_append]
              exact ⟨hSnd, List.nodup_singleton _, by simpa using hy'⟩
            · intro s hs
              rcases List.mem_append.mp hs with h | h
              · exact hSsub s h
              · rw [List.mem_singleton.mp h]
                exact hy'vs
          simp only [List.length_append, List.length_singleton] at hS'le ⊢
          omega

/-- Adjacency walks give connectivity in the collected edge list. -/
theorem connE_of_walk (g : Graph) (hwf : WF g) (hnp : noPar g)
    (hundir : g.is_directed = false) :
    ∀ (p : List V) (u v : V), walk g u p v → connE (Eg g) u v := by
  intro p
  induction p with
  | nil =>
    intro u v h
    exact (show u = v from h) ▸ connE_refl _ u
  | cons x xs ih =>
    intro u v h
    obtain ⟨⟨q, hq, hq1⟩, hrest⟩ := h
    refine connE_trans _ u x v ?_ (ih x v hrest)
    by_cases hux : u = x
    · exact hux ▸ connE_refl _ u
    · obtain ⟨qv, qw⟩ := q
      rw [show qv = (qv, qw).1 from rfl, hq1] at hq
      rcases Eg_complete g hwf hnp hundir u x hux qw hq with h' | h'
      · exact ⟨[x], ⟨qw, Or.inl h'⟩, rfl⟩
      · exact ⟨[x], ⟨qw, Or.inr h'⟩, rfl⟩

/-- Any duplicate-free spanning edge set over the vertex list has at least
|V| - 1 edges. -/
theorem spanning_lower_bound (g : Graph) (hwf : WF g) (T : List KE)
    (hTnd : T.Nodup) (hTE : ∀ t ∈ T, t ∈ Eg g)
    (hconn : ∀ u v, u ∈ g.vertices → v ∈ g.vertices → connE T u v)
    (hne : g.vertices ≠ []) : g.vertices.length ≤ T.length + 1 := by
  obtain ⟨v0, hv0⟩ := List.exists_mem_of_ne_nil g.vertices hne
  obtain ⟨F', hFT, hFnd, _, _, hlen⟩ :=
    grow_step g.vertices T hwf.nodup hconn
      (fun t ht => Eg_closed g hwf t (hTE t ht))
      g.vertices.length [v0] [] (List.nodup_singleton _) (by simp)
      (by simpa using hv0) (by simp) List.nodup_nil (by simp [noSelfE])
      (by simp) (by intro u v hu hv
                    rw [List.mem_singleton.mp hu, List.mem_singleton.mp hv]
                    exact connE_refl _ v0)
      (by simp) (by omega)
  have : F'.length ≤ T.length := (List.subperm_of_subset hFnd hFT).length_le
  omega

/-- A connected nonempty graph has a spanning tree. -/
theorem spanning_tree_exists (g : Graph) (hwf : WF g) (hnp : noPar g)
    (hundir : g.is_directed = false)
    (hconn : ∀ u v, u ∈ g.vertices → v ∈ g.vertices → ∃ p, walk g u p v)
    (hne : g.vertices ≠ []) : ∃ T, isST g T := by
  obtain ⟨v0, hv0⟩ := List.exists_mem_of_ne_nil g.vertices hne
  have hEconn : ∀ u v, u ∈ g.vertices → v ∈ g.vertices → connE (Eg g) u v := by
    intro u v hu hv
    obtain ⟨p, hp⟩ := hconn u v hu hv
    exact connE_of_walk g hwf hnp hundir p u v hp
  obtain ⟨F', hFT, hFnd, hFns, hFconn, hlen⟩ :=
    grow_step g.vertices (Eg g) hwf.nodup hEconn
      (fun t ht => Eg_closed g hwf t ht)
      g.vertices.length [v0] [] (List.nodup_singleton _) (by simp)
      (by simpa using hv0) (by simp) List.nodup_nil (by simp [noSelfE])
      (by simp) (by intro u v hu hv
                    rw [List.mem_singleton.mp hu, List.mem_singleton.mp hv]
                    exact connE_refl _ v0)
      (by simp) (by omega)
  exact ⟨F', hFnd, hFT, hFns, hFconn, hlen⟩

/-- Classical minimum of a function over the members of a list satisfying a
property. -/
theorem exists_min_on_list {α : Type} (f : α → W) :
    ∀ (L : List α) (p : α → Prop), (∃ x ∈ L, p x) →
      ∃ x ∈ L, p x ∧ ∀ y ∈ L, p y → f x ≤ f y := by
  intro L
  induction L with
  | nil =>
    intro p h
    obtain ⟨x, hx, _⟩ := h
    exact absurd hx (List.not_mem_nil _)
  | cons a rest ih =>
    intro p h
    by_cases hrest : ∃ x ∈ rest, p x
    · obtain ⟨x, hx, hpx, hmin⟩ := ih p hrest
      by_cases hpa : p a ∧ f a ≤ f x
      · refine ⟨a, List.mem_cons_self _ _, hpa.1, ?_⟩
        intro y hy hpy
        rcases List.mem_cons.mp hy with h' | h'
        · exact h' ▸ le_refl _
        · exact le_trans hpa.2 (hmin y h' hpy)
      · refine ⟨x, List.mem_cons_of_mem _ hx, hpx, ?_⟩
        intro y hy hpy
        rcases List.mem_cons.mp hy with h' | h'
        · have hpa'' : p a := h' ▸ hpy
          have hnle : ¬ f a ≤ f x := fun hc => hpa ⟨hpa'', hc⟩
          rw [h']
          exact le_of_not_le hnle
        · exact hmin y h' hpy
    · obtain ⟨x, hx, hpx⟩ := h
      rcases List.mem_cons.mp hx with h' | h'
      · subst h'
        refine ⟨x, List.mem_cons_self _ _, hpx, ?_⟩
        intro y hy hpy
        rcases List.mem_cons.mp hy with h'' | h''
        · exact h'' ▸ le_refl _
        · exact absurd ⟨y, h'', hpy⟩ hrest
      · exact absurd ⟨x, h', hpx⟩ hrest

theorem isST_perm (g : Graph) (T T' : List KE) (hperm : T.Perm T')
    (h : isST g T) : isST g T' := by
  obtain ⟨hnd, hTE, hns, hconn, hlen⟩ := h
  refine ⟨hperm.nodup_iff.mp hnd, fun t ht => hTE t (hperm.mem_iff.mpr ht),
    fun t ht => hns t (hperm.mem_iff.mpr ht), ?_, hperm.length_eq ▸ hlen⟩
  intro u v hu hv
  exact connE_mono T T' (fun t ht => hperm.mem_iff.mp ht) u v (hconn u v hu hv)

theorem ewt_perm (T T' : List KE) (hperm : T.Perm T') : ewt T = ewt T' :=
  List.Perm.sum_eq (hperm.map _)

/-- A connected nonempty graph without parallel edges has a minimum spanning
tree. -/
theorem mst_exists (g : Graph) (hwf : WF g) (hnp : noPar g)
    (hundir : g.is_directed = false)
    (hconn : ∀ u v, u ∈ g.vertices → v ∈ g.vertices → ∃ p, walk g u p v)
    (hne : g.vertices ≠ []) : ∃ T, isMST g T := by
  obtain ⟨T0, hT0⟩ := spanning_tree_exists g hwf hnp hundir hconn hne
  have hrep : ∀ T, isST g T → ∃ s ∈ (Eg g).sublists, isST g s ∧ ewt s = ewt T := by
    intro T hT
    obtain ⟨s, hs1, hs2⟩ := List.subperm_of_subset hT.1 hT.2.1
    exact ⟨s, List.mem_sublists.mpr hs2, isST_perm g T s hs1.symm hT,
      ewt_perm s T hs1⟩
  obtain ⟨s0, hs0L, hs0ST, _⟩ := hrep T0 hT0
  obtain ⟨x, hxL, hxST, hxmin⟩ :=
    exists_min_on_list ewt (Eg g).sublists (isST g) ⟨s0, hs0L, hs0ST⟩
  refine ⟨x, hxST, ?_⟩
  intro T' hT'
  obtain ⟨s', hs'L, hs'ST, hs'w⟩ := hrep T' hT'
  rw [← hs'w]
  exact hxmin s' hs'L hs'ST

theorem ewt_cons (t : KE) (l : List KE) : ewt (t :: l) = t.1 + ewt l := by
  simp [ewt]

theorem ewt_kerase (T : List KE) (f : KE) (hf : f ∈ T) :
    ewt T = f.1 + ewt (kerase T f) := by
  rw [ewt_perm T (f :: kerase T f) (perm_cons_kerase f T hf), ewt_cons]

/-- Blue-rule exchange: if e is a minimum-weight edge crossing a cut that no
edge of the partial forest F crosses, then any spanning tree containing F can
be rebuilt into one of no larger weight that contains F and e. -/
theorem cut_exchange (g : Graph) (hwf : WF g) (T : List KE) (hT : isST g T)
    (P : V → Prop) (F : List KE) (hFT : ∀ t ∈ F, t ∈ T)
    (hFnc : ∀ t ∈ F, (P t.2.1 ↔ P t.2.2))
    (we : W) (a b : V) (heE : (we, a, b) ∈ Eg g) (hea : P a) (heb : ¬ P b)
    (hmin : ∀ t ∈ Eg g, ((P t.2.1 ∧ ¬ P t.2.2) ∨ (P t.2.2 ∧ ¬ P t.2.1)) →
      we ≤ t.1) :
    ∃ T', isST g T' ∧ ewt T' ≤ ewt T ∧ (∀ t ∈ F, t ∈ T') ∧ (we, a, b) ∈ T' := by
  by_cases heT : (we, a, b) ∈ T
  · exact ⟨T, hT, le_refl _, hFT, heT⟩
  have hab : a ≠ b := fun hc => heb (hc ▸ hea)
  obtain ⟨hTnd, hTE, hTns, hTconn, hTlen⟩ := hT
  have ha : a ∈ g.vertices := (Eg_closed g hwf (we, a, b) heE).1
  have hb : b ∈ g.vertices := (Eg_closed g hwf (we, a, b) heE).2
  obtain ⟨p0, hp0⟩ := hTconn a b ha hb
  obtain ⟨p, hp, hpnd, _⟩ := epath_simple T p0.length p0 a b (le_refl _) hp0
  obtain ⟨p1, x, y, p2, hdec, hlast, hpath1, hall, hy, hstep, hpath2⟩ :=
    epath_first_exit T P p a b hp hea heb
  have hPx : P x := hall x (hlast ▸ List.getLast_mem _)
  have hchain : ((a :: p1) ++ (y :: p2)).Nodup := by
    have : a :: p = (a :: p1) ++ (y :: p2) := by rw [hdec]; simp
    exact this ▸ hpnd
  have hdisj : List.Disjoint (a :: p1) (y :: p2) :=
    (List.nodup_append.mp hchain).2.2
  have hxy : x ≠ y := fun hc => hy (hc ▸ hPx)
  obtain ⟨w, hw⟩ := hstep
  -- the crossing tree edge f, in either stored orientation
  rcases hw with hw | hw
  · -- f = (w, x, y) ∈ T
    have hcross : ((P (w, x, y).2.1 ∧ ¬ P (w, x, y).2.2) ∨
        (P (w, x, y).2.2 ∧ ¬ P (w, x, y).2.1)) := Or.inl ⟨hPx, hy⟩
    have hwe : we ≤ w := hmin (w, x, y) (hTE _ hw) hcross
    have hfF : (w, x, y) ∉ F := fun hc => hy ((hFnc _ hc).mp hPx)
    have hfe : (w, x, y) ≠ (we, a, b) := fun hc => heT (hc ▸ hw)
    have hyp1 : y ∉ a :: p1 := fun hc => hdisj hc (List.mem_cons_self _ _)
    have hxp2 : x ∉ y :: p2 := fun hc =>
      hdisj (hlast ▸ List.getLast_mem _) hc
    have hpe1 : epath (kerase T (w, x, y)) a p1 x :=
      epath_erase_of_not_mem T (w, x, y) p1 a x hpath1 (Or.inr hyp1)
    have hpe2 : epath (kerase T (w, x, y)) y p2 b :=
      epath_erase_of_not_mem T (w, x, y) p2 y b hpath2 (Or.inl hxp2)
    refine ⟨(we, a, b) :: kerase T (w, x, y), ?_, ?_, ?_, List.mem_cons_self _ _⟩
    · have hsub : ∀ t ∈ kerase T (w, x, y), t ∈ T := fun t ht => kerase_subset _ _ _ ht
      have hmonoT' : ∀ u' v', connE (kerase T (w, x, y)) u' v' →
          connE ((we, a, b) :: kerase T (w, x, y)) u' v' :=
        fun u' v' => connE_mono _ _ (fun t ht => List.mem_cons_of_mem _ ht) u' v'
      have hconnxy : connE ((we, a, b) :: kerase T (w, x, y)) x y := by
        have h1 : connE (kerase T (w, x, y)) x a :=
          connE_symm _ a x ⟨p1, hpe1⟩
        have h2 : connE ((we, a, b) :: kerase T (w, x, y)) a b :=
          ⟨[b], ⟨we, Or.inl (List.mem_cons_self _ _)⟩, rfl⟩
        have h3 : connE (kerase T (w, x, y)) b y :=
          connE_symm _ y b ⟨p2, hpe2⟩
        exact connE_trans _ x b y
          (connE_trans _ x a b (hmonoT' x a h1) h2) (hmonoT' b y h3)
      refine ⟨?_, ?_, ?_, ?_, ?_⟩
      · exact List.nodup_cons.mpr
          ⟨fun hc => heT (kerase_subset _ _ _ hc), nodup_kerase _ T hTnd⟩
      · intro t ht
        rcases List.mem_cons.mp ht with h | h
        · exact h ▸ heE
        · exact hTE t (kerase_subset _ _ _ h)
      · intro t ht
        rcases List.mem_cons.mp ht with h | h
        · exact h ▸ hab
        · exact hTns t (kerase_subset _ _ _ h)
      · intro u' v' hu' hv'
        obtain ⟨q, hq⟩ := hTconn u' v' hu' hv'
        refine connE_of_steps T _ ?_ q u' v' hq
        intro c d hcd
        obtain ⟨w', hw'⟩ := hcd
        rcases hw' with hw' | hw'
        · by_cases hf : (w', c, d) = (w, x, y)
          · have hcx : c = x := congrArg (fun t : KE => t.2.1) hf
            have hdy : d = y := congrArg (fun t : KE => t.2.2) hf
            rw [hcx, hdy]
            exact hconnxy
          · exact ⟨[d], ⟨w', Or.inl (List.mem_cons_of_mem _
              (mem_kerase_of_ne _ _ hf _ hw'))⟩, rfl⟩
        · by_cases hf : (w', d, c) = (w, x, y)
          · have hdx : d = x := congrArg (fun t : KE => t.2.1) hf
            have hcy : c = y := congrArg (fun t : KE => t.2.2) hf
            rw [hcy, hdx]
            exact connE_symm _ x y hconnxy
          · exact ⟨[d], ⟨w', Or.inr (List.mem_cons_of_mem _
              (mem_kerase_of_ne _ _ hf _ hw'))⟩, rfl⟩
      · have hlerase := length_kerase (w, x, y) T hw
        simp only [List.length_cons]
        omega
    · have herase : ewt T = w + ewt (kerase T (w, x, y)) := ewt_kerase T (w, x, y) hw
      rw [ewt_cons]
      show we + ewt (kerase T (w, x, y)) ≤ ewt T
      rw [herase]
      exact add_le_add_right hwe _
    · intro t ht
      exact List.mem_cons_of_mem _
        (mem_kerase_of_ne _ _ (fun hc => hfF (by rw [← hc]; exact ht)) _ (hFT t ht))
  · -- f = (w, y, x) ∈ T
    have hcross : ((P (w, y, x).2.1 ∧ ¬ P (w, y, x).2.2) ∨
        (P (w, y, x).2.2 ∧ ¬ P (w, y, x).2.1)) := Or.inr ⟨hPx, hy⟩
    have hwe : we ≤ w := hmin (w, y, x) (hTE _ hw) hcross
    have hfF : (w, y, x) ∉ F := fun hc => hy ((hFnc _ hc).mpr hPx)
    have hfe : (w, y, x) ≠ (we, a, b) := fun hc => heT (hc ▸ hw)
    have hyp1 : y ∉ a :: p1 := fun hc => hdisj hc (List.mem_cons_self _ _)
    have hxp2 : x ∉ y :: p2 := fun hc =>
      hdisj (hlast ▸ List.getLast_mem _) hc
    have hpe1 : epath (kerase T (w, y, x)) a p1 x :=
      epath_erase_of_not_mem T (w, y, x) p1 a x hpath1 (Or.inl hyp1)
    have hpe2 : epath (kerase T (w, y, x)) y p2 b :=
      epath_erase_of_not_mem T (w, y, x) p2 y b hpath2 (Or.inr hxp2)
    refine ⟨(we, a, b) :: kerase T (w, y, x), ?_, ?_, ?_, List.mem_cons_self _ _⟩
    · have hmonoT' : ∀ u' v', connE (kerase T (w, y, x)) u' v' →
          connE ((we, a, b) :: kerase T (w, y, x)) u' v' :=
        fun u' v' => connE_mono _ _ (fun t ht => List.mem_cons_of_mem _ ht) u' v'
      have hconnxy : connE ((we, a, b) :: kerase T (w, y, x)) x y := by
        have h1 : connE (kerase T (w, y, x)) x a :=
          connE_symm _ a x ⟨p1, hpe1⟩
        have h2 : connE ((we, a, b) :: kerase T (w, y, x)) a b :=
          ⟨[b], ⟨we, Or.inl (List.mem_cons_self _ _)⟩, rfl⟩
        have h3 : connE (kerase T (w, y, x)) b y :=
          connE_symm _ y b ⟨p2, hpe2⟩
        exact connE_trans _ x b y
          (connE_trans _ x a b (hmonoT' x a h1) h2) (hmonoT' b y h3)
      refine ⟨?_, ?_, ?_, ?_, ?_⟩
      · exact List.nodup_cons.mpr
          ⟨fun hc => heT (kerase_subset _ _ _ hc), nodup_kerase _ T hTnd⟩
      · intro t ht
        rcases List.mem_cons.mp ht with h | h
        · exact h ▸ heE
        · exact hTE t (kerase_subset _ _ _ h)
      · intro t ht
        rcases List.mem_cons.mp ht with h | h
        · exact h ▸ hab
        · exact hTns t (kerase_subset _ _ _ h)
      · intro u' v' hu' hv'
        obtain ⟨q, hq⟩ := hTconn u' v' hu' hv'
        refine connE_of_steps T _ ?_ q u' v' hq
        intro c d hcd
        obtain ⟨w', hw'⟩ := hcd
        rcases hw' with hw' | hw'
        · by_cases hf : (w', c, d) = (w, y, x)
          · have hcy : c = y := congrArg (fun t : KE => t.2.1) hf
            have hdx : d = x := congrArg (fun t : KE => t.2.2) hf
            rw [hcy, hdx]
            exact connE_symm _ x y hconnxy
          · exact ⟨[d], ⟨w', Or.inl (List.mem_cons_of_mem _
              (mem_kerase_of_ne _ _ hf _ hw'))⟩, rfl⟩
        · by_cases hf : (w', d, c) = (w, y, x)
          · have hdy : d = y := congrArg (fun t : KE => t.2.1) hf
            have hcx : c = x := congrArg (fun t : KE => t.2.2) hf
            rw [hcx, hdy]
            exact hconnxy
          · exact ⟨[d], ⟨w', Or.inr (List.mem_cons_of_mem _
              (mem_kerase_of_ne _ _ hf _ hw'))⟩, rfl⟩
      · have hlerase := length_kerase (w, y, x) T hw
        simp only [List.length_cons]
        omega
    · have herase : ewt T = w + ewt (kerase T (w, y, x)) := ewt_kerase T (w, y, x) hw
      rw [ewt_cons]
      show we + ewt (kerase T (w, y, x)) ≤ ewt T
      rw [herase]
      exact add_le_add_right hwe _
    · intro t ht
      exact List.mem_cons_of_mem _
        (mem_kerase_of_ne _ _ (fun hc => hfF (by rw [← hc]; exact ht)) _ (hFT t ht))

/-! ### UnionFind correctness -/

/-- Iterated parent lookup. -/
def pIter (p : List (V × V)) : Nat → V → V
  | 0, v => v
  | k+1, v => pIter p k (plook p v)

theorem plook_dset (p : List (V × V)) (x r y : V) :
    plook (dset p x r) y = if y = x then r else plook p y := by
  by_cases h : y = x
  · simp [plook, h, alookup_dset_self]
  · simp [plook, h, alookup_dset_ne p x y r h]

theorem pIter_succ_out (p : List (V × V)) :
    ∀ (k : Nat) (v : V), pIter p (k+1) v = plook p (pIter p k v) := by
  intro k
  induction k with
  | zero => intro v; rfl
  | succ j ih =>
    intro v
    rw [show pIter p (j+1+1) v = pIter p (j+1) (plook p v) from rfl, ih,
      show pIter p (j+1) v = pIter p j (plook p v) from rfl]

theorem pIter_add (p : List (V × V)) :
    ∀ (j k : Nat) (v : V), pIter p (j + k) v = pIter p k (pIter p j v) := by
  intro j
  induction j with
  | zero => intro k v; rw [Nat.zero_add]; rfl
  | succ i ih =>
    intro k v
    rw [show i + 1 + k = (i + k) + 1 by omega,
      show pIter p ((i + k) + 1) v = pIter p (i + k) (plook p v) from rfl,
      ih k (plook p v)]
    rfl

theorem pIter_mem (vs : List V) (p : List (V × V))
    (hpar : ∀ v ∈ vs, plook p v ∈ vs) :
    ∀ (k : Nat) (v : V), v ∈ vs → pIter p k v ∈ vs := by
  intro k
  induction k with
  | zero => intro v hv; exact hv
  | succ j ih =>
    intro v hv
    rw [pIter_succ_out]
    exact hpar _ (ih v hv)

theorem pIter_root_fix (p : List (V × V)) (r : V) (hr : plook p r = r) :
    ∀ (k : Nat), pIter p k r = r := by
  intro k
  induction k with
  | zero => rfl
  | succ j ih => rw [pIter_succ_out, ih, hr]

theorem pIter_stable (p : List (V × V)) (v : V) (k : Nat)
    (hroot : plook p (pIter p k v) = pIter p k v) :
    ∀ (m : Nat), k ≤ m → pIter p m v = pIter p k v := by
  intro m hkm
  rw [show m = k + (m - k) by omega, pIter_add]
  exact pIter_root_fix p (pIter p k v) hroot (m - k)

/-- Chain membership in the R-closure. -/
theorem pIter_rel (vs : List V) (p : List (V × V)) (R : V → V → Prop)
    (hRrefl : ∀ v ∈ vs, R v v)
    (hRtrans : ∀ a b c, R a b → R b c → R a c)
    (hpar : ∀ v ∈ vs, plook p v ∈ vs ∧ R v (plook p v)) :
    ∀ (k : Nat) (v : V), v ∈ vs → R v (pIter p k v) ∧ pIter p k v ∈ vs := by
  intro k
  induction k with
  | zero => intro v hv; exact ⟨hRrefl v hv, hv⟩
  | succ j ih =>
    intro v hv
    obtain ⟨hrel, hmem⟩ := ih v hv
    rw [pIter_succ_out]
    exact ⟨hRtrans _ _ _ hrel (hpar _ hmem).2, (hpar _ hmem).1⟩

/-- Pigeonhole: a parent chain that stabilizes at all stabilizes within
|vs| - 1 steps. -/
theorem stab_bound (vs : List V) (p : List (V × V))
    (hpar : ∀ v ∈ vs, plook p v ∈ vs) (v : V) (hv : v ∈ vs)
    (k : Nat) (hroot : plook p (pIter p k v) = pIter p k v) :
    ∃ j, j < vs.length ∧ plook p (pIter p j v) = pIter p j v := by
  set n := vs.length with hn
  by_cases hk : k < n
  · exact ⟨k, hk, hroot⟩
  · have hcard : vs.toFinset.card < (Finset.range (n + 1)).card := by
      rw [Finset.card_range]
      have := List.toFinset_card_le vs
      omega
    obtain ⟨i, hi, j, hj, hij, hfij⟩ :=
      Finset.exists_ne_map_eq_of_card_lt_of_maps_to hcard
        (fun i _ => List.mem_toFinset.mpr (pIter_mem vs p hpar i v hv))
    rw [Finset.mem_range] at hi hj
    rcases Nat.lt_or_ge i j with hlt | hge
    · -- pIter i v = pIter j v with i < j: chain periodic, root value = pIter i v
      refine ⟨i, by omega, ?_⟩
      have hper : ∀ m, pIter p (i + m * (j - i)) v = pIter p i v := by
        intro m
        induction m with
        | zero => simp
        | succ l ih =>
          rw [show i + (l+1) * (j - i) = (i + l * (j - i)) + (j - i) by ring,
            pIter_add, ih, ← pIter_add, show i + (j - i) = j by omega, ← hfij]
      have hbig : k ≤ i + k * (j - i) := by
        have h1 : 1 ≤ j - i := by omega
        calc k ≤ k * (j - i) := Nat.le_mul_of_pos_right k (by omega)
          _ ≤ i + k * (j - i) := by omega
      have : pIter p i v = pIter p k v := by
        rw [← hper k]
        exact pIter_stable p v k hroot _ hbig
      rw [this]
      exact hroot
    · have hlt : j < i := by omega
      refine ⟨j, by omega, ?_⟩
      have hper : ∀ m, pIter p (j + m * (i - j)) v = pIter p j v := by
        intro m
        induction m with
        | zero => simp
        | succ l ih =>
          rw [show j + (l+1) * (i - j) = (j + l * (i - j)) + (i - j) by ring,
            pIter_add, ih, ← pIter_add, show j + (i - j) = i by omega, hfij]
      have hbig : k ≤ j + k * (i - j) := by
        have h1 : 1 ≤ i - j := by omega
        calc k ≤ k * (i - j) := Nat.le_mul_of_pos_right k (by omega)
          _ ≤ j + k * (i - j) := by omega
      have : pIter p j v = pIter p k v := by
        rw [← hper k]
        exact pIter_stable p v k hroot _ hbig
      rw [this]
      exact hroot

/-- First hit of a chain value. -/
theorem first_hit (p : List (V × V)) (x ρ : V) :
    ∀ (k : Nat), pIter p k x = ρ →
      ∃ j, j ≤ k ∧ pIter p j x = ρ ∧ ∀ i, i < j → pIter p i x ≠ ρ := by
  intro k h
  have hex : ∃ j, pIter p j x = ρ := ⟨k, h⟩
  refine ⟨Nat.find hex, Nat.find_min' hex h, Nat.find_spec hex, ?_⟩
  intro i hi
  exact Nat.find_min hex hi

/-- Invariant tying a parent map to the partition R over the vertex list. -/
structure UFI (vs : List V) (p : List (V × V)) (R : V → V → Prop) : Prop where
  hkeys : keys p = vs
  hpar : ∀ v ∈ vs, plook p v ∈ vs ∧ R v (plook p v)
  hterm : ∀ v ∈ vs, ∃ k, plook p (pIter p k v) = pIter p k v
  hcls : ∀ u v, u ∈ vs → v ∈ vs →
    (R u v ↔ pIter p vs.length u = pIter p vs.length v)

/-- The canonical root of a vertex is a fixpoint of the parent map. -/
theorem ufi_root (vs : List V) (p : List (V × V)) (R : V → V → Prop)
    (h : UFI vs p R) (v : V) (hv : v ∈ vs) :
    plook p (pIter p vs.length v) = pIter p vs.length v := by
  obtain ⟨k, hk⟩ := h.hterm v hv
  obtain ⟨j, hj, hjr⟩ := stab_bound vs p (fun z hz => (h.hpar z hz).1) v hv k hk
  rw [pIter_stable p v j hjr vs.length (by omega)]
  exact hjr

/-- Chains are unchanged by a parent update at v as long as they avoid v. -/
theorem chains_agree (p' : List (V × V)) (v rt x : V) (k : Nat)
    (hno : ∀ i, i < k → pIter p' i x ≠ v) :
    ∀ i, i ≤ k → pIter (dset p' v rt) i x = pIter p' i x := by
  intro i
  induction i with
  | zero => intro _; rfl
  | succ j ih =>
    intro hjk
    rw [pIter_succ_out, pIter_succ_out, ih (by omega), plook_dset,
      if_neg (hno j (by omega))]

/-- Full characterization of find with path compression. -/
theorem ufFind_spec (vs : List V) (R : V → V → Prop)
    (hRrefl : ∀ v ∈ vs, R v v)
    (hRtrans : ∀ a b c, R a b → R b c → R a c) :
    ∀ (k fuel : Nat) (p : List (V × V)) (v : V),
      UFI vs p R → v ∈ vs →
      plook p (pIter p k v) = pIter p k v →
      k ≤ fuel → k ≤ vs.length →
      (ufFind fuel p v).1 = pIter p k v ∧
      UFI vs (ufFind fuel p v).2 R ∧
      (∀ x, x ∈ vs →
        pIter (ufFind fuel p v).2 vs.length x = pIter p vs.length x) ∧
      (∀ x, plook (ufFind fuel p v).2 x = plook p x ∨
            plook (ufFind fuel p v).2 x = pIter p k v) := by
  intro k
  induction k with
  | zero =>
    intro fuel p v hufi hv hroot _ _
    have hid : ufFind fuel p v = (v, p) := by
      cases fuel with
      | zero => rfl
      | succ f => simp [ufFind, show plook p v = v from hroot]
    rw [hid]
    exact ⟨rfl, hufi, fun x _ => rfl, fun x => Or.inl rfl⟩
  | succ m ih =>
    intro fuel p v hufi hv hroot hkf hkn
    by_cases hpv : plook p v = v
    · have hid : ufFind fuel p v = (v, p) := by
        cases fuel with
        | zero => rfl
        | succ f => simp [ufFind, hpv]
      rw [hid]
      have hfix : pIter p (m + 1) v = v := pIter_root_fix p v hpv (m + 1)
      exact ⟨hfix.symm, hufi, fun x _ => rfl, fun x => Or.inl rfl⟩
    · obtain ⟨f, rfl⟩ : ∃ f, fuel = f + 1 := ⟨fuel - 1, by omega⟩
      set n := vs.length with hn
      have hpvv : plook p v ∈ vs := (hufi.hpar v hv).1
      have hshift : pIter p (m + 1) v = pIter p m (plook p v) := rfl
      have hroot' : plook p (pIter p m (plook p v)) = pIter p m (plook p v) := by
        rw [← hshift]; exact hroot
      obtain ⟨hr, hufi', hpres', hrange'⟩ :=
        ih f p (plook p v) hufi hpvv hroot' (by omega) (by omega)
      set rt := pIter p (m + 1) v with hrt
      have hrrt : (ufFind f p (plook p v)).1 = rt := by rw [hr, ← hshift]
      set p' := (ufFind f p (plook p v)).2 with hp'
      have hid : ufFind (f + 1) p v = (rt, dset p' v rt) := by
        rcases hE : ufFind f p (plook p v) with ⟨r0, q0⟩
        have h1 : r0 = rt := by rw [← hrrt, hE]
        have h2 : q0 = p' := by rw [hp', hE]
        simp [ufFind, hpv, hE, h1, h2]
      set p2 := dset p' v rt with hp2
      -- basic facts
      have hrtvs : rt ∈ vs :=
        (pIter_rel vs p R hRrefl hRtrans hufi.hpar (m + 1) v hv).2
      have hRvrt : R v rt :=
        (pIter_rel vs p R hRrefl hRtrans hufi.hpar (m + 1) v hv).1
      have hvrt : v ≠ rt := by
        intro hc
        apply hpv
        calc plook p v = plook p rt := by rw [← hc]
          _ = rt := hroot
          _ = v := hc.symm
      have hrtrootp' : plook p' rt = rt := by
        rcases hrange' rt with h | h
        · rw [h]
          exact hroot
        · rw [h, ← hshift]
      have hrtrootp2 : plook p2 rt = rt := by
        rw [hp2, plook_dset, if_neg (Ne.symm hvrt)]
        exact hrtrootp'
      have hplookp2 : ∀ x, x ≠ v → plook p2 x = plook p' x := by
        intro x hx
        rw [hp2, plook_dset, if_neg hx]
      have hplookp2v : plook p2 v = rt := by
        rw [hp2, plook_dset, if_pos rfl]
      have hparp' : ∀ z ∈ vs, plook p' z ∈ vs := fun z hz => (hufi'.hpar z hz).1
      -- the crucial root-preservation for p2 over p'
      have hpres2 : ∀ x, x ∈ vs → pIter p2 n x = pIter p' n x := by
        intro x hx
        obtain ⟨k0, hk0⟩ := hufi'.hterm x hx
        obtain ⟨k', hk'n, hk'root⟩ := stab_bound vs p' hparp' x hx k0 hk0
        by_cases hhit : ∃ i, i ≤ k' ∧ pIter p' i x = v
        · obtain ⟨i0, hi0, hi0v⟩ := hhit
          obtain ⟨j, hj, hjv, hjmin⟩ := first_hit p' x v i0 hi0v
          have hagree : ∀ i, i ≤ j → pIter p2 i x = pIter p' i x :=
            chains_agree p' v rt x j (fun i hi => hjmin i hi) 
          have hstepj : pIter p2 (j + 1) x = rt := by
            rw [pIter_succ_out, hagree j (le_refl _), hjv, hplookp2v]
          have hrootj : plook p2 (pIter p2 (j + 1) x) = pIter p2 (j + 1) x := by
            rw [hstepj]
            exact hrtrootp2
          have hjn : j + 1 ≤ n := by omega
          have hleft : pIter p2 n x = rt := by
            rw [pIter_stable p2 x (j + 1) hrootj n hjn, hstepj]
          -- right side: the p-prime chain passes through v, hence shares v-s root
          have hright : pIter p' n x = rt := by
            have h1 : pIter p' (j + n) x = pIter p' n v := by
              rw [pIter_add, hjv]
            have h2 : pIter p' (j + n) x = pIter p' k' x := by
              apply pIter_stable p' x k' hk'root
              omega
            have h3 : pIter p' n x = pIter p' k' x := by
              apply pIter_stable p' x k' hk'root
              omega
            have h4 : pIter p' n v = pIter p n v := hpres' v hv
            have h5 : pIter p n v = rt := by
              rw [hrt]
              apply pIter_stable p v (m + 1) hroot
              omega
            rw [h3, ← h2, h1, h4, h5]
          rw [hleft, hright]
        · push_neg at hhit
          have hagree : ∀ i, i ≤ k' → pIter p2 i x = pIter p' i x :=
            chains_agree p' v rt x k' (fun i hi => hhit i (by omega))
          have hρv : pIter p' k' x ≠ v := hhit k' (le_refl _)
          have hrootk' : plook p2 (pIter p2 k' x) = pIter p2 k' x := by
            rw [hagree k' (le_refl _), hplookp2 _ hρv]
            exact hk'root
          rw [pIter_stable p2 x k' hrootk' n (by omega),
            hagree k' (le_refl _),
            pIter_stable p' x k' hk'root n (by omega)]
      rw [hid]
      refine ⟨rfl, ?_, ?_, ?_⟩
      · -- UFI for the compressed map
        refine ⟨?_, ?_, ?_, ?_⟩
        · rw [hp2, keys_dset_of_mem]
          · exact hufi'.hkeys
          · rw [hufi'.hkeys]
            exact hv
        · intro z hz
          by_cases hzv : z = v
          · rw [hzv, hplookp2v]
            exact ⟨hrtvs, hRvrt⟩
          · rw [hplookp2 z hzv]
            exact hufi'.hpar z hz
        · intro z hz
          obtain ⟨k0, hk0⟩ := hufi'.hterm z hz
          obtain ⟨k', _, hk'root⟩ := stab_bound vs p' hparp' z hz k0 hk0
          by_cases hhit : ∃ i, i ≤ k' ∧ pIter p' i z = v
          · obtain ⟨i0, hi0, hi0v⟩ := hhit
            obtain ⟨j, _, hjv, hjmin⟩ := first_hit p' z v i0 hi0v
            have hagree : ∀ i, i ≤ j → pIter p2 i z = pIter p' i z :=
              chains_agree p' v rt z j (fun i hi => hjmin i hi)
            refine ⟨j + 1, ?_⟩
            rw [pIter_succ_out, hagree j (le_refl _), hjv, hplookp2v]
            exact hrtrootp2
          · push_neg at hhit
            have hagree : ∀ i, i ≤ k' → pIter p2 i z = pIter p' i z :=
              chains_agree p' v rt z k' (fun i hi => hhit i (by omega))
            refine ⟨k', ?_⟩
            rw [hagree k' (le_refl _), hplookp2 _ (hhit k' (le_refl _))]
            exact hk'root
        · intro z y hz hy
          rw [hpres2 z hz, hpres2 y hy, hpres' z hz, hpres' y hy]
          exact hufi.hcls z y hz hy
      · intro x hx
        rw [hpres2 x hx, hpres' x hx]
      · intro x
        by_cases hxv : x = v
        · rw [hxv, hplookp2v]
          exact Or.inr rfl
        · rw [hplookp2 x hxv]
          rcases hrange' x with h | h
          · exact Or.inl h
          · refine Or.inr ?_
            rw [h, ← hshift]

/-- Convenient form of find correctness with fuel at least |vs|. -/
theorem ufFind_root (vs : List V) (R : V → V → Prop)
    (hRrefl : ∀ v ∈ vs, R v v)
    (hRtrans : ∀ a b c, R a b → R b c → R a c)
    (p : List (V × V)) (a : V) (hufi : UFI vs p R) (ha : a ∈ vs)
    (fuel : Nat) (hfuel : vs.length ≤ fuel) :
    (ufFind fuel p a).1 = pIter p vs.length a ∧
    UFI vs (ufFind fuel p a).2 R ∧
    (∀ x, x ∈ vs →
      pIter (ufFind fuel p a).2 vs.length x = pIter p vs.length x) := by
  obtain ⟨k0, hk0⟩ := hufi.hterm a ha
  obtain ⟨k, hkn, hkroot⟩ :=
    stab_bound vs p (fun z hz => (hufi.hpar z hz).1) a ha k0 hk0
  obtain ⟨h1, h2, h3, _⟩ :=
    ufFind_spec vs R hRrefl hRtrans k fuel p a hufi ha hkroot
      (by omega) (by omega)
  refine ⟨?_, h2, h3⟩
  rw [h1]
  exact (pIter_stable p a k hkroot vs.length (by omega)).symm

/-- Re-pointing one root to another realizes the merged partition. -/
theorem ufi_merge (vs : List V) (R R' : V → V → Prop)
    (hRrefl : ∀ v ∈ vs, R v v)
    (hRtrans : ∀ a b c, R a b → R b c → R a c)
    (hRsymm : ∀ a b, R a b → R b a)
    (p2 : List (V × V)) (hufi2 : UFI vs p2 R)
    (c d : V) (hc : c ∈ vs) (hd : d ∈ vs)
    (hR' : ∀ u v, u ∈ vs → v ∈ vs →
      (R' u v ↔ R u v ∨ (R u c ∧ R d v) ∨ (R u d ∧ R c v)))
    (rj ri : V)
    (hrj : rj = pIter p2 vs.length c) (hri : ri = pIter p2 vs.length d)
    (hne : rj ≠ ri) :
    UFI vs (dset p2 rj ri) R' := by
  set n := vs.length with hn
  set p3 := dset p2 rj ri with hp3
  have hrjvs : rj ∈ vs := by
    rw [hrj]
    exact (pIter_rel vs p2 R hRrefl hRtrans hufi2.hpar n c hc).2
  have hrivs : ri ∈ vs := by
    rw [hri]
    exact (pIter_rel vs p2 R hRrefl hRtrans hufi2.hpar n d hd).2
  have hrjroot : plook p2 rj = rj := by rw [hrj]; exact ufi_root vs p2 R hufi2 c hc
  have hriroot : plook p2 ri = ri := by rw [hri]; exact ufi_root vs p2 R hufi2 d hd
  have hplook3 : ∀ x, x ≠ rj → plook p3 x = plook p2 x := by
    intro x hx
    rw [hp3, plook_dset, if_neg hx]
  have hplook3j : plook p3 rj = ri := by
    rw [hp3, plook_dset, if_pos rfl]
  have hriroot3 : plook p3 ri = ri := by
    rw [hplook3 ri (Ne.symm hne)]
    exact hriroot
  have hparp2 : ∀ z ∈ vs, plook p2 z ∈ vs := fun z hz => (hufi2.hpar z hz).1
  have hRc : R c rj := hrj ▸ (pIter_rel vs p2 R hRrefl hRtrans hufi2.hpar n c hc).1
  have hRd : R d ri := hri ▸ (pIter_rel vs p2 R hRrefl hRtrans hufi2.hpar n d hd).1
  -- root computation in the merged map
  have hroot3 : ∀ z, z ∈ vs →
      pIter p3 n z = (if pIter p2 n z = rj then ri else pIter p2 n z) := by
    intro z hz
    obtain ⟨k0, hk0⟩ := hufi2.hterm z hz
    obtain ⟨k, hkn, hkroot⟩ := stab_bound vs p2 hparp2 z hz k0 hk0
    have hstabn : pIter p2 n z = pIter p2 k z :=
      pIter_stable p2 z k hkroot n (by omega)
    by_cases hhit : ∃ i, i ≤ k ∧ pIter p2 i z = rj
    · obtain ⟨i0, hi0, hi0v⟩ := hhit
      obtain ⟨j, hj, hjv, hjmin⟩ := first_hit p2 z rj i0 hi0v
      have hagree : ∀ i, i ≤ j → pIter p3 i z = pIter p2 i z :=
        chains_agree p2 rj ri z j (fun i hi => hjmin i hi)
      have hstepj : pIter p3 (j + 1) z = ri := by
        rw [pIter_succ_out, hagree j (le_refl _), hjv, hplook3j]
      have hrootj : plook p3 (pIter p3 (j + 1) z) = pIter p3 (j + 1) z := by
        rw [hstepj]; exact hriroot3
      have hleft : pIter p3 n z = ri := by
        rw [pIter_stable p3 z (j + 1) hrootj n (by omega), hstepj]
      have hright : pIter p2 n z = rj := by
        have h1 : pIter p2 (j + n) z = pIter p2 n rj := by
          rw [pIter_add, hjv]
        have h2 : pIter p2 (j + n) z = pIter p2 k z := by
          apply pIter_stable p2 z k hkroot
          omega
        rw [hstabn, ← h2, h1, pIter_root_fix p2 rj hrjroot]
      rw [hleft, hright, if_pos rfl]
    · push_neg at hhit
      have hagree : ∀ i, i ≤ k → pIter p3 i z = pIter p2 i z :=
        chains_agree p2 rj ri z k (fun i hi => hhit i (by omega))
      have hρ : pIter p2 k z ≠ rj := hhit k (le_refl _)
      have hroot3k : plook p3 (pIter p3 k z) = pIter p3 k z := by
        rw [hagree k (le_refl _), hplook3 _ hρ]
        exact hkroot
      have hval : pIter p3 n z = pIter p2 k z := by
        rw [pIter_stable p3 z k hroot3k n (by omega), hagree k (le_refl _)]
      rw [hval, hstabn, if_neg hρ]
  refine ⟨?_, ?_, ?_, ?_⟩
  · rw [hp3, keys_dset_of_mem]
    · exact hufi2.hkeys
    · rw [hufi2.hkeys]; exact hrjvs
  · intro z hz
    by_cases hzj : z = rj
    · rw [hzj, hplook3j]
      refine ⟨hrivs, ?_⟩
      rw [hR' rj ri hrjvs hrivs]
      exact Or.inr (Or.inl ⟨hRsymm _ _ hRc, hRd⟩)
    · rw [hplook3 z hzj]
      obtain ⟨h1, h2⟩ := hufi2.hpar z hz
      refine ⟨h1, ?_⟩
      rw [hR' z _ hz h1]
      exact Or.inl h2
  · intro z hz
    obtain ⟨k0, hk0⟩ := hufi2.hterm z hz
    obtain ⟨k, hkn, hkroot⟩ := stab_bound vs p2 hparp2 z hz k0 hk0
    by_cases hhit : ∃ i, i ≤ k ∧ pIter p2 i z = rj
    · obtain ⟨i0, hi0, hi0v⟩ := hhit
      obtain ⟨j, hj, hjv, hjmin⟩ := first_hit p2 z rj i0 hi0v
      have hagree : ∀ i, i ≤ j → pIter p3 i z = pIter p2 i z :=
        chains_agree p2 rj ri z j (fun i hi => hjmin i hi)
      refine ⟨j + 1, ?_⟩
      rw [pIter_succ_out, hagree j (le_refl _), hjv, hplook3j]
      exact hriroot3
    · push_neg at hhit
      have hagree : ∀ i, i ≤ k → pIter p3 i z = pIter p2 i z :=
        chains_agree p2 rj ri z k (fun i hi => hhit i (by omega))
      refine ⟨k, ?_⟩
      rw [hagree k (le_refl _), hplook3 _ (hhit k (le_refl _))]
      exact hkroot
  · intro u v hu hv
    rw [hR' u v hu hv, hroot3 u hu, hroot3 v hv,
      hufi2.hcls u v hu hv, hufi2.hcls u c hu hc, hufi2.hcls d v hd hv,
      hufi2.hcls u d hu hd, hufi2.hcls c v hc hv, ← hrj, ← hri]
    by_cases h1 : pIter p2 n u = rj <;> by_cases h2 : pIter p2 n v = rj <;>
      simp only [h1, h2, if_pos, if_neg, if_true, if_false] <;>
      constructor <;> intro hcase
    all_goals first
      | tauto
      | (rcases hcase with h | ⟨ha1, ha2⟩ | ⟨hb1, hb2⟩ <;> tauto)
      | tauto

/-- Full characterization of union: the returned flag reports whether the
endpoints were in distinct classes, and the parent map afterwards realizes
the unchanged (resp. merged) partition. -/
theorem ufUnion_spec (vs : List V) (R R' : V → V → Prop)
    (hRrefl : ∀ v ∈ vs, R v v)
    (hRtrans : ∀ a b c, R a b → R b c → R a c)
    (hRsymm : ∀ a b, R a b → R b a)
    (uf : UF) (a b : V) (hufi : UFI vs uf.parent R) (ha : a ∈ vs) (hb : b ∈ vs)
    (hR' : ∀ u v, u ∈ vs → v ∈ vs →
      (R' u v ↔ R u v ∨ (R u a ∧ R b v) ∨ (R u b ∧ R a v)))
    (fuel : Nat) (hfuel : vs.length ≤ fuel) :
    ((ufUnion fuel uf a b).1 = false ∧ R a b ∧
      UFI vs ((ufUnion fuel uf a b).2).parent R) ∨
    ((ufUnion fuel uf a b).1 = true ∧ ¬ R a b ∧
      UFI vs ((ufUnion fuel uf a b).2).parent R') := by
  obtain ⟨h1a, hufi1, hpres1⟩ :=
    ufFind_root vs R hRrefl hRtrans uf.parent a hufi ha fuel hfuel
  obtain ⟨h1b, hufi2, hpres2⟩ :=
    ufFind_root vs R hRrefl hRtrans (ufFind fuel uf.parent a).2 b hufi1 hb
      fuel hfuel
  rcases hE1 : ufFind fuel uf.parent a with ⟨ra, p1⟩
  rw [hE1] at h1a hufi1 hpres1 h1b hufi2 hpres2
  rcases hE2 : ufFind fuel p1 b with ⟨rb, p2⟩
  rw [hE2] at h1b hufi2 hpres2
  simp only at h1a h1b hufi1 hufi2 hpres1 hpres2
  have hras : pIter p2 vs.length a = ra := by
    rw [hpres2 a ha, hpres1 a ha, ← h1a]
  have hrbs : pIter p2 vs.length b = rb := by
    rw [hpres2 b hb, ← h1b]
  have hRab : R a b ↔ ra = rb := by
    rw [hufi.hcls a b ha hb, ← hpres1 a ha, ← hpres2 a ha, ← hpres1 b hb,
      ← hpres2 b hb, hras, hrbs]
  by_cases hrr : ra = rb
  · left
    have hid : ufUnion fuel uf a b = (false, { parent := p2, rank := uf.rank }) := by
      simp [ufUnion, hE1, hE2, hrr]
    rw [hid]
    exact ⟨rfl, hRab.mpr hrr, hufi2⟩
  · right
    have hfst : (ufUnion fuel uf a b).1 = true := by
      simp only [ufUnion, hE1, hE2, hrr, if_false]
      split_ifs <;> rfl
    have hsnd : ((ufUnion fuel uf a b).2).parent = dset p2 ra rb ∨
        ((ufUnion fuel uf a b).2).parent = dset p2 rb ra := by
      simp only [ufUnion, hE1, hE2, hrr, if_false]
      split_ifs with h1 h2
      · exact Or.inl rfl
      · exact Or.inr rfl
      · exact Or.inr rfl
    refine ⟨hfst, fun hc => hrr (hRab.mp hc), ?_⟩
    rcases hsnd with h | h
    · rw [h]
      exact ufi_merge vs R R' hRrefl hRtrans hRsymm p2 hufi2 a b ha hb hR'
        ra rb hras.symm hrbs.symm hrr
    · rw [h]
      refine ufi_merge vs R R' hRrefl hRtrans hRsymm p2 hufi2 b a hb ha
        ?_ rb ra hrbs.symm hras.symm (Ne.symm hrr)
      intro u v hu hv
      rw [hR' u v hu hv]
      tauto

/-! ### Kruskal loop correctness -/

theorem connE_nil (u v : V) : connE [] u v ↔ u = v := by
  constructor
  · rintro ⟨p, hp⟩
    cases p with
    | nil => exact hp
    | cons x xs =>
      obtain ⟨w, hw | hw⟩ := hp.1 <;> exact absurd hw (List.not_mem_nil _)
  · intro h
    exact h ▸ connE_refl [] u

theorem alookup_init_self (vs : List V) (u : V) :
    alookup (vs.map (fun v => (v, v))) u = if u ∈ vs then some u else none := by
  induction vs with
  | nil => simp [alookup]
  | cons x xs ih =>
    by_cases h : x = u
    · subst h
      simp [alookup]
    · simp [alookup, h, ih, Ne.symm h]

theorem plook_init (vs : List V) (u : V) :
    plook (vs.map (fun v => (v, v))) u = u := by
  rw [plook, alookup_init_self]
  by_cases h : u ∈ vs <;> simp [h]

theorem ufi_init (vs : List V) (hnd : vs.Nodup) :
    UFI vs (UF.init vs).parent (connE []) := by
  have hpl : ∀ u, plook (UF.init vs).parent u = u := fun u => plook_init vs u
  have hit : ∀ k u, pIter (UF.init vs).parent k u = u := by
    intro k
    induction k with
    | zero => intro u; rfl
    | succ j ih =>
      intro u
      rw [pIter_succ_out, ih, hpl]
  refine ⟨?_, ?_, ?_, ?_⟩
  · show keys (vs.map fun v => (v, v)) = vs
    rw [keys, List.map_map]
    exact List.map_id vs
  · intro v hv
    rw [hpl]
    exact ⟨hv, connE_refl [] v⟩
  · intro v hv
    exact ⟨0, hpl v⟩
  · intro u v hu hv
    rw [hit, hit, connE_nil]

theorem keys_length {α : Type} (m : List (V × α)) : (keys m).length = m.length := by
  simp [keys]

theorem ewt_append_single (F : List KE) (e : KE) :
    ewt (F ++ [e]) = ewt F + e.1 := by
  simp [ewt]

/-- Connectivity after appending one edge decomposes into paths that avoid the
new edge or pass through it once rerouted. -/
theorem connE_snoc (F : List KE) (e : KE) (x y : V) :
    connE (F ++ [e]) x y ↔
      connE F x y ∨ (connE F x e.2.1 ∧ connE F e.2.2 y) ∨
        (connE F x e.2.2 ∧ connE F e.2.1 y) := by
  constructor
  · rintro ⟨p, hp⟩
    induction p generalizing x with
    | nil =>
      exact Or.inl ((show x = y from hp) ▸ connE_refl F x)
    | cons z zs ih =>
      obtain ⟨⟨w, hw⟩, hrest⟩ := hp
      have hnext := ih z hrest
      have hcomp : connE F x z ∨
          ((x = e.2.1 ∧ z = e.2.2) ∨ (x = e.2.2 ∧ z = e.2.1)) := by
        rcases hw with hw | hw
        · rcases List.mem_append.mp hw with h | h
          · exact Or.inl ⟨[z], ⟨w, Or.inl h⟩, rfl⟩
          · have he : (w, x, z) = e := List.mem_singleton.mp h
            exact Or.inr (Or.inl ⟨congrArg (fun t : KE => t.2.1) he,
              congrArg (fun t : KE => t.2.2) he⟩)
        · rcases List.mem_append.mp hw with h | h
          · exact Or.inl ⟨[z], ⟨w, Or.inr h⟩, rfl⟩
          · have he : (w, z, x) = e := List.mem_singleton.mp h
            exact Or.inr (Or.inr ⟨congrArg (fun t : KE => t.2.2) he,
              congrArg (fun t : KE => t.2.1) he⟩)
      rcases hcomp with hxz | ⟨hx1, hz1⟩ | ⟨hx1, hz1⟩
      · rcases hnext with h | ⟨h1, h2⟩ | ⟨h1, h2⟩
        · exact Or.inl (connE_trans F x z y hxz h)
        · exact Or.inr (Or.inl ⟨connE_trans F x z _ hxz h1, h2⟩)
        · exact Or.inr (Or.inr ⟨connE_trans F x z _ hxz h1, h2⟩)
      · -- x = e.2.1, z = e.2.2
        rcases hnext with h | ⟨h1, h2⟩ | ⟨h1, h2⟩
        · exact Or.inr (Or.inl ⟨hx1 ▸ connE_refl F x, hz1 ▸ h⟩)
        · exact Or.inr (Or.inl ⟨hx1 ▸ connE_refl F x, h2⟩)
        · exact Or.inl (by rw [hx1]; exact h2)
      · -- x = e.2.2, z = e.2.1
        rcases hnext with h | ⟨h1, h2⟩ | ⟨h1, h2⟩
        · exact Or.inr (Or.inr ⟨hx1 ▸ connE_refl F x, hz1 ▸ h⟩)
        · exact Or.inl (by rw [hx1]; exact h2)
        · exact Or.inr (Or.inr ⟨hx1 ▸ connE_refl F x, h2⟩)
  · have hmono : ∀ a b, connE F a b → connE (F ++ [e]) a b :=
      fun a b => connE_mono F _ (fun t ht => List.mem_append_left _ ht) a b
    have hestep : connE (F ++ [e]) e.2.1 e.2.2 :=
      ⟨[e.2.2], ⟨e.1, Or.inl (List.mem_append_right _ (by simp))⟩, rfl⟩
    rintro (h | ⟨h1, h2⟩ | ⟨h1, h2⟩)
    · exact hmono x y h
    · exact connE_trans _ x e.2.2 y
        (connE_trans _ x e.2.1 e.2.2 (hmono _ _ h1) hestep) (hmono _ _ h2)
    · exact connE_trans _ x e.2.1 y
        (connE_trans _ x e.2.2 e.2.1 (hmono _ _ h1)
          (connE_symm _ _ _ hestep)) (hmono _ _ h2)

theorem edgeLE_refl (a : KE) : edgeLE a a = true := by
  simp [edgeLE]

theorem edgeLE_total (a b : KE) : edgeLE a b = true ∨ edgeLE b a = true := by
  simp only [edgeLE]
  by_cases h1 : a.1 < b.1
  · left; simp [h1]
  · by_cases h2 : b.1 < a.1
    · right; simp [h2]
    · by_cases h3 : a.2.1 < b.2.1
      · left; simp [h1, h2, h3]
      · by_cases h4 : b.2.1 < a.2.1
        · right; simp [h1, h2, h4]
        · rcases Nat.le_total a.2.2 b.2.2 with h5 | h5
          · left; simp [h1, h2, h3, h4, h5]
          · right; simp [h1, h2, h3, h4, h5]

theorem edgeLE_weight (a b : KE) (h : edgeLE a b = true) : a.1 ≤ b.1 := by
  simp only [edgeLE] at h
  split_ifs at h with h1 h2 h3 h4
  · exact le_of_lt h1
  · exact not_lt.mp h2
  · exact not_lt.mp h2

theorem edgeLE_src (a b : KE) (hw : a.1 = b.1) (h : edgeLE a b = true) :
    a.2.1 ≤ b.2.1 := by
  simp only [edgeLE, hw, lt_self_iff_false, if_false] at h
  split_ifs at h with h1 h2
  · exact le_of_lt h1
  · exact Nat.not_lt.mp h2

theorem edgeLE_dst (a b : KE) (hw : a.1 = b.1) (hs : a.2.1 = b.2.1)
    (h : edgeLE a b = true) : a.2.2 ≤ b.2.2 := by
  simp only [edgeLE, hw, hs, lt_self_iff_false, if_false,
    decide_eq_true_eq] at h
  exact h

theorem edgeLE_trans (a b c : KE) (h1 : edgeLE a b = true)
    (h2 : edgeLE b c = true) : edgeLE a c = true := by
  have hw1 : a.1 ≤ b.1 := edgeLE_weight a b h1
  have hw2 : b.1 ≤ c.1 := edgeLE_weight b c h2
  by_cases hac : a.1 < c.1
  · simp [edgeLE, hac]
  · have hca : c.1 ≤ a.1 := not_lt.mp hac
    have hab : a.1 = b.1 := le_antisymm hw1 (le_trans hw2 hca)
    have hbc : b.1 = c.1 := le_antisymm hw2 (le_trans hca hw1)
    have haceq : a.1 = c.1 := hab.trans hbc
    have hs1 : a.2.1 ≤ b.2.1 := edgeLE_src a b hab h1
    have hs2 : b.2.1 ≤ c.2.1 := edgeLE_src b c hbc h2
    simp only [edgeLE, haceq, lt_self_iff_false, if_false]
    by_cases hsac : a.2.1 < c.2.1
    · simp [hsac]
    · have hsca : c.2.1 ≤ a.2.1 := Nat.not_lt.mp hsac
      have hsab : a.2.1 = b.2.1 := Nat.le_antisymm hs1 (Nat.le_trans hs2 hsca)
      have hsbc : b.2.1 = c.2.1 := Nat.le_antisymm hs2 (Nat.le_trans hsca hs1)
      have hsaceq : a.2.1 = c.2.1 := hsab.trans hsbc
      have hd1 : a.2.2 ≤ b.2.2 := edgeLE_dst a b hab hsab h1
      have hd2 : b.2.2 ≤ c.2.2 := edgeLE_dst b c hbc hsbc h2
      simp only [hsaceq, lt_self_iff_false, if_false, decide_eq_true_eq]
      exact Nat.le_trans hd1 hd2

theorem insertEdge_perm (e : KE) :
    ∀ (l : List KE), (insertEdge e l).Perm (e :: l) := by
  intro l
  induction l with
  | nil => exact List.Perm.refl _
  | cons x xs ih =>
    by_cases h : edgeLE e x
    · rw [show insertEdge e (x :: xs) = e :: x :: xs by simp [insertEdge, h]]
    · rw [show insertEdge e (x :: xs) = x :: insertEdge e xs by simp [insertEdge, h]]
      exact (ih.cons x).trans (List.Perm.swap e x xs)

theorem sortEdges_perm : ∀ (l : List KE), (sortEdges l).Perm l := by
  intro l
  induction l with
  | nil => exact List.Perm.refl _
  | cons x xs ih =>
    exact (insertEdge_perm x (sortEdges xs)).trans (ih.cons x)

theorem insertEdge_pairwise (e : KE) :
    ∀ (l : List KE), l.Pairwise (fun a b => edgeLE a b = true) →
      (insertEdge e l).Pairwise (fun a b => edgeLE a b = true) := by
  intro l
  induction l with
  | nil =>
    intro _
    simp [insertEdge]
  | cons x xs ih =>
    intro hl
    obtain ⟨hx, hxs⟩ := List.pairwise_cons.mp hl
    by_cases h : edgeLE e x
    · rw [show insertEdge e (x :: xs) = e :: x :: xs by simp [insertEdge, h]]
      refine List.pairwise_cons.mpr ⟨?_, hl⟩
      intro b hb
      rcases List.mem_cons.mp hb with h' | h'
      · exact h' ▸ h
      · exact edgeLE_trans e x b h (hx b h')
    · rw [show insertEdge e (x :: xs) = x :: insertEdge e xs by simp [insertEdge, h]]
      refine List.pairwise_cons.mpr ⟨?_, ih hxs⟩
      intro b hb
      have hb' : b ∈ e :: xs := (insertEdge_perm e xs).mem_iff.mp hb
      rcases List.mem_cons.mp hb' with h' | h'
      · subst h'
        rcases edgeLE_total x b with ht | ht
        · exact ht
        · exact absurd ht h
      · exact hx b h'

theorem sortEdges_pairwise :
    ∀ (l : List KE), (sortEdges l).Pairwise (fun a b => edgeLE a b = true) := by
  intro l
  induction l with
  | nil => exact List.Pairwise.nil
  | cons x xs ih => exact insertEdge_pairwise x (sortEdges xs) ih

/-- Invariant proof for the Kruskal greedy loop: the returned total is the
weight of a minimum spanning tree. -/
theorem kruskalLoop_spec (g : Graph) (hwf : WF g) (hne : g.vertices ≠ []) :
    ∀ (rem done F : List KE) (uf : UF) (mst : List (V × V × W)) (tot : W),
      sortEdges (Eg g) = done ++ rem →
      F = mst.map (fun t => (t.2.2, t.1, t.2.1)) →
      (∀ t ∈ F, t ∈ Eg g) → F.Nodup → noSelfE F →
      (∀ t ∈ done, connE F t.2.1 t.2.2) →
      UFI g.vertices uf.parent (connE F) →
      tot = ewt F →
      (∃ T, isMST g T ∧ ∀ t ∈ F, t ∈ T) →
      ∃ T, isMST g T ∧
        (kruskalLoop g.vertices.length rem uf mst tot).2 = ewt T := by
  intro rem
  induction rem with
  | nil =>
    intro done F uf mst tot hsplit hFm hFE hFnd hFns hdone hufi htot hmst
    obtain ⟨T, hT, hFT⟩ := hmst
    obtain ⟨hTnd, hTE, hTns, hTconn, hTlen⟩ := hT.1
    have hdoneall : ∀ t ∈ T, connE F t.2.1 t.2.2 := by
      intro t ht
      apply hdone
      have : t ∈ sortEdges (Eg g) := (sortEdges_perm (Eg g)).mem_iff.mpr (hTE t ht)
      rw [hsplit, List.append_nil] at this
      exact this
    have hFspan : ∀ u v, u ∈ g.vertices → v ∈ g.vertices → connE F u v := by
      intro u v hu hv
      obtain ⟨q, hq⟩ := hTconn u v hu hv
      refine connE_of_steps T F ?_ q u v hq
      intro x y hxy
      obtain ⟨w, hw | hw⟩ := hxy
      · exact hdoneall (w, x, y) hw
      · exact connE_symm F y x (hdoneall (w, y, x) hw)
    have hlow : g.vertices.length ≤ F.length + 1 :=
      spanning_lower_bound g hwf F hFnd hFE hFspan hne
    have hsub : F.Subperm T := List.subperm_of_subset hFnd hFT
    have hlen : F.length = T.length := by
      have := hsub.length_le
      omega
    have hperm : F.Perm T := hsub.perm_of_length_le (by omega)
    exact ⟨T, hT, htot.trans (ewt_perm F T hperm)⟩
  | cons e rest ih =>
    intro done F uf mst tot hsplit hFm hFE hFnd hFns hdone hufi htot hmst
    obtain ⟨w, u, v⟩ := e
    have hmemS : (w, u, v) ∈ sortEdges (Eg g) := by
      rw [hsplit]
      exact List.mem_append_right _ (List.mem_cons_self _ _)
    have heE : (w, u, v) ∈ Eg g := (sortEdges_perm (Eg g)).mem_iff.mp hmemS
    have hu : u ∈ g.vertices := (Eg_closed g hwf (w, u, v) heE).1
    have hv : v ∈ g.vertices := (Eg_closed g hwf (w, u, v) heE).2
    have hfuel : uf.parent.length = g.vertices.length := by
      rw [← keys_length uf.parent, hufi.hkeys]
    have hRrefl : ∀ z ∈ g.vertices, connE F z z := fun z _ => connE_refl F z
    have hRtrans : ∀ x y z, connE F x y → connE F y z → connE F x z :=
      fun x y z => connE_trans F x y z
    have hRsymm : ∀ x y, connE F x y → connE F y x :=
      fun x y => connE_symm F x y
    rcases ufUnion_spec g.vertices (connE F) (connE (F ++ [(w, u, v)]))
        hRrefl hRtrans hRsymm uf u v hufi hu hv
        (fun x y _ _ => connE_snoc F (w, u, v) x y)
        uf.parent.length (by omega) with
      ⟨hflag, hRuv, hufi2⟩ | ⟨hflag, hnRuv, hufi3⟩
    · -- endpoints already connected: the edge is skipped
      have hstep : kruskalLoop g.vertices.length ((w, u, v) :: rest) uf mst tot =
          kruskalLoop g.vertices.length rest
            (ufUnion uf.parent.length uf u v).2 mst tot := by
        simp [kruskalLoop, hflag]
      rw [hstep]
      apply ih (done ++ [(w, u, v)]) F (ufUnion uf.parent.length uf u v).2 mst tot
      · rw [hsplit, List.append_assoc]
        rfl
      · exact hFm
      · exact hFE
      · exact hFnd
      · exact hFns
      · intro t ht
        rcases List.mem_append.mp ht with h | h
        · exact hdone t h
        · rw [List.mem_singleton.mp h]
          exact hRuv
      · exact hufi2
      · exact htot
      · exact hmst
    · -- new edge accepted
      have hune : u ≠ v := by
        intro hc
        exact hnRuv (hc ▸ connE_refl F u)
      have heF : (w, u, v) ∉ F := by
        intro hc
        exact hnRuv ⟨[v], ⟨w, Or.inl hc⟩, rfl⟩
      obtain ⟨T, hT, hFT⟩ := hmst
      have hFnc : ∀ t ∈ F, (connE F u t.2.1 ↔ connE F u t.2.2) := by
        intro t ht
        have hstep : connE F t.2.1 t.2.2 := ⟨[t.2.2], ⟨t.1, Or.inl ht⟩, rfl⟩
        exact ⟨fun h => connE_trans F u _ _ h hstep,
          fun h => connE_trans F u _ _ h (connE_symm F _ _ hstep)⟩
      have hsortedP := sortEdges_pairwise (Eg g)
      rw [hsplit] at hsortedP
      obtain ⟨_, hP2, _⟩ := List.pairwise_append.mp hsortedP
      have hetail : ∀ t ∈ rest, edgeLE (w, u, v) t = true :=
        (List.pairwise_cons.mp hP2).1
      have hmin : ∀ t ∈ Eg g,
          ((connE F u t.2.1 ∧ ¬ connE F u t.2.2) ∨
           (connE F u t.2.2 ∧ ¬ connE F u t.2.1)) → w ≤ t.1 := by
        intro t ht hcross
        have htS : t ∈ sortEdges (Eg g) := (sortEdges_perm (Eg g)).mem_iff.mpr ht
        rw [hsplit] at htS
        rcases List.mem_append.mp htS with h | h
        · exfalso
          have hc := hdone t h
          rcases hcross with ⟨h1, h2⟩ | ⟨h1, h2⟩
          · exact h2 (connE_trans F u _ _ h1 hc)
          · exact h2 (connE_trans F u _ _ h1 (connE_symm F _ _ hc))
        · rcases List.mem_cons.mp h with h' | h'
          · rw [h']
          · exact edgeLE_weight (w, u, v) t (hetail t h')
      obtain ⟨T', hT'ST, hT'le, hFT', heT'⟩ :=
        cut_exchange g hwf T hT.1 (connE F u) F hFT hFnc w u v heE
          (connE_refl F u) hnRuv hmin
      have hT'MST : isMST g T' :=
        ⟨hT'ST, fun T'' hT'' => le_trans hT'le (hT.2 T'' hT'')⟩
      have hF'E : ∀ t ∈ F ++ [(w, u, v)], t ∈ Eg g := by
        intro t ht
        rcases List.mem_append.mp ht with h | h
        · exact hFE t h
        · rw [List.mem_singleton.mp h]
          exact heE
      have hF'nd : (F ++ [(w, u, v)]).Nodup := by
        rw [List.nodup_append]
        exact ⟨hFnd, List.nodup_singleton _, by simpa using heF⟩
      have hF'ns : noSelfE (F ++ [(w, u, v)]) := by
        intro t ht
        rcases List.mem_append.mp ht with h | h
        · exact hFns t h
        · rw [List.mem_singleton.mp h]
          exact hune
      have hF'T' : ∀ t ∈ F ++ [(w, u, v)], t ∈ T' := by
        intro t ht
        rcases List.mem_append.mp ht with h | h
        · exact hFT' t h
        · rw [List.mem_singleton.mp h]
          exact heT'
      have hF'len : (F ++ [(w, u, v)]).length = mst.length + 1 := by
        rw [List.length_append, List.length_singleton, hFm, List.length_map]
      have hstep : kruskalLoop g.vertices.length ((w, u, v) :: rest) uf mst tot =
          (if (mst ++ [(u, v, w)]).length = g.vertices.length - 1 then
            (mst ++ [(u, v, w)], tot + w)
          else kruskalLoop g.vertices.length rest
            (ufUnion uf.parent.length uf u v).2 (mst ++ [(u, v, w)]) (tot + w)) := by
        simp [kruskalLoop, hflag]
      rw [hstep]
      by_cases hbreak : (mst ++ [(u, v, w)]).length = g.vertices.length - 1
      · rw [if_pos hbreak]
        refine ⟨T', hT'MST, ?_⟩
        have hlenT' : T'.length + 1 = g.vertices.length := hT'ST.2.2.2.2
        have hnpos : 1 ≤ g.vertices.length :=
          List.length_pos.mpr hne
        have hlenF' : (F ++ [(w, u, v)]).length = T'.length := by
          rw [hF'len]
          rw [List.length_append, List.length_singleton] at hbreak
          omega
        have hperm : (F ++ [(w, u, v)]).Perm T' :=
          (List.subperm_of_subset hF'nd hF'T').perm_of_length_le (by omega)
        have : tot + w = ewt (F ++ [(w, u, v)]) := by
          rw [ewt_append_single, htot]
        rw [show (mst ++ [(u, v, w)], tot + w).2 = tot + w from rfl, this]
        exact ewt_perm _ _ hperm
      · rw [if_neg hbreak]
        apply ih (done ++ [(w, u, v)]) (F ++ [(w, u, v)])
          (ufUnion uf.parent.length uf u v).2 (mst ++ [(u, v, w)]) (tot + w)
        · rw [hsplit, List.append_assoc]
          rfl
        · rw [List.map_append, hFm]
          rfl
        · exact hF'E
        · exact hF'nd
        · exact hF'ns
        · intro t ht
          rcases List.mem_append.mp ht with h | h
          · exact connE_mono F _ (fun s hs => List.mem_append_left _ hs) _ _
              (hdone t h)
          · rw [List.mem_singleton.mp h]
            exact ⟨[v], ⟨w, Or.inl (List.mem_append_right _ (by simp))⟩, rfl⟩
        · exact hufi3
        · rw [ewt_append_single, htot]
        · exact ⟨T', hT'MST, hF'T'⟩

/-- Kruskal returns the minimum spanning tree weight. -/
theorem kruskal_mst (g : Graph) (hwf : WF g) (hnp : noPar g)
    (hundir : g.is_directed = false)
    (hconn : ∀ u v, u ∈ g.vertices → v ∈ g.vertices → ∃ p, walk g u p v)
    (hne : g.vertices ≠ []) :
    ∃ T, isMST g T ∧ kruskalWeight g = some (ewt T) := by
  obtain ⟨T0, hT0⟩ := mst_exists g hwf hnp hundir hconn hne
  obtain ⟨T, hT, hres⟩ := kruskalLoop_spec g hwf hne (sortEdges (Eg g)) [] []
    (UF.init g.vertices) [] 0 (by simp) rfl (by simp) List.nodup_nil
    (fun t ht => absurd ht (List.not_mem_nil _))
    (fun t ht => absurd ht (List.not_mem_nil _))
    (ufi_init g.vertices hwf.nodup) (by simp [ewt])
    ⟨T0, hT0, fun t ht => absurd ht (List.not_mem_nil _)⟩
  refine ⟨T, hT, ?_⟩
  have hk : kruskal g = some (kruskalLoop g.vertices.length
      (sortEdges (Eg g)) (UF.init g.vertices) [] 0) := by
    rw [kruskal, hundir]
    rfl
  rw [kruskalWeight, hk, Option.map_some']
  exact congrArg some hres

/-! ### Prim loop correctness -/

theorem primPush_mem (src : V) (visited : List V) :
    ∀ (adj : Adj) (avail : List KE) (t : KE),
      t ∈ primPush src visited adj avail ↔
        t ∈ avail ∨ ∃ nb wt, t = (wt, src, nb) ∧ (nb, wt) ∈ adj ∧ nb ∉ visited := by
  intro adj
  induction adj with
  | nil =>
    intro avail t
    constructor
    · intro h
      exact Or.inl h
    · rintro (h | ⟨nb, wt, _, hmem, _⟩)
      · exact h
      · exact absurd hmem (List.not_mem_nil _)
  | cons q rest ih =>
    intro avail t
    obtain ⟨nb0, wt0⟩ := q
    by_cases hmem : nb0 ∈ visited
    · rw [show primPush src visited ((nb0, wt0) :: rest) avail =
          primPush src visited rest avail by simp [primPush, hmem]]
      rw [ih avail t]
      constructor
      · rintro (h | ⟨nb, wt, h1, h2, h3⟩)
        · exact Or.inl h
        · exact Or.inr ⟨nb, wt, h1, List.mem_cons_of_mem _ h2, h3⟩
      · rintro (h | ⟨nb, wt, h1, h2, h3⟩)
        · exact Or.inl h
        · rcases List.mem_cons.mp h2 with h' | h'
          · have : nb = nb0 := congrArg Prod.fst h'
            exact absurd (this ▸ hmem) h3
          · exact Or.inr ⟨nb, wt, h1, h', h3⟩
    · rw [show primPush src visited ((nb0, wt0) :: rest) avail =
          primPush src visited rest (avail ++ [(wt0, src, nb0)]) by
            simp [primPush, hmem]]
      rw [ih _ t]
      constructor
      · rintro (h | ⟨nb, wt, h1, h2, h3⟩)
        · rcases List.mem_append.mp h with h' | h'
          · exact Or.inl h'
          · exact Or.inr ⟨nb0, wt0, List.mem_singleton.mp h',
              List.mem_cons_self _ _, hmem⟩
        · exact Or.inr ⟨nb, wt, h1, List.mem_cons_of_mem _ h2, h3⟩
      · rintro (h | ⟨nb, wt, h1, h2, h3⟩)
        · exact Or.inl (List.mem_append_left _ h)
        · rcases List.mem_cons.mp h2 with h' | h'
          · refine Or.inl (List.mem_append_right _ ?_)
            rw [List.mem_singleton, h1]
            rw [show nb = nb0 from congrArg Prod.fst h',
              show wt = wt0 from congrArg Prod.snd h']
          · exact Or.inr ⟨nb, wt, h1, h', h3⟩

theorem primPush_length (src : V) (visited : List V) :
    ∀ (adj : Adj) (avail : List KE),
      (primPush src visited adj avail).length ≤ avail.length + adj.length := by
  intro adj
  induction adj with
  | nil =>
    intro avail
    simp [primPush]
  | cons q rest ih =>
    intro avail
    obtain ⟨nb0, wt0⟩ := q
    by_cases hmem : nb0 ∈ visited
    · rw [show primPush src visited ((nb0, wt0) :: rest) avail =
          primPush src visited rest avail by simp [primPush, hmem]]
      calc (primPush src visited rest avail).length
          ≤ avail.length + rest.length := ih avail
        _ ≤ avail.length + ((nb0, wt0) :: rest).length := by simp
    · rw [show primPush src visited ((nb0, wt0) :: rest) avail =
          primPush src visited rest (avail ++ [(wt0, src, nb0)]) by
            simp [primPush, hmem]]
      calc (primPush src visited rest (avail ++ [(wt0, src, nb0)])).length
          ≤ (avail ++ [(wt0, src, nb0)]).length + rest.length := ih _
        _ = avail.length + ((nb0, wt0) :: rest).length := by simp; omega

/-- Total adjacency degree of the not-yet-visited vertices. -/
def unvisdeg (g : Graph) (visited : List V) : Nat :=
  ((g.vertices.filter (fun z => decide (z ∉ visited))).map
    (fun z => (adjOf g z).length)).sum

theorem filter_snoc_sum (f : V → Nat) (visited : List V) (v : V) :
    ∀ (vs : List V), vs.Nodup → v ∈ vs → v ∉ visited →
      ((vs.filter (fun z => decide (z ∉ visited))).map f).sum =
      ((vs.filter (fun z => decide (z ∉ visited ++ [v]))).map f).sum + f v := by
  intro vs
  induction vs with
  | nil =>
    intro _ hv _
    exact absurd hv (List.not_mem_nil _)
  | cons x xs ih =>
    intro hnd hv hvv
    obtain ⟨hx, hxs⟩ := List.nodup_cons.mp hnd
    by_cases hxv : x = v
    · subst hxv
      have h1 : (x :: xs).filter (fun z => decide (z ∉ visited)) =
          x :: xs.filter (fun z => decide (z ∉ visited)) := by
        simp [List.filter_cons, hvv]
      have h2 : (x :: xs).filter (fun z => decide (z ∉ visited ++ [x])) =
          xs.filter (fun z => decide (z ∉ visited ++ [x])) := by
        simp [List.filter_cons]
      have h3 : xs.filter (fun z => decide (z ∉ visited ++ [x])) =
          xs.filter (fun z => decide (z ∉ visited)) := by
        apply List.filter_congr
        intro z hz
        have hzx : z ≠ x := fun hc => hx (hc ▸ hz)
        simp [List.mem_append, hzx]
      rw [h1, h2, h3]
      simp
      omega
    · have hvxs : v ∈ xs := by
        rcases List.mem_cons.mp hv with h | h
        · exact absurd h.symm hxv
        · exact h
      have hxcond : (x ∉ visited ++ [v]) ↔ (x ∉ visited) := by
        simp [List.mem_append, hxv]
      by_cases hxvis : x ∈ visited
      · have h1 : (x :: xs).filter (fun z => decide (z ∉ visited)) =
            xs.filter (fun z => decide (z ∉ visited)) := by
          simp [List.filter_cons, hxvis]
        have h2 : (x :: xs).filter (fun z => decide (z ∉ visited ++ [v])) =
            xs.filter (fun z => decide (z ∉ visited ++ [v])) := by
          simp [List.filter_cons, List.mem_append, hxvis]
        rw [h1, h2]
        exact ih hxs hvxs hvv
      · have h1 : (x :: xs).filter (fun z => decide (z ∉ visited)) =
            x :: xs.filter (fun z => decide (z ∉ visited)) := by
          simp [List.filter_cons, hxvis]
        have h2 : (x :: xs).filter (fun z => decide (z ∉ visited ++ [v])) =
            x :: xs.filter (fun z => decide (z ∉ visited ++ [v])) := by
          simp [List.filter_cons, List.mem_append, hxvis, hxv]
        rw [h1, h2]
        simp only [List.map_cons, List.sum_cons]
        rw [ih hxs hvxs hvv]
        omega

theorem unvisdeg_snoc (g : Graph) (hwf : WF g) (visited : List V) (v : V)
    (hv : v ∈ g.vertices) (hvv : v ∉ visited) :
    unvisdeg g visited = unvisdeg g (visited ++ [v]) + (adjOf g v).length :=
  filter_snoc_sum (fun z => (adjOf g z).length) visited v g.vertices
    hwf.nodup hv hvv

/-- First step of an adjacency walk out of the visited set. -/
theorem walk_first_exit (g : Graph) (vis : List V) :
    ∀ (p : List V) (u v : V), walk g u p v → u ∈ vis → v ∉ vis →
      ∃ x y, x ∈ vis ∧ y ∉ vis ∧ isEdge g x y := by
  intro p
  induction p with
  | nil =>
    intro u v h hu hv
    exact absurd ((show u = v from h) ▸ hu) hv
  | cons a p' ih =>
    intro u v h hu hv
    by_cases ha : a ∈ vis
    · exact ih a v h.2 ha hv
    · exact ⟨u, a, hu, ha, h.1⟩

theorem sum_adj_eq :
    ∀ (m : List (V × Adj)), (keys m).Nodup →
      (m.map (fun p => p.2.length)).sum =
      ((keys m).map (fun v => ((alookup m v).getD ([] : Adj)).length)).sum := by
  intro m
  induction m with
  | nil => intro _; rfl
  | cons p rest ih =>
    intro hnd
    obtain ⟨k, a⟩ := p
    obtain ⟨hk, hrest⟩ := List.nodup_cons.mp
      (show (k :: keys rest).Nodup from hnd)
    have hself : (alookup ((k, a) :: rest) k).getD ([] : Adj) = a := by
      simp [alookup]
    have hcongr : ((keys rest).map
        (fun v => ((alookup ((k, a) :: rest) v).getD ([] : Adj)).length)) =
        ((keys rest).map (fun v => ((alookup rest v).getD ([] : Adj)).length)) := by
      apply List.map_congr_left
      intro v hv
      have hvk : k ≠ v := fun hc => hk (hc ▸ hv)
      simp [alookup, hvk]
    rw [show keys ((k, a) :: rest) = k :: keys rest from rfl]
    simp only [List.map_cons, List.sum_cons, hself, hcongr]
    rw [ih hrest]

theorem adjSize_eq (g : Graph) (hwf : WF g) :
    adjSize g = (g.vertices.map (fun z => (adjOf g z).length)).sum := by
  rw [adjSize, sum_adj_eq g.adj_list (hwf.keys_eq ▸ hwf.nodup), hwf.keys_eq]
  rfl

theorem unvisdeg_nil (g : Graph) :
    unvisdeg g [] = (g.vertices.map (fun z => (adjOf g z).length)).sum := by
  rw [unvisdeg]
  congr 1
  rw [List.filter_eq_self.mpr]
  intro z _
  simp

/-- At loop exit the accumulated total is a minimum spanning tree weight. -/
theorem prim_exit (g : Graph) (hwf : WF g)
    (hconn : ∀ u v, u ∈ g.vertices → v ∈ g.vertices → ∃ p, walk g u p v)
    (avail : List KE) (visited : List V) (tot : W)
    (hnd : visited.Nodup) (hne' : visited ≠ [])
    (hsub : ∀ x ∈ visited, x ∈ g.vertices)
    (hcomp : ∀ x ∈ visited, ∀ nb wt, (nb, wt) ∈ adjOf g x → nb ∉ visited →
      (wt, x, nb) ∈ avail)
    (hinv : ∃ Fc, (∀ t ∈ Fc, t ∈ Eg g) ∧ Fc.Nodup ∧ noSelfE Fc ∧
      (∀ t ∈ Fc, t.2.1 ∈ visited ∧ t.2.2 ∈ visited) ∧
      (∀ x y, x ∈ visited → y ∈ visited → connE Fc x y) ∧
      Fc.length + 1 = visited.length ∧ ewt Fc = tot ∧
      (∃ T, isMST g T ∧ ∀ t ∈ Fc, t ∈ T))
    (hcond : avail.isEmpty = true ∨ g.vertices.length ≤ visited.length) :
    ∃ T, isMST g T ∧ tot = ewt T := by
  obtain ⟨Fc, hFcE, hFcnd, hFcns, hFcends, hFcconn, hFclen, hFcw, T, hT, hFcT⟩ :=
    hinv
  have hfull : g.vertices.length ≤ visited.length := by
    rcases hcond with h | h
    · by_contra hlt
      push_neg at hlt
      have hex : ∃ z ∈ g.vertices, z ∉ visited := by
        by_contra hc
        push_neg at hc
        exact absurd (subset_nodup_length_le g.vertices visited hwf.nodup hc)
          (by omega)
      obtain ⟨z, hz, hzv⟩ := hex
      obtain ⟨s, hs⟩ := List.exists_mem_of_ne_nil visited hne'
      obtain ⟨p, hp⟩ := hconn s z (hsub s hs) hz
      obtain ⟨x, y, hx, hy, hxy⟩ := walk_first_exit g visited p s z hp hs hzv
      obtain ⟨q, hq, hq1⟩ := hxy
      have hqadj : (y, q.2) ∈ adjOf g x := by
        rw [← hq1]
        exact hq
      have : (q.2, x, y) ∈ avail := hcomp x hx y q.2 hqadj hy
      rw [List.isEmpty_iff] at h
      rw [h] at this
      exact absurd this (List.not_mem_nil _)
    · exact h
  have hperm : visited.Perm g.vertices :=
    (List.subperm_of_subset hnd hsub).perm_of_length_le hfull
  have hspan : ∀ x y, x ∈ g.vertices → y ∈ g.vertices → connE Fc x y := by
    intro x y hx hy
    exact hFcconn x y (hperm.mem_iff.mpr hx) (hperm.mem_iff.mpr hy)
  have hTlen : T.length + 1 = g.vertices.length := hT.1.2.2.2.2
  have hFcsub : Fc.Subperm T := List.subperm_of_subset hFcnd hFcT
  have hFclen2 : Fc.length = T.length := by
    have h1 := hFcsub.length_le
    have h2 := hperm.length_eq
    omega
  have hFcperm : Fc.Perm T := hFcsub.perm_of_length_le (by omega)
  exact ⟨T, hT, hFcw ▸ ewt_perm Fc T hFcperm⟩

/-- Invariant proof for the Prim loop: it terminates within the fuel budget
and returns a minimum spanning tree weight. -/
theorem primLoop_spec (g : Graph) (hwf : WF g) (hnp : noPar g)
    (hundir : g.is_directed = false)
    (hconn : ∀ u v, u ∈ g.vertices → v ∈ g.vertices → ∃ p, walk g u p v) :
    ∀ (fuel : Nat) (avail : List KE) (visited : List V)
      (mst : List (V × V × W)) (tot : W),
      visited.Nodup → visited ≠ [] → (∀ x ∈ visited, x ∈ g.vertices) →
      (∀ t ∈ avail, t.2.1 ∈ visited ∧ (t.2.2, t.1) ∈ adjOf g t.2.1) →
      (∀ x ∈ visited, ∀ nb wt, (nb, wt) ∈ adjOf g x → nb ∉ visited →
        (wt, x, nb) ∈ avail) →
      avail.length + unvisdeg g visited ≤ fuel →
      (∃ Fc, (∀ t ∈ Fc, t ∈ Eg g) ∧ Fc.Nodup ∧ noSelfE Fc ∧
        (∀ t ∈ Fc, t.2.1 ∈ visited ∧ t.2.2 ∈ visited) ∧
        (∀ x y, x ∈ visited → y ∈ visited → connE Fc x y) ∧
        Fc.length + 1 = visited.length ∧ ewt Fc = tot ∧
        (∃ T, isMST g T ∧ ∀ t ∈ Fc, t ∈ T)) →
      ∃ T res, isMST g T ∧ primLoop g fuel avail visited mst tot = some res ∧
        res.2 = ewt T := by
  intro fuel
  induction fuel with
  | zero =>
    intro avail visited mst tot hnd hne' hsub hsound hcomp hfuel hinv
    have havail : avail = [] := by
      rw [← List.length_eq_zero]
      omega
    subst havail
    have hid : primLoop g 0 [] visited mst tot = some (mst, tot) := by
      rw [primLoop]
      simp
    obtain ⟨T, hT, htot⟩ := prim_exit g hwf hconn [] visited tot hnd hne' hsub
      hcomp hinv (Or.inl rfl)
    exact ⟨T, (mst, tot), hT, hid, htot⟩
  | succ f ih =>
    intro avail visited mst tot hnd hne' hsub hsound hcomp hfuel hinv
    by_cases hcond : avail.isEmpty = true ∨ g.vertices.length ≤ visited.length
    · have hid : primLoop g (f + 1) avail visited mst tot = some (mst, tot) := by
        rw [primLoop, if_pos hcond]
      obtain ⟨T, hT, htot⟩ := prim_exit g hwf hconn avail visited tot hnd hne'
        hsub hcomp hinv hcond
      exact ⟨T, (mst, tot), hT, hid, htot⟩
    · have hperm0 := sortEdges_perm avail
      rcases hsort : sortEdges avail with _ | ⟨e0, srest⟩
      · exfalso
        rw [hsort] at hperm0
        have : avail = [] := (List.Perm.nil_eq hperm0).symm
        apply hcond
        rw [this]
        exact Or.inl rfl
      · obtain ⟨w, u, v⟩ := e0
        rw [hsort] at hperm0
        have hheadA : (w, u, v) ∈ avail :=
          hperm0.mem_iff.mp (List.mem_cons_self _ _)
        obtain ⟨huvis, hadj⟩ := hsound (w, u, v) hheadA
        have hvV : v ∈ g.vertices := hwf.closed u (v, w) hadj
        have hpair := sortEdges_pairwise avail
        rw [hsort] at hpair
        have htail : ∀ t ∈ srest, edgeLE (w, u, v) t = true :=
          (List.pairwise_cons.mp hpair).1
        have hsortedmin : ∀ t ∈ (w, u, v) :: srest, w ≤ t.1 := by
          intro t ht
          rcases List.mem_cons.mp ht with h | h
          · rw [h]
          · exact edgeLE_weight _ _ (htail t h)
        by_cases hvvis : v ∈ visited
        · -- stale entry: skipped
          have hid : primLoop g (f + 1) avail visited mst tot =
              primLoop g f srest visited mst tot := by
            rw [primLoop, if_neg hcond, hsort]
            simp [hvvis]
          rw [hid]
          apply ih srest visited mst tot hnd hne' hsub
          · intro t ht
            exact hsound t (hperm0.mem_iff.mp (List.mem_cons_of_mem _ ht))
          · intro x hx nb wt hnbw hnb
            have : (wt, x, nb) ∈ (w, u, v) :: srest :=
              hperm0.mem_iff.mpr (hcomp x hx nb wt hnbw hnb)
            rcases List.mem_cons.mp this with h | h
            · exfalso
              apply hnb
              have : nb = v := congrArg (fun t : KE => t.2.2) h
              rw [this]
              exact hvvis
            · exact h
          · have := hperm0.length_eq
            simp only [List.length_cons] at this
            omega
          · exact hinv
        · -- accept the edge
          have hune : u ≠ v := fun hc => hvvis (hc ▸ huvis)
          obtain ⟨Fc, hFcE, hFcnd, hFcns, hFcends, hFcconn, hFclen, hFcw,
            T, hT, hFcT⟩ := hinv
          -- the minimality of w among crossing edges
          have hminw : ∀ t ∈ Eg g,
              ((t.2.1 ∈ visited ∧ t.2.2 ∉ visited) ∨
               (t.2.2 ∈ visited ∧ t.2.1 ∉ visited)) → w ≤ t.1 := by
            intro t ht hcross
            have htadj := Eg_sound g t ht
            rcases hcross with ⟨h1, h2⟩ | ⟨h1, h2⟩
            · have hm : (t.1, t.2.1, t.2.2) ∈ avail :=
                hcomp t.2.1 h1 t.2.2 t.1 htadj.2 h2
              exact hsortedmin (t.1, t.2.1, t.2.2) (hperm0.mem_iff.mpr hm)
            · have hsym : (t.2.1, t.1) ∈ adjOf g t.2.2 :=
                hwf.symm hundir t.2.1 t.2.2 t.1 htadj.2
              have hm : (t.1, t.2.2, t.2.1) ∈ avail :=
                hcomp t.2.2 h1 t.2.1 t.1 hsym h2
              exact hsortedmin (t.1, t.2.2, t.2.1) (hperm0.mem_iff.mpr hm)
          -- orientation of the collected edge
          have horient := Eg_complete g hwf hnp hundir u v hune w hadj
          obtain ⟨ec, hecEg, hece⟩ :
              ∃ ec, ec ∈ Eg g ∧ (ec = (w, u, v) ∨ ec = (w, v, u)) := by
            rcases horient with h | h
            · exact ⟨(w, u, v), h, Or.inl rfl⟩
            · exact ⟨(w, v, u), h, Or.inr rfl⟩
          have hec1 : ec.1 = w := by rcases hece with h | h <;> rw [h]
          have hecnotFc : ec ∉ Fc := by
            intro hc
            have hends := hFcends ec hc
            rcases hece with h | h
            · apply hvvis
              rw [h] at hends
              exact hends.2
            · apply hvvis
              rw [h] at hends
              exact hends.1
          have hFcnc2 : ∀ t ∈ Fc, t.2.1 ∈ visited ↔ t.2.2 ∈ visited := by
            intro t ht
            exact ⟨fun _ => (hFcends t ht).2, fun _ => (hFcends t ht).1⟩
          -- exchange into a minimum spanning tree containing Fc and ec
          have hcut : ∃ T', isMST g T' ∧ (∀ t ∈ Fc, t ∈ T') ∧ ec ∈ T' := by
            rcases hece with h | h
            · obtain ⟨T', hST, hle, hFT', heT'⟩ :=
                cut_exchange g hwf T hT.1 (fun z => z ∈ visited) Fc hFcT
                  (fun t ht => hFcnc2 t ht) w u v (h ▸ hecEg) huvis hvvis
                  (fun t ht hcr => hminw t ht hcr)
              exact ⟨T', ⟨hST, fun T'' hT'' => le_trans hle (hT.2 T'' hT'')⟩,
                hFT', h ▸ heT'⟩
            · have hmin' : ∀ t ∈ Eg g,
                  ((t.2.1 ∉ visited ∧ ¬ t.2.2 ∉ visited) ∨
                   (t.2.2 ∉ visited ∧ ¬ t.2.1 ∉ visited)) → w ≤ t.1 := by
                intro t ht hcr
                apply hminw t ht
                rcases hcr with ⟨h1, h2⟩ | ⟨h1, h2⟩
                · exact Or.inr ⟨not_not.mp h2, h1⟩
                · exact Or.inl ⟨not_not.mp h2, h1⟩
              obtain ⟨T', hST, hle, hFT', heT'⟩ :=
                cut_exchange g hwf T hT.1 (fun z => z ∉ visited) Fc hFcT
                  (fun t ht => not_iff_not.mpr (hFcnc2 t ht)) w v u
                  (h ▸ hecEg) hvvis (not_not_intro huvis) hmin'
              exact ⟨T', ⟨hST, fun T'' hT'' => le_trans hle (hT.2 T'' hT'')⟩,
                hFT', h ▸ heT'⟩
          obtain ⟨T', hT'MST, hFcT', hecT'⟩ := hcut
          -- set up the recursive call
          have hid : primLoop g (f + 1) avail visited mst tot =
              primLoop g f (primPush v (visited ++ [v]) (adjOf g v) srest)
                (visited ++ [v]) (mst ++ [(u, v, w)]) (tot + w) := by
            rw [primLoop, if_neg hcond, hsort]
            simp [hvvis]
          rw [hid]
          have hvnd : (visited ++ [v]).Nodup := by
            rw [List.nodup_append]
            exact ⟨hnd, List.nodup_singleton _, by simpa using hvvis⟩
          have hmonoF : ∀ a b, connE Fc a b → connE (Fc ++ [ec]) a b :=
            fun a b => connE_mono _ _ (fun t ht => List.mem_append_left _ ht) a b
          have hestep : connE (Fc ++ [ec]) u v := by
            rcases hece with h | h
            · exact ⟨[v], ⟨w, Or.inl (by
                rw [← h]
                exact List.mem_append_right _ (List.mem_singleton.mpr rfl))⟩, rfl⟩
            · exact ⟨[v], ⟨w, Or.inr (by
                rw [← h]
                exact List.mem_append_right _ (List.mem_singleton.mpr rfl))⟩, rfl⟩
          apply ih (primPush v (visited ++ [v]) (adjOf g v) srest)
            (visited ++ [v]) (mst ++ [(u, v, w)]) (tot + w) hvnd (by simp)
          · intro x hx
            rcases List.mem_append.mp hx with h | h
            · exact hsub x h
            · rw [List.mem_singleton.mp h]
              exact hvV
          · intro t ht
            rcases (primPush_mem v (visited ++ [v]) (adjOf g v) srest t).mp ht with
              h | ⟨nb, wt, h1, h2, h3⟩
            · obtain ⟨hs1, hs2⟩ :=
                hsound t (hperm0.mem_iff.mp (List.mem_cons_of_mem _ h))
              exact ⟨List.mem_append_left _ hs1, hs2⟩
            · rw [h1]
              exact ⟨List.mem_append_right _ (List.mem_singleton.mpr rfl), h2⟩
          · intro x hx nb wt hnbw hnb
            rcases List.mem_append.mp hx with h | h
            · have hnbvis : nb ∉ visited := fun hc =>
                hnb (List.mem_append_left _ hc)
              have hmem : (wt, x, nb) ∈ (w, u, v) :: srest :=
                hperm0.mem_iff.mpr (hcomp x h nb wt hnbw hnbvis)
              rcases List.mem_cons.mp hmem with h' | h'
              · exfalso
                apply hnb
                have : nb = v := congrArg (fun t : KE => t.2.2) h'
                rw [this]
                exact List.mem_append_right _ (List.mem_singleton.mpr rfl)
              · exact (primPush_mem v (visited ++ [v]) (adjOf g v) srest _).mpr
                  (Or.inl h')
            · rw [List.mem_singleton.mp h] at hnbw ⊢
              exact (primPush_mem v (visited ++ [v]) (adjOf g v) srest _).mpr
                (Or.inr ⟨nb, wt, rfl, hnbw, hnb⟩)
          · have hpl := primPush_length v (visited ++ [v]) (adjOf g v) srest
            have hlen := hperm0.length_eq
            simp only [List.length_cons] at hlen
            have hud := unvisdeg_snoc g hwf visited v hvV hvvis
            omega
          · refine ⟨Fc ++ [ec], ?_, ?_, ?_, ?_, ?_, ?_, ?_, T', hT'MST, ?_⟩
            · intro t ht
              rcases List.mem_append.mp ht with h | h
              · exact hFcE t h
              · rw [List.mem_singleton.mp h]
                exact hecEg
            · rw [List.nodup_append]
              exact ⟨hFcnd, List.nodup_singleton _, by simpa using hecnotFc⟩
            · intro t ht
              rcases List.mem_append.mp ht with h | h
              · exact hFcns t h
              · rw [List.mem_singleton.mp h]
                rcases hece with h' | h' <;> rw [h']
                · exact hune
                · exact Ne.symm hune
            · intro t ht
              rcases List.mem_append.mp ht with h | h
              · exact ⟨List.mem_append_left _ (hFcends t h).1,
                  List.mem_append_left _ (hFcends t h).2⟩
              · rw [List.mem_singleton.mp h]
                rcases hece with h' | h' <;> rw [h']
                · exact ⟨List.mem_append_left _ huvis,
                    List.mem_append_right _ (List.mem_singleton.mpr rfl)⟩
                · exact ⟨List.mem_append_right _ (List.mem_singleton.mpr rfl),
                    List.mem_append_left _ huvis⟩
            · intro x y hx hy
              rcases List.mem_append.mp hx with hx' | hx' <;>
                rcases List.mem_append.mp hy with hy' | hy'
              · exact hmonoF x y (hFcconn x y hx' hy')
              · rw [List.mem_singleton.mp hy']
                exact connE_trans _ x u v
                  (hmonoF x u (hFcconn x u hx' huvis)) hestep
              · rw [List.mem_singleton.mp hx']
                exact connE_trans _ v u y (connE_symm _ u v hestep)
                  (hmonoF u y (hFcconn u y huvis hy'))
              · rw [List.mem_singleton.mp hx', List.mem_singleton.mp hy']
                exact connE_refl _ v
            · simp only [List.length_append, List.length_singleton]
              omega
            · rw [ewt_append_single, hec1, hFcw]
            · intro t ht
              rcases List.mem_append.mp ht with h | h
              · exact hFcT' t h
              · rw [List.mem_singleton.mp h]
                exact hecT'

/-- Prim returns the minimum spanning tree weight. -/
theorem prim_mst (g : Graph) (hwf : WF g) (hnp : noPar g)
    (hundir : g.is_directed = false)
    (hconn : ∀ u v, u ∈ g.vertices → v ∈ g.vertices → ∃ p, walk g u p v)
    (hne : g.vertices ≠ []) :
    ∃ T, isMST g T ∧ primWeight g = some (ewt T) := by
  obtain ⟨T0, hT0⟩ := mst_exists g hwf hnp hundir hconn hne
  obtain ⟨s, vrest, hvs⟩ : ∃ s vrest, g.vertices = s :: vrest := by
    cases hv : g.vertices with
    | nil => exact absurd hv hne
    | cons a l => exact ⟨a, l, rfl⟩
  have hsV : s ∈ g.vertices := by
    rw [hvs]
    exact List.mem_cons_self _ _
  have hsound0 : ∀ t ∈ primPush s [s] (adjOf g s) [],
      t.2.1 ∈ [s] ∧ (t.2.2, t.1) ∈ adjOf g t.2.1 := by
    intro t ht
    rcases (primPush_mem s [s] (adjOf g s) [] t).mp ht with h | ⟨nb, wt, h1, h2, _⟩
    · exact absurd h (List.not_mem_nil _)
    · rw [h1]
      exact ⟨List.mem_singleton.mpr rfl, h2⟩
  have hcomp0 : ∀ x ∈ [s], ∀ nb wt, (nb, wt) ∈ adjOf g x → nb ∉ [s] →
      (wt, x, nb) ∈ primPush s [s] (adjOf g s) [] := by
    intro x hx nb wt hnbw hnb
    rw [List.mem_singleton.mp hx] at hnbw ⊢
    exact (primPush_mem s [s] (adjOf g s) [] _).mpr
      (Or.inr ⟨nb, wt, rfl, hnbw, hnb⟩)
  have hfuel0 : (primPush s [s] (adjOf g s) []).length + unvisdeg g [s] ≤
      adjSize g + 1 := by
    have hpl := primPush_length s [s] (adjOf g s) []
    have hud : unvisdeg g [] = unvisdeg g ([] ++ [s]) + (adjOf g s).length :=
      unvisdeg_snoc g hwf [] s hsV (List.not_mem_nil _)
    have hun : unvisdeg g [] =
        (g.vertices.map (fun z => (adjOf g z).length)).sum := unvisdeg_nil g
    have hadjs := adjSize_eq g hwf
    simp only [List.nil_append] at hud
    simp only [List.length_nil] at hpl
    omega
  have hinv0 : ∃ Fc, (∀ t ∈ Fc, t ∈ Eg g) ∧ Fc.Nodup ∧ noSelfE Fc ∧
      (∀ t ∈ Fc, t.2.1 ∈ [s] ∧ t.2.2 ∈ [s]) ∧
      (∀ x y, x ∈ [s] → y ∈ [s] → connE Fc x y) ∧
      Fc.length + 1 = ([s] : List V).length ∧ ewt Fc = 0 ∧
      (∃ T, isMST g T ∧ ∀ t ∈ Fc, t ∈ T) := by
    refine ⟨[], fun t ht => absurd ht (List.not_mem_nil _), List.nodup_nil,
      fun t ht => absurd ht (List.not_mem_nil _),
      fun t ht => absurd ht (List.not_mem_nil _), ?_, rfl, rfl,
      T0, hT0, fun t ht => absurd ht (List.not_mem_nil _)⟩
    intro x y hx hy
    rw [List.mem_singleton.mp hx, List.mem_singleton.mp hy]
    exact connE_refl [] s
  obtain ⟨T, res, hT, hloop, hres⟩ :=
    primLoop_spec g hwf hnp hundir hconn (adjSize g + 1)
      (primPush s [s] (adjOf g s) []) [s] [] 0
      (List.nodup_singleton _) (by simp)
      (fun x hx => (List.mem_singleton.mp hx) ▸ hsV)
      hsound0 hcomp0 hfuel0 hinv0
  have hp : prim g = primLoop g (adjSize g + 1)
      (primPush s [s] (adjOf g s) []) [s] [] 0 := by
    rw [prim, hundir, hvs]
    rfl
  refine ⟨T, hT, ?_⟩
  rw [primWeight, hp, hloop, Option.map_some']
  exact congrArg some hres

/-! ### Claim C1 -/

/-- Multigraph on two vertices with two parallel edges of weights 10 and 4:
the Python add_edge calls record both, Kruskal deduplicates the pair keeping
the first (heavier) edge while Prim picks the lighter one. -/
def gpar : Graph :=
  applyOps (Graph.init [] false true) [Op.addE 0 1 10, Op.addE 0 1 4]

/-- C1 counterexample: the claim as stated fails on the code. On a connected
weighted undirected graph with parallel edges (A-B with weights 10 and 4)
kruskal returns total_weight 10 while prim returns 4; and on the empty graph
(vacuously connected) kruskal returns a result with total_weight 0 while prim
raises IndexError and returns nothing. -/
theorem C1_kruskal_prim_counterexample :
    gpar.is_directed = false ∧ gpar.is_weighted = true ∧
    (∀ u ∈ gpar.vertices, ∀ v ∈ gpar.vertices, ∃ p, walk gpar u p v) ∧
    kruskalWeight gpar = some 10 ∧ primWeight gpar = some 4 ∧
    kruskalWeight (Graph.init [] false true) = some 0 ∧
    primWeight (Graph.init [] false true) = none := by
  refine ⟨by decide, by decide, ?_, by decide, by decide, by decide, by decide⟩
  intro u hu v hv
  have hvs : gpar.vertices = [0, 1] := by decide
  rw [hvs] at hu hv
  rcases List.mem_cons.mp hu with h | h
  · subst h
    rcases List.mem_cons.mp hv with h' | h'
    · subst h'
      exact ⟨[], rfl⟩
    · rw [List.mem_singleton.mp h']
      exact ⟨[1], by decide, rfl⟩
  · rw [List.mem_singleton.mp h]
    rcases List.mem_cons.mp hv with h' | h'
    · rw [h']
      exact ⟨[0], by decide, rfl⟩
    · rw [List.mem_singleton.mp h']
      exact ⟨[], rfl⟩

/-- C1 (amended): for every reachable connected weighted undirected graph that
is nonempty and has no parallel edges, kruskal and prim return results with
equal total_weight. -/
theorem C1_kruskal_prim_equal_weight (vs : List V) (wt : Bool) (ops : List Op)
    (g : Graph) (hnd : vs.Nodup)
    (hg : g = applyOps (Graph.init vs false wt) ops)
    (hnopar : ∀ u v, u ≠ v → ((adjOf g u).map Prod.fst).count v ≤ 1)
    (hconn : ∀ u v, u ∈ g.vertices → v ∈ g.vertices → ∃ p, walk g u p v)
    (hne : g.vertices ≠ []) :
    ∃ t, kruskalWeight g = some t ∧ primWeight g = some t := by
  have hwf : WF g := hg ▸ wf_applyOps _ ops (wf_init vs false wt hnd)
  have hundir : g.is_directed = false := by
    rw [hg]
    exact (applyOps_flags _ ops).1
  obtain ⟨T1, hT1, hk⟩ := kruskal_mst g hwf hnopar hundir hconn hne
  obtain ⟨T2, hT2, hp⟩ := prim_mst g hwf hnopar hundir hconn hne
  have heq : ewt T1 = ewt T2 := le_antisymm (hT1.2 T2 hT2.1) (hT2.2 T1 hT1.1)
  exact ⟨ewt T1, hk, by rw [heq]; exact hp⟩

/-- Witness: the amended claim instantiated on the single-edge graph 0-1. -/
theorem C1_kruskal_prim_equal_weight_witness :
    ∃ t, kruskalWeight (applyOps (Graph.init [] false true) [Op.addE 0 1 5]) =
        some t ∧
      primWeight (applyOps (Graph.init [] false true) [Op.addE 0 1 5]) =
        some t := by
  apply C1_kruskal_prim_equal_weight [] true [Op.addE 0 1 5] _
    List.nodup_nil rfl
  · intro u v _
    have hlen : (adjOf (applyOps (Graph.init [] false true)
        [Op.addE 0 1 5]) u).length ≤ 1 := by
      by_cases h0 : u = 0
      · subst h0; decide
      · by_cases h1 : u = 1
        · subst h1; decide
        · have : adjOf (applyOps (Graph.init [] false true)
              [Op.addE 0 1 5]) u = [] := by
            show (alookup (applyOps (Graph.init [] false true)
              [Op.addE 0 1 5]).adj_list u).getD [] = []
            have h0' : (0 : V) ≠ u := Ne.symm h0
            have h1' : (1 : V) ≠ u := Ne.symm h1
            simp [alookup, h0', h1', show (applyOps (Graph.init [] false true)
              [Op.addE 0 1 5]).adj_list =
              [(0, [(1, 5)]), (1, [(0, 5)])] from by decide]
          rw [this]
          simp
    exact le_trans (List.count_le_length _ _) (by simpa using hlen)
  · intro u v hu hv
    have hvs : (applyOps (Graph.init [] false true)
        [Op.addE 0 1 5]).vertices = [0, 1] := by decide
    rw [hvs] at hu hv
    rcases List.mem_cons.mp hu with h | h
    · subst h
      rcases List.mem_cons.mp hv with h' | h'
      · rw [h']
        exact ⟨[], rfl⟩
      · rw [List.mem_singleton.mp h']
        exact ⟨[1], by decide, rfl⟩
    · rw [List.mem_singleton.mp h]
      rcases List.mem_cons.mp hv with h' | h'
      · rw [h']
        exact ⟨[0], by decide, rfl⟩
      · rw [List.mem_singleton.mp h']
        exact ⟨[], rfl⟩
  · decide

end PyGraph
